import Mathlib

/-!
Verification of the `roughfeel` repository (rust): shallow embedding of the
core algorithms over exact rational arithmetic, together with proofs that
settle the frozen claims about the natural-language specification.

Floating point values of the source (`f32` / `f64`) are modelled as `ℚ`;
every arithmetic operation of the source is exact on the inputs the claims
use, so the rational model reproduces the source's control flow faithfully.
Rust panics and non-terminating loops are modelled by `Option`-valued
functions returning `none` (recursion receives explicit fuel that dominates
the number of iterations the Rust loop performs whenever it terminates).
-/

namespace Roughfeel

/-- `Point2<F>` of nalgebra / euclid: a plain (x, y) pair. -/
structure Pt where
  x : ℚ
  y : ℚ
  deriving DecidableEq, Repr, Inhabited

namespace PointsOnCurve

/-- Rational absolute value written with an explicit branch so that concrete
instances reduce in the kernel. -/
def ratAbs (q : ℚ) : ℚ := if q < 0 then -q else q

/-- Rational maximum (kernel-reducible; models `max_by` / `F::max`). -/
def ratMax (a b : ℚ) : ℚ := if a < b then b else a

/-- Rational minimum (kernel-reducible; models `min_by` / `F::min`). -/
def ratMin (a b : ℚ) : ℚ := if b < a then b else a

/-- `distance_between_two_points` of `points_on_curve/src/lib.rs`:
the source computes `((p.x - v.x)^2 * (p.y - v.y)^2).sqrt()` — note the
product (not a sum) under the square root, so the value is exactly
`|(p.x - v.x) * (p.y - v.y)|`, which is rational and needs no square root. -/
def distance_between_two_points (p v : Pt) : ℚ :=
  ratAbs ((p.x - v.x) * (p.y - v.y))

/-- `lerp_two_points` of `points_on_curve/src/lib.rs`. -/
def lerp_two_points (p v : Pt) (w : ℚ) : Pt :=
  ⟨p.x + (v.x - p.x) * w, p.y + (v.y - p.y) * w⟩

/-- `distance_to_segment_squared` of `points_on_curve/src/lib.rs`.
`.powi(2)` is written as a product. The clamp `max_by(0, min_by(1, t))` is
total on rationals (the `partial_cmp` panic of the source is reachable only
for NaN, which has no rational model). -/
def distance_to_segment_squared (p v w : Pt) : ℚ :=
  let l2 := distance_between_two_points v w * distance_between_two_points v w
  if l2 = 0 then
    distance_between_two_points p v * distance_between_two_points p v
  else
    let t0 := ((p.x - v.x) * (w.x - v.x) + (p.y - v.y) * (w.y - v.y)) / l2
    let t := ratMax 0 (ratMin 1 t0)
    let d := distance_between_two_points p (lerp_two_points v w t)
    d * d

/-- The comparison `max_dist_sq.sqrt() > epsilon` of `simplify_points`.
`max_dist_sq` is always a square of a rational in this code, hence
nonnegative, and for `m ≥ 0` the float comparison `sqrt m > e` is equivalent
to `e < 0 ∨ e² < m`; this rational form avoids the irrational square root. -/
def sqrt_gt (m e : ℚ) : Bool :=
  e < 0 || e * e < m

/-- The scan loop of `simplify_points`: folds over the enumerated interior
points, keeping the strict-running-maximum squared distance and the index of
the first point attaining it (initial accumulator `(0, 0)` as in the source:
`max_dist_sq = 0`, `max_ndx = 0`). -/
def maxScan (s e : Pt) : List (ℕ × Pt) → (ℚ × ℕ) → (ℚ × ℕ)
  | [], acc => acc
  | (i, p) :: rest, acc =>
      let dsq := distance_to_segment_squared p s e
      maxScan s e rest (if acc.1 < dsq then (dsq, i) else acc)

/-- The list scanned by `simplify_points`:
`points.iter().enumerate().take(end - 1).skip(start + 1)`. -/
def scanList (points : List Pt) (start e : ℕ) : List (ℕ × Pt) :=
  (points.enum.take (e - 1)).drop (start + 1)

/-- `simplify_points` of `points_on_curve/src/lib.rs`, with explicit fuel.
`none` models the two failure modes of the source: an out-of-range index
(Rust panic: `points[start]` / `points[end - 1]`) and fuel exhaustion, which
only happens when the Rust recursion does not terminate (every terminating
run has recursion depth at most the span size, and callers pass more fuel
than that). The accumulator `new_points` is threaded exactly as in the
source: pushed-to by the leaves, returned at the end. -/
def simplify_points (fuel : ℕ) (points : List Pt) (start e : ℕ) (epsilon : ℚ)
    (new_points : List Pt) : Option (List Pt) :=
  match fuel with
  | 0 => none
  | fuel + 1 =>
    if e = 0 then none
    else
      match points[start]?, points[e - 1]? with
      | some s, some ep =>
        let m := maxScan s ep (scanList points start e) (0, 0)
        if sqrt_gt m.1 epsilon then
          match simplify_points fuel points start (m.2 + 1) epsilon new_points with
          | none => none
          | some acc1 => simplify_points fuel points m.2 e epsilon acc1
        else
          some ((if new_points.isEmpty then new_points ++ [s] else new_points) ++ [ep])
      | _, _ => none

/-- `simplify` of `points_on_curve/src/lib.rs`. Fuel `points.length + 1`
dominates the recursion depth of every terminating run of the source
(each recursive call strictly shrinks the span `end - start`). -/
def simplify (points : List Pt) (distance : ℚ) : Option (List Pt) :=
  simplify_points (points.length + 1) points 0 points.length distance []

/-- The `points_in.len() >= 4` branch of `curve_to_bezier`: the source first
builds `points = [p0, p0, p1, …, p(n-1), p(n-1)]` and then emits `points[0]`
followed by three control points per index `1 ≤ i ≤ points.len() - 3`. -/
def curve_to_bezier_core (points_in : List Pt) (curve_tightness : ℚ) :
    List Pt :=
  let points := points_in.head! :: points_in ++ [points_in.getLast!]
  let s : ℚ := 1 - curve_tightness
  let seg : ℕ → List Pt := fun i =>
    let pm := points.getD (i - 1) ⟨0, 0⟩
    let p0 := points.getD i ⟨0, 0⟩
    let p1 := points.getD (i + 1) ⟨0, 0⟩
    let p2 := points.getD (i + 2) ⟨0, 0⟩
    [⟨p0.x + (s * p1.x - s * pm.x) / 6, p0.y + (s * p1.y - s * pm.y) / 6⟩,
     ⟨p1.x + (s * p0.x - s * p2.x) / 6, p1.y + (s * p0.y - s * p2.y) / 6⟩,
     ⟨p1.x, p1.y⟩]
  points.getD 0 ⟨0, 0⟩ :: (List.range' 1 (points.length - 3)).flatMap seg

/-- `curve_to_bezier` of `points_on_curve/src/lib.rs`. The source's 3-point
branch duplicates the last point and recurses once; the recursive call then
always takes the `≥ 4` branch (`curve_to_bezier_core`), which is how it is
written here so that the definition stays structurally recursive-free and
kernel-computable. Fewer than 3 points: `None`. -/
def curve_to_bezier (points_in : List Pt) (curve_tightness : ℚ) :
    Option (List Pt) :=
  if points_in.length < 3 then none
  else if points_in.length = 3 then
    some (curve_to_bezier_core (points_in ++ [points_in.getLast!]) curve_tightness)
  else
    some (curve_to_bezier_core points_in curve_tightness)

/-- The leaf-boundary indices of `simplify_points`, mirroring its recursion
exactly (same guards, same fuel discipline) but recording which input
indices the leaves push instead of threading the accumulator: a leaf
contributes `[start, e-1]` and a split concatenates the two halves, the
shared split index kept once. -/
def dpIdx (fuel : ℕ) (points : List Pt) (start e : ℕ) (epsilon : ℚ) :
    Option (List ℕ) :=
  match fuel with
  | 0 => none
  | fuel + 1 =>
    if e = 0 then none
    else
      match points[start]?, points[e - 1]? with
      | some s, some ep =>
        let m := maxScan s ep (scanList points start e) (0, 0)
        if sqrt_gt m.1 epsilon then
          match dpIdx fuel points start (m.2 + 1) epsilon,
              dpIdx fuel points m.2 e epsilon with
          | some i1, some i2 => some (i1 ++ i2.tail)
          | _, _ => none
        else some [start, e - 1]
      | _, _ => none

end PointsOnCurve

namespace Graphics

open Roughfeel.PointsOnCurve (ratAbs ratMax ratMin)

/-- The trigonometric and square-root functions supplied by the external
libraries (`nalgebra`'s `Rotation2`, `Float::cos/sin/atan/sqrt`). They are
irrational on most rational inputs, so the embedding is parametrised over an
arbitrary implementation; no claim below depends on their values. -/
structure ExtMath where
  cos : ℚ → ℚ
  sin : ℚ → ℚ
  atan : ℚ → ℚ
  sqrt : ℚ → ℚ

/-- A trivially computable instance used by concrete witnesses (the claims
quantify over every `ExtMath`). -/
def ExtMath.triv : ExtMath :=
  ⟨fun _ => 1, fun _ => 0, fun _ => 0, fun _ => 0⟩

/-- Model of the external `rand_chacha::ChaCha8Rng` stream: `gen::<f64>()`
yields a value in `[0, 1)` determined by the current state, and advances the
state. The exact output values of ChaCha8 are irrelevant to every claim;
only determinism-per-seed and the state advance are, which this linear
congruential model shares. -/
structure Randomizer where
  state : ℕ
  deriving DecidableEq, Repr

/-- `ChaCha8Rng::seed_from_u64`. -/
def Randomizer.seed_from_u64 (s : ℕ) : Randomizer := ⟨s % 281474976710656⟩

/-- `rng.gen::<f64>()`: one draw in `[0,1)` plus the advanced state. -/
def Randomizer.gen (r : Randomizer) : ℚ × Randomizer :=
  ((r.state % 4096 : ℕ) / 4096,
   ⟨(r.state * 25214903917 + 11) % 281474976710656⟩)

/-- The OS entropy consumed by `ChaCha8Rng::seed_from_u64(random())` when no
seed option is set; a fixed value stands in for it (no claim exercises the
unseeded branch). -/
def osEntropy : ℕ := 0

/-- `FillStyle` of `graphics/paint.rs`. -/
inductive FillStyle
  | Solid
  | Hachure
  | ZigZag
  | CrossHatch
  | Dots
  | Dashed
  | ZigZagLine
  deriving DecidableEq, Repr

/-- `LineCap` of `graphics/paint.rs`. -/
inductive LineCap
  | Butt
  | Round
  | Square
  deriving DecidableEq, Repr

/-- `LineJoin` of `graphics/paint.rs`. -/
inductive LineJoin
  | Miter (limit : ℚ)
  | Round
  | Bevel
  deriving DecidableEq, Repr

/-- `palette::Srgba`: four colour components. -/
structure Srgba where
  red : ℚ
  green : ℚ
  blue : ℚ
  alpha : ℚ
  deriving DecidableEq, Repr

/-- `DrawOptions` of `graphics/drawable.rs` (every field of the source
struct; `f32`/`f64` fields as `ℚ`, `u64` as `ℕ`). -/
structure DrawOptions where
  max_randomness_offset : Option ℚ
  roughness : Option ℚ
  bowing : Option ℚ
  stroke : Option Srgba
  stroke_width : Option ℚ
  curve_fitting : Option ℚ
  curve_tightness : Option ℚ
  curve_step_count : Option ℚ
  fill : Option Srgba
  fill_style : Option FillStyle
  fill_weight : Option ℚ
  hachure_angle : Option ℚ
  hachure_gap : Option ℚ
  simplification : Option ℚ
  dash_offset : Option ℚ
  dash_gap : Option ℚ
  zigzag_offset : Option ℚ
  seed : Option ℕ
  stroke_line_dash : Option (List ℚ)
  stroke_line_dash_offset : Option ℚ
  line_cap : Option LineCap
  line_join : Option LineJoin
  fill_line_dash : Option (List ℚ)
  fill_line_dash_offset : Option ℚ
  disable_multi_stroke : Option Bool
  disable_multi_stroke_fill : Option Bool
  preserve_vertices : Option Bool
  fixed_decimal_place_digits : Option ℚ
  randomizer : Option Randomizer
  deriving DecidableEq, Repr

/-- `DrawOptions::default()` of `graphics/drawable.rs`. -/
def DrawOptions.default : DrawOptions where
  max_randomness_offset := some 2
  roughness := some 1
  bowing := some 2
  stroke := some ⟨0, 0, 0, 1⟩
  stroke_width := some 1
  curve_fitting := some (95/100)
  curve_tightness := some 0
  curve_step_count := some 9
  fill := none
  fill_style := none
  fill_weight := some (-1)
  hachure_angle := some (-41)
  hachure_gap := some (-1)
  simplification := some 1
  dash_offset := some (-1)
  dash_gap := some (-1)
  zigzag_offset := some (-1)
  seed := some 345
  stroke_line_dash := none
  stroke_line_dash_offset := none
  line_cap := none
  line_join := none
  fill_line_dash := none
  fill_line_dash_offset := none
  disable_multi_stroke := some false
  disable_multi_stroke_fill := some false
  preserve_vertices := some false
  fixed_decimal_place_digits := none
  randomizer := none

/-- `DrawOptions::random` of `graphics/drawable.rs`: draw from the
materialised generator, materialising it first from `seed` (or from OS
entropy when no seed is set) — the generator field is the only field
written. -/
def DrawOptions.random (o : DrawOptions) : ℚ × DrawOptions :=
  match o.randomizer with
  | some r =>
      let g := r.gen
      (g.1, { o with randomizer := some g.2 })
  | none =>
      match o.seed with
      | some s =>
          let g := (Randomizer.seed_from_u64 s).gen
          (g.1, { o with randomizer := some g.2 })
      | none =>
          let g := (Randomizer.seed_from_u64 osEntropy).gen
          (g.1, { o with randomizer := some g.2 })

/-- `DrawOptions::set_hachure_angle`. -/
def DrawOptions.set_hachure_angle (o : DrawOptions) (angle : Option ℚ) :
    DrawOptions :=
  { o with hachure_angle := angle }

/-- `DrawOptions::set_hachure_gap`. -/
def DrawOptions.set_hachure_gap (o : DrawOptions) (gap : Option ℚ) :
    DrawOptions :=
  { o with hachure_gap := gap }

/-- The options value with the lazily initialised random generator erased:
two options agree on `stripRng` exactly when they agree on every style
field. -/
def stripRng (o : DrawOptions) : DrawOptions :=
  { o with randomizer := none }

/-- `OpType` of `graphics/drawable_ops.rs`. -/
inductive OpType
  | Move
  | BCurveTo
  | LineTo
  deriving DecidableEq, Repr

/-- `OpSetType` of `graphics/drawable_ops.rs`. -/
inductive OpSetType
  | Path
  | FillPath
  | FillSketch
  deriving DecidableEq, Repr

/-- `Op` of `graphics/drawable_ops.rs`. -/
structure Op where
  op : OpType
  data : List ℚ
  deriving DecidableEq, Repr

/-- `OpSet` of `graphics/drawable_ops.rs`. -/
structure OpSet where
  op_set_type : OpSetType
  ops : List Op
  size : Option Pt
  pathStr : Option String
  deriving DecidableEq, Repr

/-- `Line` of `graphics/geometry.rs`. -/
structure GLine where
  start_point : Pt
  end_point : Pt
  deriving DecidableEq, Repr

/-- `BezierQuadratic` of `graphics/geometry.rs`. -/
structure BezierQuadratic where
  start : Pt
  cp : Pt
  fin : Pt
  deriving DecidableEq, Repr

/-- `BezierCubic` of `graphics/geometry.rs`. -/
structure BezierCubic where
  start : Pt
  cp1 : Pt
  cp2 : Pt
  fin : Pt
  deriving DecidableEq, Repr

/-- The value of the `f64` literal `3.141592653589793238` (which rounds to
the `f64` nearest π). -/
def pi64 : ℚ := 884279719003555 / 281474976710656

/-- The value of the `f32` constant `f32::PI()`. -/
def pi32 : ℚ := 13176795 / 4194304

/-- `degree_to_radians` of `graphics/geometry.rs`:
`degrees / (180.0 / 3.141592653589793238)` (the float division by the
constant is modelled as exact rational division). -/
def degree_to_radians (degrees : ℚ) : ℚ :=
  degrees / (180 / pi64)

/-- `rotate_points` of `graphics/geometry.rs`: translate to the center,
apply `Rotation2::new(angle)` (entries from the `ExtMath` trigonometry),
translate back. -/
def rotate_points (em : ExtMath) (points : List Pt) (center : Pt)
    (degrees : ℚ) : List Pt :=
  let angle := degree_to_radians degrees
  let c := em.cos angle
  let s := em.sin angle
  points.map (fun p =>
    let dx := p.x - center.x
    let dy := p.y - center.y
    ⟨c * dx - s * dy + center.x, s * dx + c * dy + center.y⟩)

/-- `Line::rotate` / `rotate_lines` of `graphics/geometry.rs`. -/
def rotate_lines (em : ExtMath) (lines : List GLine) (center : Pt)
    (degrees : ℚ) : List GLine :=
  lines.map (fun l =>
    match rotate_points em [l.start_point, l.end_point] center degrees with
    | [a, b] => ⟨a, b⟩
    | _ => l)

/-- `convert_bezier_quadratic_to_cubic` of `graphics/geometry.rs`
(`scaling_factor = 2/3`). -/
def convert_bezier_quadratic_to_cubic (bq : BezierQuadratic) : BezierCubic :=
  let sf : ℚ := 2 / 3
  ⟨bq.start,
   ⟨bq.start.x + (bq.cp.x - bq.start.x) * sf, bq.start.y + (bq.cp.y - bq.start.y) * sf⟩,
   ⟨bq.fin.x + (bq.cp.x - bq.fin.x) * sf, bq.fin.y + (bq.cp.y - bq.fin.y) * sf⟩,
   bq.fin⟩

/-- Stable insertion of `a` into `l`: `a` goes in front of the first element
`b` with `le a b = true`. -/
def insertLe {α : Type} (le : α → α → Bool) (a : α) : List α → List α
  | [] => [a]
  | b :: bs => if le a b then a :: b :: bs else b :: insertLe le a bs

/-- Stable sort by a boolean `le`. For the total preorders produced by the
comparators below this computes the same permutation as Rust's stable
`sort_by` (the unique sorted permutation in which ties keep their original
relative order). -/
def sortLe {α : Type} (le : α → α → Bool) : List α → List α
  | [] => []
  | a :: rest => insertLe le a (sortLe le rest)

/-- `EdgeEntry` of `filler/scan_line_hachure.rs`. -/
structure EdgeEntry where
  ymin : ℚ
  ymax : ℚ
  x : ℚ
  islope : ℚ
  deriving DecidableEq, Repr

/-- `ActiveEdgeEntry` of `filler/scan_line_hachure.rs` (the field `s` is
recorded — as in the source — but never read). -/
structure ActiveEdgeEntry where
  s : ℚ
  edge : EdgeEntry
  deriving DecidableEq, Repr

/-- The edge comparator of `straight_hachure_lines` (`ymin`, then `x`, then
`ymax` via the sign of `(e1.ymax - e2.ymax) / |e1.ymax - e2.ymax|`), as the
boolean `cmp e1 e2 ≠ Greater` used by the stable sort. -/
def edgeLe (e1 e2 : EdgeEntry) : Bool :=
  if e1.ymin < e2.ymin then true
  else if e1.ymin > e2.ymin then false
  else if e1.x < e2.x then true
  else if e1.x > e2.x then false
  else if e1.ymax = e2.ymax then true
  else
    let ordering := (e1.ymax - e2.ymax) / Roughfeel.PointsOnCurve.ratAbs (e1.ymax - e2.ymax)
    if ordering > 0 then false else true

/-- The active-edge comparator of the sweep loop (by current `x`, via the
sign of the difference quotient), as `cmp ae1 ae2 ≠ Greater`. -/
def activeLe (ae1 ae2 : ActiveEdgeEntry) : Bool :=
  if ae1.edge.x = ae2.edge.x then true
  else
    let ratio := (ae1.edge.x - ae2.edge.x) / Roughfeel.PointsOnCurve.ratAbs (ae1.edge.x - ae2.edge.x)
    if ratio > 0 then false else true

/-- The edge table built from one (closed) polygon ring: one entry per
non-horizontal edge of `vertices.windows(2)`. -/
def polygonEdges (vertices : List Pt) : List EdgeEntry :=
  (vertices.zip vertices.tail).filterMap (fun w =>
    let p1 := w.1
    let p2 := w.2
    if p1.y = p2.y then none
    else
      let ymin := Roughfeel.PointsOnCurve.ratMin p1.y p2.y
      some { ymin := ymin,
             ymax := Roughfeel.PointsOnCurve.ratMax p1.y p2.y,
             x := if ymin = p1.y then p1.x else p2.x,
             islope := (p2.x - p1.x) / (p2.y - p1.y) })

/-- `chunks(2)` over the active edges, reading `ae[0]` and `ae[1]` of each
chunk: a trailing chunk of one element makes the source panic (`ae[1]` out
of bounds), modelled by `none`. -/
def pairUp {α : Type} : List α → Option (List (α × α))
  | [] => some []
  | [_] => none
  | a :: b :: rest => (pairUp rest).map (fun ps => (a, b) :: ps)

/-- One pass of the sweep `loop` of `straight_hachure_lines`: activate the
edges whose `ymin` has been reached (a prefix, because the table is sorted
by `ymin`), drop active edges whose `ymax` has passed, sort the active
edges by current `x`, emit one horizontal line per consecutive pair, advance
`y` by `gap` and every active `x` by `gap·islope`; stop when both lists are
empty. Fuel exhaustion (`none`) never happens for positive `gap` given the
fuel computed by `straight_hachure_lines`. -/
def sweep (fuel : ℕ) (edges : List EdgeEntry) (active : List ActiveEdgeEntry)
    (y gap : ℚ) (lines : List GLine) : Option (List GLine) :=
  match fuel with
  | 0 => none
  | fuel + 1 =>
    let newly := edges.takeWhile (fun v => ¬ (y < v.ymin))
    let edges1 := edges.dropWhile (fun v => ¬ (y < v.ymin))
    let active1 := active ++ newly.map (fun ee => ⟨y, ee⟩)
    let active2 := active1.filter (fun ae => y < ae.edge.ymax)
    let active3 := sortLe activeLe active2
    let emitted :=
      if 1 < active3.length then
        (pairUp active3).map (fun ps =>
          lines ++ ps.map (fun ce =>
            GLine.mk ⟨ce.1.edge.x, y⟩ ⟨ce.2.edge.x, y⟩))
      else some lines
    match emitted with
    | none => none
    | some lines2 =>
      let y2 := y + gap
      let active4 := active3.map (fun ae =>
        { ae with edge := { ae.edge with x := ae.edge.x + gap * ae.edge.islope } })
      if edges1 = [] ∧ active4 = [] then some lines2
      else sweep fuel edges1 active4 y2 gap lines2

/-- Fuel for the sweep: the loop advances `y` by `gap > 0` each pass and is
over once `y` passes the largest `ymax`, so `(maxYmax - minYmin)/gap`
rounded up (bounded by the numerator of that nonnegative quotient) plus two
passes dominates the iteration count of the terminating Rust loop. -/
def sweepFuel (lo hi gap : ℚ) : ℕ :=
  ((hi - lo) / gap).num.toNat + 2

/-- `straight_hachure_lines` of `filler/scan_line_hachure.rs`. Returns the
emitted lines together with the mutated polygon list (rings are closed in
place before the edge table is built). -/
def straight_hachure_lines (polygon_list : List (List Pt)) (gap : ℚ) :
    Option (List GLine × List (List Pt)) :=
  let closed := polygon_list.map (fun polygon =>
    if polygon.head? ≠ polygon.getLast? then polygon ++ [polygon.head!]
    else polygon)
  let vertex_array := closed.filter (fun polygon => 2 < polygon.length)
  let gap2 := Roughfeel.PointsOnCurve.ratMax gap (1/10)
  let edges := vertex_array.flatMap polygonEdges
  let sorted := sortLe edgeLe edges
  match sorted with
  | [] => some ([], closed)
  | e0 :: _ =>
    let hi := (sorted.map EdgeEntry.ymax).foldl Roughfeel.PointsOnCurve.ratMax e0.ymin
    match sweep (sweepFuel e0.ymin hi gap2) sorted [] e0.ymin gap2 [] with
    | none => none
    | some lines => some (lines, closed)

/-- The gap computation at the head of `polygon_hachure_lines`:
`hachure_gap` option (`unwrap_or(0.0)`), replaced by `4 × stroke_width`
when negative, floored at `0.1`. -/
def hachureGapValue (o : DrawOptions) : ℚ :=
  let gap0 := o.hachure_gap.getD 0
  let gap1 := if gap0 < 0 then (o.stroke_width.getD 0) * 4 else gap0
  Roughfeel.PointsOnCurve.ratMax gap1 (1/10)

/-- `polygon_hachure_lines` of `filler/scan_line_hachure.rs`: rotate every
polygon by `hachure_angle + 90` about the origin (skipped when that sum is
zero), run the horizontal sweep, rotate polygons and lines back. Returns the
lines and the mutated polygon list. -/
def polygon_hachure_lines (em : ExtMath) (polygon_list : List (List Pt))
    (o : DrawOptions) : Option (List GLine × List (List Pt)) :=
  let angle := o.hachure_angle.getD 0 + 90
  let gap := hachureGapValue o
  let center : Pt := ⟨0, 0⟩
  let rotated :=
    if angle ≠ 0 then polygon_list.map (fun poly => rotate_points em poly center angle)
    else polygon_list
  match straight_hachure_lines rotated gap with
  | none => none
  | some (lines, mutated) =>
    if angle ≠ 0 then
      some (rotate_lines em lines center (-angle),
            mutated.map (fun poly => rotate_points em poly center (-angle)))
    else some (lines, mutated)

/-- `Float::floor`, exact on rationals. -/
def ratFloor (q : ℚ) : ℚ := ((Int.floor q : ℤ) : ℚ)

/-- `Float::ceil`, exact on rationals. -/
def ratCeil (q : ℚ) : ℚ := ((Int.ceil q : ℤ) : ℚ)

/-- A nonnegative float cast `as u64` (truncation toward zero, saturating
at zero for negative values — Rust's saturating float-to-int cast). -/
def natOfRat (q : ℚ) : ℕ := (Int.floor q).toNat

/-- `_offset` of `graphics/renderer.rs`: one random draw scaled into
`[min, max)` and by roughness and the optional roughness gain. -/
def offsetRand (min max : ℚ) (o : DrawOptions) (roughness_gain : Option ℚ) :
    ℚ × DrawOptions :=
  let rg := roughness_gain.getD 1
  let r := o.random
  ((o.roughness.getD 1) * rg * ((r.1 * (max - min)) + min), r.2)

/-- `_offset_opt` of `graphics/renderer.rs`. -/
def offsetOpt (x : ℚ) (o : DrawOptions) (roughness_gain : Option ℚ) :
    ℚ × DrawOptions :=
  offsetRand (-x) x o roughness_gain

/-- `clone_options_alter_seed` of `graphics/renderer.rs`: clone (keeping any
materialised randomizer) and bump the seed when present. -/
def clone_options_alter_seed (o : DrawOptions) : DrawOptions :=
  match o.seed with
  | some s => { o with seed := some (s + 1) }
  | none => o

/-- `_line` of `graphics/renderer.rs`. The float literals `-0.0016668` and
`1.233334` are taken at their decimal value; `length` is the Euclidean
length through the abstract square root. Random draws are threaded in
exactly the source's evaluation order (`vec![…]` evaluates left to right;
a `preserve_vertices` branch skips its draw entirely). -/
def lineOps (em : ExtMath) (x1 y1 x2 y2 : ℚ) (o : DrawOptions)
    (mover overlay : Bool) : List Op × DrawOptions :=
  let length_sq := (x1 - x2) * (x1 - x2) + (y1 - y2) * (y1 - y2)
  let length := em.sqrt length_sq
  let roughness_gain : ℚ :=
    if length < 200 then 1
    else if length > 500 then 2/5
    else (-16668/10000000) * length + 1233334/1000000
  let offset0 := o.max_randomness_offset.getD 2
  let offset := if offset0 * offset0 * 100 > length_sq then length / 10 else offset0
  let half_offset := offset / 2
  let r := o.random
  let diverge_point := 1/5 + r.1 * (1/5)
  let mdx0 := (o.bowing.getD 1) * (o.max_randomness_offset.getD 2) * (y2 - y1) / 200
  let mdy0 := (o.bowing.getD 1) * (o.max_randomness_offset.getD 2) * (x1 - x2) / 200
  let mx := offsetOpt mdx0 r.2 (some roughness_gain)
  let my := offsetOpt mdy0 mx.2 (some roughness_gain)
  let mid_disp_x := mx.1
  let mid_disp_y := my.1
  let pv := o.preserve_vertices.getD false
  let jitter := if overlay then half_offset else offset
  let moveStep : List Op × DrawOptions :=
    if mover then
      let ax := if pv then ((0 : ℚ), my.2) else offsetOpt jitter my.2 (some roughness_gain)
      let ay := if pv then ((0 : ℚ), ax.2) else offsetOpt jitter ax.2 (some roughness_gain)
      ([⟨OpType.Move, [x1 + ax.1, y1 + ay.1]⟩], ay.2)
    else ([], my.2)
  let o1 := moveStep.2
  let c1x := offsetOpt jitter o1 (some roughness_gain)
  let c1y := offsetOpt jitter c1x.2 (some roughness_gain)
  let c2x := offsetOpt jitter c1y.2 (some roughness_gain)
  let c2y := offsetOpt jitter c2x.2 (some roughness_gain)
  let ex := if pv then ((0 : ℚ), c2y.2) else offsetOpt jitter c2y.2 (some roughness_gain)
  let ey := if pv then ((0 : ℚ), ex.2) else offsetOpt jitter ex.2 (some roughness_gain)
  (moveStep.1 ++
    [⟨OpType.BCurveTo,
      [mid_disp_x + x1 + (x2 - x1) * diverge_point + c1x.1,
       mid_disp_y + y1 + (y2 - y1) * diverge_point + c1y.1,
       mid_disp_x + x1 + 2 * (x2 - x1) * diverge_point + c2x.1,
       mid_disp_y + y1 + 2 * (y2 - y1) * diverge_point + c2y.1,
       x2 + ex.1,
       y2 + ey.1]⟩],
   ey.2)

/-- `_double_line` of `graphics/renderer.rs`. -/
def double_line (em : ExtMath) (x1 y1 x2 y2 : ℚ) (o : DrawOptions)
    (filling : Bool) : List Op × DrawOptions :=
  let single_stroke :=
    if filling then o.disable_multi_stroke_fill.getD false
    else o.disable_multi_stroke.getD false
  let first := lineOps em x1 y1 x2 y2 o true false
  if single_stroke then first
  else
    let second := lineOps em x1 y1 x2 y2 first.2 true true
    (first.1 ++ second.1, second.2)

/-- `line` of `graphics/renderer.rs`. -/
def line (em : ExtMath) (x1 y1 x2 y2 : ℚ) (o : DrawOptions) :
    OpSet × DrawOptions :=
  let dl := double_line em x1 y1 x2 y2 o false
  (⟨OpSetType.Path, dl.1, none, none⟩, dl.2)

/-- `linear_path` of `graphics/renderer.rs`: more than two points are
joined pairwise (optionally closing back to the first); exactly two points
delegate to `line`; fewer yield an empty stroke-path op set untouched. -/
def linear_path (em : ExtMath) (points : List Pt) (close : Bool)
    (o : DrawOptions) : OpSet × DrawOptions :=
  let len := points.length
  if 2 < len then
    let step := (List.range (len - 1)).foldl
      (fun (st : List Op × DrawOptions) i =>
        let p := points.getD i ⟨0, 0⟩
        let q := points.getD (i + 1) ⟨0, 0⟩
        let dl := double_line em p.x p.y q.x q.y st.2 false
        (st.1 ++ dl.1, dl.2))
      ([], o)
    let withClose :=
      if close then
        let p := points.getD (len - 1) ⟨0, 0⟩
        let q := points.getD 0 ⟨0, 0⟩
        let dl := double_line em p.x p.y q.x q.y step.2 false
        (step.1 ++ dl.1, dl.2)
      else step
    (⟨OpSetType.Path, withClose.1, none, none⟩, withClose.2)
  else if len = 2 then
    let p := points.getD 0 ⟨0, 0⟩
    let q := points.getD 1 ⟨0, 0⟩
    line em p.x p.y q.x q.y o
  else
    (⟨OpSetType.Path, [], none, none⟩, o)

/-- `polygon` of `graphics/renderer.rs`. -/
def polygonShape (em : ExtMath) (points : List Pt) (o : DrawOptions) :
    OpSet × DrawOptions :=
  linear_path em points true o

/-- `rectangle` of `graphics/renderer.rs`. -/
def rectangle (em : ExtMath) (x y width height : ℚ) (o : DrawOptions) :
    OpSet × DrawOptions :=
  polygonShape em
    [⟨x, y⟩, ⟨x + width, y⟩, ⟨x + width, y + height⟩, ⟨x, y + height⟩] o

/-- `_curve` of `graphics/renderer.rs` (the tangent-scaled cubic chain over
four or more points; three points emit one degenerate curve; two points a
double line; fewer, nothing). -/
def curveOps (em : ExtMath) (points : List Pt) (close_point : Option Pt)
    (o : DrawOptions) : List Op × DrawOptions :=
  let len := points.length
  if 3 < len then
    let s : ℚ := 1 - o.curve_tightness.getD 0
    let p1 := points.getD 1 ⟨0, 0⟩
    let base : List Op := [⟨OpType.Move, [p1.x, p1.y]⟩]
    let body := (List.range' 1 (len - 3)).foldl
      (fun (acc : List Op) i =>
        let pm := points.getD (i - 1) ⟨0, 0⟩
        let p0 := points.getD i ⟨0, 0⟩
        let pa := points.getD (i + 1) ⟨0, 0⟩
        let pb := points.getD (i + 2) ⟨0, 0⟩
        acc ++ [⟨OpType.BCurveTo,
          [p0.x + (s * pa.x - s * pm.x) / 6,
           p0.y + (s * pa.y - s * pm.y) / 6,
           pa.x + (s * p0.x - s * pb.x) / 6,
           pa.y + (s * p0.y - s * pb.y) / 6,
           pa.x, pa.y]⟩])
      base
    match close_point with
    | some cp =>
        let ro := o.max_randomness_offset.getD 2
        let ox := offsetOpt ro o none
        let oy := offsetOpt ro ox.2 none
        (body ++ [⟨OpType.LineTo, [cp.x + ox.1, cp.y + oy.1]⟩], oy.2)
    | none => (body, o)
  else if len = 3 then
    let p1 := points.getD 1 ⟨0, 0⟩
    let p2 := points.getD 2 ⟨0, 0⟩
    ([⟨OpType.Move, [p1.x, p1.y]⟩,
      ⟨OpType.BCurveTo, [p1.x, p1.y, p2.x, p2.y, p2.x, p2.y]⟩], o)
  else if len = 2 then
    let p0 := points.getD 0 ⟨0, 0⟩
    let p1 := points.getD 1 ⟨0, 0⟩
    double_line em p0.x p0.y p1.x p1.y o false
  else ([], o)

/-- `_curve_with_offset` of `graphics/renderer.rs`; `none` models the
`points[0]` index panic on an empty input. -/
def curve_with_offset (em : ExtMath) (points : List Pt) (offset : ℚ)
    (o : DrawOptions) : Option (List Op × DrawOptions) :=
  match points with
  | [] => none
  | p0 :: _ =>
    let a1 := offsetOpt offset o none
    let a2 := offsetOpt offset a1.2 none
    let b1 := offsetOpt offset a2.2 none
    let b2 := offsetOpt offset b1.2 none
    let start := [Pt.mk (p0.x + a1.1) (p0.y + a2.1), Pt.mk (p0.x + b1.1) (p0.y + b2.1)]
    let step := (List.range' 1 (points.length - 1)).foldl
      (fun (st : List Pt × DrawOptions) i =>
        let p := points.getD i ⟨0, 0⟩
        let c1 := offsetOpt offset st.2 none
        let c2 := offsetOpt offset c1.2 none
        let base := st.1 ++ [Pt.mk (p.x + c1.1) (p.y + c2.1)]
        if i = points.length - 1 then
          let d1 := offsetOpt offset c2.2 none
          let d2 := offsetOpt offset d1.2 none
          (base ++ [Pt.mk (p.x + d1.1) (p.y + d2.1)], d2.2)
        else (base, c2.2))
      (start, b2.2)
    some (curveOps em step.1 none step.2)

/-- `curve` of `graphics/renderer.rs`: one pass, plus (unless multi-stroke
is disabled) a second pass drawn on a seed-bumped clone whose final
generator state is discarded. -/
def curveShape (em : ExtMath) (points : List Pt) (o : DrawOptions) :
    Option (OpSet × DrawOptions) :=
  match curve_with_offset em points (1 * (1 + o.roughness.getD 0 * (2/10))) o with
  | none => none
  | some o1 =>
    if ¬ (o.disable_multi_stroke.getD false) then
      match curve_with_offset em points
          ((3/2) * (1 + o.roughness.getD 0 * (22/100)))
          (clone_options_alter_seed o1.2) with
      | none => none
      | some o2 => some (⟨OpSetType.Path, o1.1 ++ o2.1, none, none⟩, o1.2)
    else some (⟨OpSetType.Path, o1.1, none, none⟩, o1.2)

/-- `_bezier_to` of `graphics/renderer.rs`. Per iteration: the `Move`
(jittered from the second iteration on), then the endpoint jitters `f`,
then the four control-point jitters — the source's evaluation order. -/
def bezier_to (em : ExtMath) (x1 y1 x2 y2 x y : ℚ) (current : Pt)
    (o : DrawOptions) : List Op × DrawOptions :=
  let ros : List ℚ :=
    [o.max_randomness_offset.getD 2, o.max_randomness_offset.getD 2 + 3/10]
  let iterations := if o.disable_multi_stroke.getD false then 1 else 2
  let pv := o.preserve_vertices.getD false
  (List.range iterations).foldl
    (fun (st : List Op × DrawOptions) i =>
      let ro := ros.getD i 0
      let moveStep : List Op × DrawOptions :=
        if i = 0 then
          ([⟨OpType.Move, [current.x, current.y]⟩], st.2)
        else
          let mx := if pv then ((0 : ℚ), st.2) else offsetOpt (ros.getD 0 0) st.2 none
          let my := if pv then ((0 : ℚ), mx.2) else offsetOpt (ros.getD 0 0) mx.2 none
          ([⟨OpType.Move, [current.x + mx.1, current.y + my.1]⟩], my.2)
      let f :=
        if pv then ((x, y), moveStep.2)
        else
          let fx := offsetOpt ro moveStep.2 none
          let fy := offsetOpt ro fx.2 none
          ((x + fx.1, y + fy.1), fy.2)
      let c1 := offsetOpt ro f.2 none
      let c2 := offsetOpt ro c1.2 none
      let c3 := offsetOpt ro c2.2 none
      let c4 := offsetOpt ro c3.2 none
      (st.1 ++ moveStep.1 ++
        [⟨OpType.BCurveTo,
          [x1 + c1.1, y1 + c2.1, x2 + c3.1, y2 + c4.1, f.1.1, f.1.2]⟩],
       c4.2))
    ([], o)

/-- `_bezier_quadratic_to` of `graphics/renderer.rs`. -/
def bezier_quadratic_to (em : ExtMath) (x1 y1 x y : ℚ) (current : Pt)
    (o : DrawOptions) : List Op × DrawOptions :=
  let cubic := convert_bezier_quadratic_to_cubic ⟨current, ⟨x1, y1⟩, ⟨x, y⟩⟩
  bezier_to em cubic.cp1.x cubic.cp1.y cubic.cp2.x cubic.cp2.y cubic.fin.x
    cubic.fin.y cubic.start o

/-- `bezier_quadratic` of `graphics/renderer.rs`. -/
def bezierQuadratic (em : ExtMath) (start cp fin : Pt) (o : DrawOptions) :
    OpSet × DrawOptions :=
  let r := bezier_quadratic_to em cp.x cp.y fin.x fin.y start o
  (⟨OpSetType.Path, r.1, none, none⟩, r.2)

/-- `bezier_cubic` of `graphics/renderer.rs`. -/
def bezierCubic (em : ExtMath) (start cp1 cp2 fin : Pt) (o : DrawOptions) :
    OpSet × DrawOptions :=
  let r := bezier_to em cp1.x cp1.y cp2.x cp2.y fin.x fin.y start o
  (⟨OpSetType.Path, r.1, none, none⟩, r.2)

/-- `solid_fill_polygon` of `graphics/renderer.rs`: every ring with more
than two vertices becomes one jittered `Move` followed by jittered
`LineTo`s; the op set kind is `FillPath`. -/
def solid_fill_polygon (polygon_list : List (List Pt)) (o : DrawOptions) :
    OpSet × DrawOptions :=
  let step := polygon_list.foldl
    (fun (st : List Op × DrawOptions) polygon =>
      if 2 < polygon.length then
        let rand_offset := st.2.max_randomness_offset.getD 2
        polygon.enum.foldl
          (fun (st2 : List Op × DrawOptions) ip =>
            let ox := offsetOpt rand_offset st2.2 none
            let oy := offsetOpt rand_offset ox.2 none
            (st2.1 ++ [⟨if ip.1 = 0 then OpType.Move else OpType.LineTo,
              [ip.2.x + ox.1, ip.2.y + oy.1]⟩], oy.2))
          st
      else st)
    ([], o)
  (⟨OpSetType.FillPath, step.1, none, none⟩, step.2)

/-- Fuel for an angle loop sweeping from `lo` toward `hi` in steps of
`step`: dominates the iteration count whenever the Rust loop terminates
(positive step), and runs out — modelling non-termination — otherwise. -/
def loopFuel (lo hi step : ℚ) : ℕ :=
  ((hi - lo) / step).num.toNat + 2

/-- `EllipseParams` of `graphics/renderer.rs`. -/
structure EllipseParams where
  rx : ℚ
  ry : ℚ
  increment : ℚ
  deriving DecidableEq, Repr

/-- `generate_ellipse_params` of `graphics/renderer.rs`. -/
def generate_ellipse_params (em : ExtMath) (width height : ℚ)
    (o : DrawOptions) : EllipseParams × DrawOptions :=
  let psq := em.sqrt (pi32 * 2 *
    em.sqrt (((width/2) * (width/2) + (height/2) * (height/2)) / 2))
  let csc := o.curve_step_count.getD 1
  let step_count := ratCeil (Roughfeel.PointsOnCurve.ratMax csc ((csc / em.sqrt 200) * psq))
  let increment := pi32 * 2 / step_count
  let rx0 := Roughfeel.PointsOnCurve.ratAbs (width / 2)
  let ry0 := Roughfeel.PointsOnCurve.ratAbs (height / 2)
  let cfr := 1 - o.curve_fitting.getD 0
  let r1 := offsetOpt (rx0 * cfr) o none
  let r2 := offsetOpt (ry0 * cfr) r1.2 none
  (⟨rx0 + r1.1, ry0 + r2.1, increment⟩, r2.2)

/-- The randomness-free angle loop of the `roughness == 0` branch of
`_compute_ellipse_points` (`while angle <= 2π`). -/
def ellipseCoreLoop (em : ExtMath) (fuel : ℕ) (angle lim inc cx cy rx ry : ℚ)
    (core all : List Pt) : Option (List Pt × List Pt) :=
  if ¬ (angle ≤ lim) then some (core, all)
  else
    match fuel with
    | 0 => none
    | fuel + 1 =>
      let p : Pt := ⟨cx + rx * em.cos angle, cy + ry * em.sin angle⟩
      ellipseCoreLoop em fuel (angle + inc) lim inc cx cy rx ry
        (core ++ [p]) (all ++ [p])

/-- The jittered angle loop of `_compute_ellipse_points`
(`while angle < end_angle`, two random draws per point). -/
def ellipseRoughLoop (em : ExtMath) (fuel : ℕ)
    (angle lim inc cx cy rx ry offset : ℚ) (o : DrawOptions)
    (core all : List Pt) : Option ((List Pt × List Pt) × DrawOptions) :=
  if ¬ (angle < lim) then some ((core, all), o)
  else
    match fuel with
    | 0 => none
    | fuel + 1 =>
      let b1 := offsetOpt offset o none
      let b2 := offsetOpt offset b1.2 none
      let p : Pt := ⟨b1.1 + cx + rx * em.cos angle, b2.1 + cy + ry * em.sin angle⟩
      ellipseRoughLoop em fuel (angle + inc) lim inc cx cy rx ry offset b2.2
        (core ++ [p]) (all ++ [p])

/-- `_compute_ellipse_points` of `graphics/renderer.rs`: returns
`(all_points, core_points)` (the source's two-element `Vec` of vectors). -/
def compute_ellipse_points (em : ExtMath) (increment cx cy rx ry offset
    overlap : ℚ) (o : DrawOptions) :
    Option ((List Pt × List Pt) × DrawOptions) :=
  let core_only := o.roughness.getD 0 = 0
  if core_only then
    let inc_inner := increment / 4
    let all0 : List Pt :=
      [⟨cx + rx * em.cos (-inc_inner), cy + ry * em.sin (-inc_inner)⟩]
    match ellipseCoreLoop em (loopFuel 0 (pi32 * 2) inc_inner) 0 (pi32 * 2)
        inc_inner cx cy rx ry [] all0 with
    | none => none
    | some (core, all) =>
      let all2 := all ++
        [⟨cx + rx * em.cos 0, cy + ry * em.sin 0⟩,
         ⟨cx + rx * em.cos inc_inner, cy + ry * em.sin inc_inner⟩]
      some ((all2, core), o)
  else
    let ro := offsetOpt (1/2) o none
    let rad_offset := ro.1 - pi32 / 2
    let a1 := offsetOpt offset ro.2 none
    let a2 := offsetOpt offset a1.2 none
    let all0 : List Pt :=
      [⟨a1.1 + cx + (9/10) * rx * em.cos (rad_offset - increment),
        a2.1 + cy + (9/10) * ry * em.sin (rad_offset - increment)⟩]
    let end_angle := pi32 * 2 + rad_offset - 1/100
    match ellipseRoughLoop em (loopFuel rad_offset end_angle increment)
        rad_offset end_angle increment cx cy rx ry offset a2.2 [] all0 with
    | none => none
    | some ((core, all), o1) =>
      let c1 := offsetOpt offset o1 none
      let c2 := offsetOpt offset c1.2 none
      let c3 := offsetOpt offset c2.2 none
      let c4 := offsetOpt offset c3.2 none
      let c5 := offsetOpt offset c4.2 none
      let c6 := offsetOpt offset c5.2 none
      let all2 := all ++
        [⟨c1.1 + cx + rx * em.cos (rad_offset + pi32 * 2 + overlap * (1/2)),
          c2.1 + cy + ry * em.sin (rad_offset + pi32 * 2 + overlap * (1/2))⟩,
         ⟨c3.1 + cx + (98/100) * rx * em.cos (rad_offset + overlap),
          c4.1 + cy + (98/100) * ry * em.sin (rad_offset + overlap)⟩,
         ⟨c5.1 + cx + (9/10) * rx * em.cos (rad_offset + overlap * (1/2)),
          c6.1 + cy + (9/10) * ry * em.sin (rad_offset + overlap * (1/2))⟩]
      some ((all2, core), c6.2)

/-- `ellipse_with_params` of `graphics/renderer.rs`: returns the op set and
the `estimated_points` (the first pass's core points). -/
def ellipse_with_params (em : ExtMath) (x y : ℚ) (o : DrawOptions)
    (params : EllipseParams) : Option ((OpSet × List Pt) × DrawOptions) :=
  let i1 := offsetRand (4/10) 1 o none
  let i2 := offsetRand (1/10) i1.1 i1.2 none
  let overlap := params.increment * i2.1
  match compute_ellipse_points em params.increment x y params.rx params.ry 1
      overlap i2.2 with
  | none => none
  | some ((all1, core1), o1) =>
    let co := curveOps em all1 none o1
    if (¬ o.disable_multi_stroke.getD false) ∧ (o.roughness.getD 0 ≠ 0) then
      match compute_ellipse_points em params.increment x y params.rx params.ry
          (3/2) 0 co.2 with
      | none => none
      | some ((all2, _core2), o2) =>
        let co2 := curveOps em all2 none o2
        some ((⟨OpSetType.Path, co.1 ++ co2.1, none, none⟩, core1), co2.2)
    else some ((⟨OpSetType.Path, co.1, none, none⟩, core1), co.2)

/-- `ellipse` of `graphics/renderer.rs`. -/
def ellipse (em : ExtMath) (x y width height : ℚ) (o : DrawOptions) :
    Option (OpSet × DrawOptions) :=
  let gp := generate_ellipse_params em width height o
  match ellipse_with_params em x y gp.2 gp.1 with
  | none => none
  | some ((opset, _est), o1) => some (opset, o1)

/-- The `while strt < 0.0` normalisation loop of `arc`: wrap both angles
forward by `2π` until the start is nonnegative. -/
def arcStartLoop (fuel : ℕ) (strt stp : ℚ) : Option (ℚ × ℚ) :=
  if ¬ (strt < 0) then some (strt, stp)
  else
    match fuel with
    | 0 => none
    | fuel + 1 => arcStartLoop fuel (strt + pi32 * 2) (stp + pi32 * 2)

/-- The point loop of `_arc` (`while angle <= stp`, two draws per point). -/
def arcPointsLoop (em : ExtMath) (fuel : ℕ)
    (angle stp inc cx cy rx ry offset : ℚ) (o : DrawOptions)
    (points : List Pt) : Option (List Pt × DrawOptions) :=
  if ¬ (angle ≤ stp) then some (points, o)
  else
    match fuel with
    | 0 => none
    | fuel + 1 =>
      let b1 := offsetOpt offset o none
      let b2 := offsetOpt offset b1.2 none
      arcPointsLoop em fuel (angle + inc) stp inc cx cy rx ry offset b2.2
        (points ++ [⟨b1.1 + cx + rx * em.cos angle, b2.1 + cy + ry * em.sin angle⟩])

/-- `_arc` of `graphics/renderer.rs`. -/
def arcOps (em : ExtMath) (increment cx cy rx ry strt stp offset : ℚ)
    (o : DrawOptions) : Option (List Op × DrawOptions) :=
  let j := offsetOpt (1/10) o none
  let rad_offset := strt + j.1
  let b1 := offsetOpt offset j.2 none
  let b2 := offsetOpt offset b1.2 none
  let start : List Pt :=
    [⟨b1.1 + cx + (9/10) * rx * em.cos (rad_offset - increment),
      b2.1 + cy + (9/10) * ry * em.sin (rad_offset - increment)⟩]
  match arcPointsLoop em (loopFuel rad_offset stp increment) rad_offset stp
      increment cx cy rx ry offset b2.2 start with
  | none => none
  | some (points, o1) =>
    let points2 := points ++
      [⟨cx + rx * em.cos stp, cy + ry * em.sin stp⟩,
       ⟨cx + rx * em.cos stp, cy + ry * em.sin stp⟩]
    some (curveOps em points2 none o1)

/-- `arc` of `graphics/renderer.rs`. -/
def arcShape (em : ExtMath) (x y width height start stop : ℚ)
    (closed rough_closure : Bool) (o : DrawOptions) :
    Option (OpSet × DrawOptions) :=
  let rx0 := Roughfeel.PointsOnCurve.ratAbs (width / 2)
  let ry0 := Roughfeel.PointsOnCurve.ratAbs (height / 2)
  let j1 := offsetOpt (rx0 * (1/100)) o none
  let j2 := offsetOpt (ry0 * (1/100)) j1.2 none
  let rx := rx0 + j1.1
  let ry := ry0 + j2.1
  match arcStartLoop (loopFuel start 0 (pi32 * 2)) start stop with
  | none => none
  | some (strt1, stp1) =>
    let strt := if stp1 - strt1 > pi32 * 2 then 0 else strt1
    let stp := if stp1 - strt1 > pi32 * 2 then pi32 * 2 else stp1
    let ellipse_inc := pi32 * 2 / (o.curve_step_count.getD 1)
    let arc_inc := Roughfeel.PointsOnCurve.ratMin (ellipse_inc / 2) ((stp - strt) / 2)
    match arcOps em arc_inc x y rx ry strt stp 1 j2.2 with
    | none => none
    | some a1 =>
      let withSecond : Option (List Op × DrawOptions) :=
        if ¬ o.disable_multi_stroke.getD false then
          match arcOps em arc_inc x y rx ry strt stp (3/2) a1.2 with
          | none => none
          | some a2 => some (a1.1 ++ a2.1, a2.2)
        else some a1
      match withSecond with
      | none => none
      | some ops1 =>
        let closedOps : List Op × DrawOptions :=
          if closed then
            if rough_closure then
              let d1 := double_line em x y (x + rx * em.cos strt)
                (y + ry * em.sin strt) ops1.2 false
              let d2 := double_line em x y (x + rx * em.cos stp)
                (y + ry * em.sin stp) d1.2 false
              (ops1.1 ++ d1.1 ++ d2.1, d2.2)
            else
              (ops1.1 ++
                [⟨OpType.LineTo, [x, y]⟩,
                 ⟨OpType.LineTo, [x + rx * em.cos strt, y + ry * em.sin strt]⟩],
               ops1.2)
          else ops1
        some (⟨OpSetType.Path, closedOps.1, none, none⟩, closedOps.2)

/-- `ScanlineHachureFiller::render_lines` (also `ZigZagFiller::render_lines`):
one `_double_line(…, filling = true)` per hachure line. -/
def render_lines (em : ExtMath) (lines : List GLine) (o : DrawOptions) :
    List Op × DrawOptions :=
  lines.foldl
    (fun (st : List Op × DrawOptions) l =>
      let dl := double_line em l.start_point.x l.start_point.y l.end_point.x
        l.end_point.y st.2 true
      (st.1 ++ dl.1, dl.2))
    ([], o)

/-- `Line::length` of `graphics/geometry.rs` (`nalgebra::distance`). -/
def lineLength (em : ExtMath) (l : GLine) : ℚ :=
  em.sqrt ((l.start_point.x - l.end_point.x) * (l.start_point.x - l.end_point.x)
    + (l.start_point.y - l.end_point.y) * (l.start_point.y - l.end_point.y))

/-- `ScanlineHachureFiller::fill_polygons`: hachure lines rendered as
jittered double strokes, op-set kind `FillSketch`. Returns the op set, the
mutated polygon list and the threaded options. -/
def scanlineFill (em : ExtMath) (polys : List (List Pt)) (o : DrawOptions) :
    Option ((OpSet × List (List Pt)) × DrawOptions) :=
  match polygon_hachure_lines em polys o with
  | none => none
  | some (lines, polys1) =>
    let r := render_lines em lines o
    some ((⟨OpSetType.FillSketch, r.1, none, none⟩, polys1), r.2)

/-- `HatchFiller::fill_polygons`: two hachure passes; between them the
options' `hachure_angle` is bumped by 90 degrees in place (and not
restored). -/
def hatchFill (em : ExtMath) (polys : List (List Pt)) (o : DrawOptions) :
    Option ((OpSet × List (List Pt)) × DrawOptions) :=
  match scanlineFill em polys o with
  | none => none
  | some ((set1, polys1), o1) =>
    let o2 := o1.set_hachure_angle (o1.hachure_angle.map (fun a => a + 90))
    match scanlineFill em polys1 o2 with
    | none => none
    | some ((set2, polys2), o3) =>
      some (({ set1 with ops := set1.ops ++ set2.ops }, polys2), o3)

/-- One dot of `DotFiller::dots_on_line`: two random draws centre the small
ellipse, whose ops are appended (the `ellipse` call can exhaust fuel). -/
def dotSingle (em : ExtMath) (x ro gap min_y offset fweight : ℚ) (i : ℕ)
    (st : List Op × DrawOptions) : Option (List Op × DrawOptions) :=
  let y := min_y + offset + (i : ℚ) * gap
  let r1 := st.2.random
  let cx := (x - ro) + r1.1 * 2 * ro
  let r2 := r1.2.random
  let cy := (y - ro) + r2.1 * 2 * ro
  match ellipse em cx cy fweight fweight r2.2 with
  | none => none
  | some (eops, o2) => some (st.1 ++ eops.ops, o2)

/-- `DotFiller::dots_on_line`: one small jittered ellipse per gap step along
each hachure line (the per-dot `ellipse` call can itself fail on fuel, hence
the optional result). -/
def dots_on_line (em : ExtMath) (lines : List GLine) (o : DrawOptions) :
    Option (List Op × DrawOptions) :=
  let gap0 := o.hachure_gap.getD (-1)
  let gap1 := if gap0 < 0 then (o.stroke_width.getD 1) * 4 else gap0
  let gap := Roughfeel.PointsOnCurve.ratMax gap1 (1/10)
  let fweight0 := o.fill_weight.getD (-1)
  let fweight := if fweight0 < 0 then (o.stroke_width.getD 1) / 2 else fweight0
  let ro := gap / 4
  lines.foldl
    (fun (acc : Option (List Op × DrawOptions)) l =>
      match acc with
      | none => none
      | some st =>
        let length := lineLength em l
        let dl := length / gap
        let count := ratCeil dl - 1
        if count < 0 then some st
        else
          let offset := length - count * gap
          let x := ((l.start_point.x + l.end_point.x) / 2) - gap / 4
          let min_y := Roughfeel.PointsOnCurve.ratMin l.start_point.y l.end_point.y
          (List.range (natOfRat count)).foldl
            (fun (acc2 : Option (List Op × DrawOptions)) (i : ℕ) =>
              match acc2 with
              | none => none
              | some st2 => dotSingle em x ro gap min_y offset fweight i st2)
            (some st))
    (some ([], o))

/-- `DotFiller::fill_polygons`: forces `hachure_angle` to 0 in place (not
restored), computes hachure lines, then scatters dots. -/
def dotFill (em : ExtMath) (polys : List (List Pt)) (o : DrawOptions) :
    Option ((OpSet × List (List Pt)) × DrawOptions) :=
  let o1 := o.set_hachure_angle (some 0)
  match polygon_hachure_lines em polys o1 with
  | none => none
  | some (lines, polys1) =>
    match dots_on_line em lines o1 with
    | none => none
    | some (ops, o2) =>
      some ((⟨OpSetType.FillSketch, ops, none, none⟩, polys1), o2)

/-- `DashedFiller::dashed_line`: split each hachure line into evenly spaced
dash segments and double-stroke each (`filling = false` in the source). -/
def dashed_line (em : ExtMath) (lines : List GLine) (o : DrawOptions) :
    List Op × DrawOptions :=
  let dash_offset := o.dash_offset.getD (-1)
  let offset :=
    if dash_offset < 0 then
      let hachure_gap := o.hachure_gap.getD (-1)
      if hachure_gap < 0 then (o.stroke_width.getD 1) * 4 else hachure_gap
    else dash_offset
  let dash_gap := o.dash_gap.getD (-1)
  let gap :=
    if dash_gap < 0 then
      let hachure_gap := o.hachure_gap.getD (-1)
      if hachure_gap < 0 then (o.stroke_width.getD 1) * 4 else hachure_gap
    else dash_gap
  lines.foldl
    (fun (st : List Op × DrawOptions) l =>
      let length := lineLength em l
      let count := ratFloor (length / (offset + gap))
      let start_offset := (length + gap - count * (offset + gap)) / 2
      let p1 := if l.start_point.x > l.end_point.x then l.end_point else l.start_point
      let p2 := if l.start_point.x > l.end_point.x then l.start_point else l.end_point
      let alpha := em.atan ((p2.y - p1.y) / (p2.x - p1.x))
      (List.range (natOfRat count)).foldl
        (fun (st2 : List Op × DrawOptions) (i : ℕ) =>
          let lstart := (i : ℚ) * (offset + gap)
          let lend := lstart + offset
          let sx := p1.x + (lstart * em.cos alpha) + (start_offset * em.cos alpha)
          let sy := p1.y + lstart * em.sin alpha + (start_offset * em.sin alpha)
          let ex := p1.x + (lend * em.cos alpha) + (start_offset * em.cos alpha)
          let ey := p1.y + (lend * em.sin alpha) + (start_offset * em.sin alpha)
          let dl := double_line em sx sy ex ey st2.2 false
          (st2.1 ++ dl.1, dl.2))
        st)
    ([], o)

/-- `DashedFiller::fill_polygons`. -/
def dashedFill (em : ExtMath) (polys : List (List Pt)) (o : DrawOptions) :
    Option ((OpSet × List (List Pt)) × DrawOptions) :=
  match polygon_hachure_lines em polys o with
  | none => none
  | some (lines, polys1) =>
    let r := dashed_line em lines o
    some ((⟨OpSetType.FillSketch, r.1, none, none⟩, polys1), r.2)

/-- `ZigZagFiller::fill_polygons`: the widened gap is written to a clone of
the options (`o2`), so the caller's options keep their `hachure_gap`; each
hachure line is doubled into two offset strokes. -/
def zigzagFill (em : ExtMath) (polys : List (List Pt)) (o : DrawOptions) :
    Option ((OpSet × List (List Pt)) × DrawOptions) :=
  let gap0 := o.hachure_gap.getD (-1)
  let gap1 := if gap0 < 0 then (o.stroke_width.getD 1) * 4 else gap0
  let gap := Roughfeel.PointsOnCurve.ratMax gap1 (1/10)
  let o2 := o.set_hachure_gap (some gap)
  match polygon_hachure_lines em polys o2 with
  | none => none
  | some (lines, polys1) =>
    let zig_zag_angle := (pi32 / 180) * (o.hachure_angle.getD 0)
    let dgx := gap * (1/2) * em.cos zig_zag_angle
    let dgy := gap * (1/2) * em.sin zig_zag_angle
    let zig_zag_lines := lines.flatMap (fun l =>
      if lineLength em l > 0 then
        [GLine.mk ⟨l.start_point.x - dgx, l.start_point.y + dgy⟩ l.end_point,
         GLine.mk ⟨l.start_point.x + dgx, l.start_point.y - dgy⟩ l.end_point]
      else [])
    let r := render_lines em zig_zag_lines o
    some ((⟨OpSetType.FillSketch, r.1, none, none⟩, polys1), r.2)

/-- `ZigZagLineFiller::zig_zag_lines`: walk each hachure line in fixed
segments, stroking to an offset peak and back. -/
def zig_zag_lines (em : ExtMath) (lines : List GLine) (zig_zag_offset : ℚ)
    (o : DrawOptions) : List Op × DrawOptions :=
  lines.foldl
    (fun (st : List Op × DrawOptions) l =>
      let length := lineLength em l
      let count := length / (2 * zig_zag_offset)
      let p1 := if l.start_point.x > l.end_point.x then l.end_point else l.start_point
      let p2 := if l.start_point.x > l.end_point.x then l.start_point else l.end_point
      let alpha := em.atan ((p2.y - p1.y) / (p2.x - p1.x))
      (List.range (natOfRat count)).foldl
        (fun (st2 : List Op × DrawOptions) (i : ℕ) =>
          let lstart := (i : ℚ) * 2 * zig_zag_offset
          let lend := ((i : ℚ) + 1) * 2 * zig_zag_offset
          let dz := em.sqrt (zig_zag_offset * zig_zag_offset * 2)
          let sx := p1.x + lstart * em.cos alpha
          let sy := p1.y + lstart * em.sin alpha
          let ex := p1.x + lend * em.cos alpha
          let ey := p1.y + lend * em.sin alpha
          let mx := sx + dz * em.cos (alpha + pi32 / 4)
          let my := sy + dz * em.sin (alpha + pi32 / 4)
          let d1 := double_line em sx sy mx my st2.2 false
          let d2 := double_line em mx my ex ey d1.2 false
          (st2.1 ++ d1.1 ++ d2.1, d2.2))
        st)
    ([], o)

/-- `ZigZagLineFiller::fill_polygons`: widens the options' `hachure_gap`
in place (not restored) before computing the hachure lines. -/
def zigzagLineFill (em : ExtMath) (polys : List (List Pt)) (o : DrawOptions) :
    Option ((OpSet × List (List Pt)) × DrawOptions) :=
  let gap0 := o.hachure_gap.getD (-1)
  let gap1 := if gap0 < 0 then (o.stroke_width.getD 1) * 4 else gap0
  let gap := Roughfeel.PointsOnCurve.ratMax gap1 (1/10)
  let zzo0 := o.zigzag_offset.getD (-1)
  let zzo := if zzo0 < 0 then gap else zzo0
  let o1 := o.set_hachure_gap (some (gap + zzo))
  match polygon_hachure_lines em polys o1 with
  | none => none
  | some (lines, polys1) =>
    let r := zig_zag_lines em lines zzo o1
    some ((⟨OpSetType.FillSketch, r.1, none, none⟩, polys1), r.2)

/-- The effective zig-zag-line gap written into the options by
`ZigZagLineFiller::fill_polygons` (`gap + zig_zag_offset`). -/
def zigzagLineNewGap (o : DrawOptions) : ℚ :=
  let gap0 := o.hachure_gap.getD (-1)
  let gap1 := if gap0 < 0 then (o.stroke_width.getD 1) * 4 else gap0
  let gap := Roughfeel.PointsOnCurve.ratMax gap1 (1/10)
  let zzo0 := o.zigzag_offset.getD (-1)
  let zzo := if zzo0 < 0 then gap else zzo0
  gap + zzo

/-- `pattern_fill_polygons` of `graphics/renderer.rs`: pure dispatch on the
`fill_style` option to the six fillers, `ScanLineHachure` as the default
(also for `Solid`, the wildcard arm). -/
def pattern_fill_polygons (em : ExtMath) (polys : List (List Pt))
    (o : DrawOptions) : Option (OpSet × DrawOptions) :=
  let filled :=
    match o.fill_style with
    | some FillStyle.Hachure => scanlineFill em polys o
    | some FillStyle.Dashed => dashedFill em polys o
    | some FillStyle.Dots => dotFill em polys o
    | some FillStyle.CrossHatch => hatchFill em polys o
    | some FillStyle.ZigZag => zigzagFill em polys o
    | some FillStyle.ZigZagLine => zigzagLineFill em polys o
    | some FillStyle.Solid => scanlineFill em polys o
    | none => scanlineFill em polys o
  match filled with
  | none => none
  | some ((opset, _polys), o1) => some (opset, o1)

/-- The normalised absolute path segments consumed by `svg_path` — produced
by the external parser + absolutize + normalize pipeline (out of scope);
`other` stands for every segment variant outside the four supported ones. -/
inductive PathSeg
  | moveTo (x y : ℚ)
  | lineTo (x y : ℚ)
  | curveTo (x1 y1 x2 y2 x y : ℚ)
  | closePath
  | other
  deriving DecidableEq, Repr

/-- The segment walk of `svg_path`; state is (ops, first, current, options).
An unsupported segment is the source's `panic!("Unexpected segment type")`. -/
def svgGo (em : ExtMath) : List PathSeg →
    (List Op × Pt × Pt × DrawOptions) → Option (List Op × Pt × Pt × DrawOptions)
  | [], st => some st
  | seg :: rest, (ops, first, current, o) =>
    match seg with
    | PathSeg.moveTo x y =>
        let ro := 1 * (o.max_randomness_offset.getD 2)
        let pv := o.preserve_vertices.getD false
        let ax := if pv then ((0 : ℚ), o) else offsetOpt ro o none
        let ay := if pv then ((0 : ℚ), ax.2) else offsetOpt ro ax.2 none
        svgGo em rest
          (ops ++ [⟨OpType.Move, [x + ax.1, y + ay.1]⟩], ⟨x, y⟩, ⟨x, y⟩, ay.2)
    | PathSeg.lineTo x y =>
        let dl := double_line em current.x current.y x y o false
        svgGo em rest (ops ++ dl.1, first, ⟨x, y⟩, dl.2)
    | PathSeg.curveTo x1 y1 x2 y2 x y =>
        let bt := bezier_to em x1 y1 x2 y2 x y current o
        svgGo em rest (ops ++ bt.1, first, ⟨x, y⟩, bt.2)
    | PathSeg.closePath =>
        let dl := double_line em current.x current.y first.x first.y o false
        svgGo em rest (ops ++ dl.1, first, first, dl.2)
    | PathSeg.other => none

/-- `svg_path` of `graphics/renderer.rs` over the already-normalised
segment list. -/
def svgPath (em : ExtMath) (segments : List PathSeg) (o : DrawOptions) :
    Option (OpSet × DrawOptions) :=
  match svgGo em segments ([], ⟨0, 0⟩, ⟨0, 0⟩, o) with
  | none => none
  | some (ops, _, _, o1) => some (⟨OpSetType.Path, ops, none, none⟩, o1)

/-- One core draw/fill entry point of the renderer, as data. -/
inductive DrawCall
  | lineD (x1 y1 x2 y2 : ℚ)
  | linearPathD (points : List Pt) (close : Bool)
  | polygonD (points : List Pt)
  | rectangleD (x y w h : ℚ)
  | curveD (points : List Pt)
  | ellipseD (x y w h : ℚ)
  | arcD (x y w h start stop : ℚ) (closed rough : Bool)
  | bezierQuadraticD (start cp fin : Pt)
  | bezierCubicD (start cp1 cp2 fin : Pt)
  | solidFillD (polys : List (List Pt))
  | patternFillD (polys : List (List Pt))
  | svgPathD (segs : List PathSeg)
  deriving Repr

/-- Run one core draw/fill operation: the op set it produces plus the
options value it hands back (the source's `&mut DrawOptions` after the
call); `none` models a panic or a non-terminating loop. -/
def runDraw (em : ExtMath) (c : DrawCall) (o : DrawOptions) :
    Option (OpSet × DrawOptions) :=
  match c with
  | DrawCall.lineD x1 y1 x2 y2 => some (line em x1 y1 x2 y2 o)
  | DrawCall.linearPathD points close => some (linear_path em points close o)
  | DrawCall.polygonD points => some (polygonShape em points o)
  | DrawCall.rectangleD x y w h => some (rectangle em x y w h o)
  | DrawCall.curveD points => curveShape em points o
  | DrawCall.ellipseD x y w h => ellipse em x y w h o
  | DrawCall.arcD x y w h start stop closed rough =>
      arcShape em x y w h start stop closed rough o
  | DrawCall.bezierQuadraticD start cp fin => some (bezierQuadratic em start cp fin o)
  | DrawCall.bezierCubicD start cp1 cp2 fin =>
      some (bezierCubic em start cp1 cp2 fin o)
  | DrawCall.solidFillD polys => some (solid_fill_polygon polys o)
  | DrawCall.patternFillD polys => pattern_fill_polygons em polys o
  | DrawCall.svgPathD segs => svgPath em segs o

/-- The option mutations the fillers actually perform (beyond the random
generator): the cross-hatch filler bumps `hachure_angle` by 90 degrees, the
dot filler forces it to 0, the zig-zag-line filler widens `hachure_gap`;
every other core operation leaves every style field unchanged. -/
def documentedOptionsEffect (c : DrawCall) (o : DrawOptions) : DrawOptions :=
  match c with
  | DrawCall.patternFillD _ =>
      match o.fill_style with
      | some FillStyle.CrossHatch =>
          o.set_hachure_angle (o.hachure_angle.map (fun a => a + 90))
      | some FillStyle.Dots => o.set_hachure_angle (some 0)
      | some FillStyle.ZigZagLine =>
          o.set_hachure_gap (some (zigzagLineNewGap o))
      | _ => o
  | _ => o

/-- An op list that establishes a current point before drawing: empty, or
beginning with a `Move`. -/
def wfOps (ops : List Op) : Prop :=
  match ops with
  | [] => True
  | o :: _ => o.op = OpType.Move

/-- A non-empty op list beginning with a `Move`. -/
def startsMove (ops : List Op) : Prop :=
  match ops with
  | [] => False
  | o :: _ => o.op = OpType.Move

end Graphics

namespace PointsOnCurve

/-- Each segment emitted by the `curve_to_bezier` loop has three points. -/
theorem length_flatMap_of_three (f : ℕ → List Pt) (h : ∀ i, (f i).length = 3) :
    ∀ l : List ℕ, (l.flatMap f).length = 3 * l.length := by
  intro l
  induction l with
  | nil => simp
  | cons a l ih =>
      simp [List.flatMap_cons, ih, h a]
      ring

/-- The core branch emits `3·(n-1)+1` points for an `n`-point input. -/
theorem curve_to_bezier_core_length (pts : List Pt) (t : ℚ) :
    (curve_to_bezier_core pts t).length = 3 * (pts.length + 2 - 3) + 1 := by
  unfold curve_to_bezier_core
  simp only [List.length_cons]
  rw [length_flatMap_of_three]
  · simp [List.length_range']
  · intro i
    rfl

/-- `curve_to_bezier` succeeds exactly on inputs of at least three points. -/
theorem curve_to_bezier_none_iff (pts : List Pt) (t : ℚ) :
    curve_to_bezier pts t = none ↔ pts.length < 3 := by
  unfold curve_to_bezier
  by_cases h3 : pts.length < 3
  · simp [h3]
  · by_cases he : pts.length = 3 <;> simp [h3, he]

/-- Claim C1 (corrected), counterexample to the output-count formula: on the
six-point input of the repository's own `curve_to_bezier` test the code
returns 16 points, not `3·(6-2)+1 = 13` as the claim states. -/
theorem C1_counterexample :
    (curve_to_bezier [⟨20,240⟩,⟨95,69⟩,⟨225,90⟩,⟨250,180⟩,⟨290,220⟩,⟨380,80⟩]
        0).map List.length = some 16 ∧ (16 : ℕ) ≠ 3 * (6 - 2) + 1 := by
  constructor
  · decide
  · decide

/-- Claim C1 (amended): `curve_to_bezier(points, tightness)` returns nothing
exactly when given fewer than 3 input points; for every input of `n ≥ 3`
points it returns Some list of `3·(max n 4 − 1) + 1` output points (that is
`3·(n−1)+1` for `n ≥ 4`, and 10 for `n = 3`, the 3-point input being promoted
to 4 points by duplicating the last point and recursing). -/
theorem C1_curve_to_bezier_count (pts : List Pt) (t : ℚ) :
    (curve_to_bezier pts t = none ↔ pts.length < 3) ∧
    (3 ≤ pts.length →
      ∃ out, curve_to_bezier pts t = some out ∧
        out.length = 3 * (max pts.length 4 - 1) + 1) := by
  refine ⟨curve_to_bezier_none_iff pts t, ?_⟩
  intro hge
  have h3 : ¬ pts.length < 3 := by omega
  by_cases he : pts.length = 3
  · refine ⟨curve_to_bezier_core (pts ++ [pts.getLast!]) t, ?_, ?_⟩
    · unfold curve_to_bezier
      simp [h3, he]
    · rw [curve_to_bezier_core_length]
      simp [he]
  · refine ⟨curve_to_bezier_core pts t, ?_, ?_⟩
    · unfold curve_to_bezier
      simp [h3, he]
    · rw [curve_to_bezier_core_length]
      omega

/-- Witness for C1 at a concrete input: the repository test's six points. -/
theorem C1_curve_to_bezier_count_witness :
    ∃ out, curve_to_bezier
        [⟨20,240⟩,⟨95,69⟩,⟨225,90⟩,⟨250,180⟩,⟨290,220⟩,⟨380,80⟩] 0 = some out ∧
      out.length = 3 * (max 6 4 - 1) + 1 :=
  (C1_curve_to_bezier_count
    [⟨20,240⟩,⟨95,69⟩,⟨225,90⟩,⟨250,180⟩,⟨290,220⟩,⟨380,80⟩] 0).2 (by decide)

/-- Claim C8 (confirmed): `distance_to_segment_squared` applied to the point
`(0,1)` and the segment `(-1,0)-(1,0)` returns exactly `1.0`, and the
zero-length-segment guard (`l2 == 0`) falls back to the squared
point-to-point distance rather than raising an error. (In this code the
guard fires even for that horizontal segment, because
`distance_between_two_points` multiplies the squared coordinate deltas
instead of adding them, making `l2 = 0` for any axis-aligned segment.) -/
theorem C8_distance_to_segment_squared :
    distance_to_segment_squared ⟨0,1⟩ ⟨-1,0⟩ ⟨1,0⟩ = 1 ∧
    ∀ p v : Pt, distance_to_segment_squared p v v =
      distance_between_two_points p v * distance_between_two_points p v := by
  constructor
  · norm_num [distance_to_segment_squared, distance_between_two_points,
      lerp_two_points, ratAbs, ratMax, ratMin]
  · intro p v
    simp [distance_to_segment_squared, distance_between_two_points, ratAbs]

theorem dpIdx_ne_nil :
    ∀ (fuel : ℕ) (points : List Pt) (start e : ℕ) (epsilon : ℚ)
      (I : List ℕ), dpIdx fuel points start e epsilon = some I → I ≠ [] := by
  intro fuel
  induction fuel with
  | zero =>
      intro points start e epsilon I h
      exact Option.noConfusion h
  | succ fuel ih =>
      intro points start e epsilon I h
      rw [dpIdx] at h
      split_ifs at h with he
      cases h1 : points[start]? with
      | none =>
          simp only [h1] at h
          exact Option.noConfusion h
      | some s =>
          cases h2 : points[e - 1]? with
          | none =>
              simp only [h1, h2] at h
              exact Option.noConfusion h
          | some ep =>
              simp only [h1, h2] at h
              split_ifs at h with hsp
              · cases hd1 : dpIdx fuel points start
                    ((maxScan s ep (scanList points start e) (0, 0)).2 + 1)
                    epsilon with
                | none =>
                    simp only [hd1] at h
                    exact Option.noConfusion h
                | some i1 =>
                    cases hd2 : dpIdx fuel points
                        (maxScan s ep (scanList points start e) (0, 0)).2 e
                        epsilon with
                    | none =>
                        simp only [hd1, hd2] at h
                        exact Option.noConfusion h
                    | some i2 =>
                        simp only [hd1, hd2, Option.some.injEq] at h
                        rw [← h]
                        have := ih points start _ epsilon i1 hd1
                        simp [this]
              · simp only [Option.some.injEq] at h
                rw [← h]
                simp

/-- `simplify_points` is the index mirror with the points looked up: the
accumulator receives the leaf chain, its leading point dropped when the
accumulator is already non-empty. -/
theorem simplify_points_eq_dpIdx :
    ∀ (fuel : ℕ) (points : List Pt) (start e : ℕ) (epsilon : ℚ)
      (acc : List Pt),
      simplify_points fuel points start e epsilon acc =
        (dpIdx fuel points start e epsilon).map
          (fun I => acc ++
            (if acc.isEmpty then I else I.tail).map
              (fun i => points.getD i ⟨0, 0⟩)) := by
  intro fuel
  induction fuel with
  | zero =>
      intro points start e epsilon acc
      rfl
  | succ fuel ih =>
      intro points start e epsilon acc
      rw [simplify_points, dpIdx]
      by_cases he : e = 0
      · rw [if_pos he, if_pos he]
        rfl
      rw [if_neg he, if_neg he]
      cases h1 : points[start]? with
      | none => rfl
      | some s =>
          cases h2 : points[e - 1]? with
          | none => rfl
          | some ep =>
              simp only []
              have hs : points.getD start ⟨0, 0⟩ = s := by
                simp [List.getD_eq_getElem?_getD, h1]
              have hep : points.getD (e - 1) ⟨0, 0⟩ = ep := by
                simp [List.getD_eq_getElem?_getD, h2]
              by_cases hsp : sqrt_gt
                  (maxScan s ep (scanList points start e) (0, 0)).1 epsilon =
                    true
              · rw [if_pos hsp, if_pos hsp]
                rw [ih]
                cases hd1 : dpIdx fuel points start
                    ((maxScan s ep (scanList points start e) (0, 0)).2 + 1)
                    epsilon with
                | none => rfl
                | some i1 =>
                    simp only [Option.map_some']
                    rw [ih]
                    cases hd2 : dpIdx fuel points
                        (maxScan s ep (scanList points start e) (0, 0)).2 e
                        epsilon with
                    | none => rfl
                    | some i2 =>
                        simp only [Option.map_some', Option.some.injEq]
                        have hne1 : i1 ≠ [] := dpIdx_ne_nil fuel points start
                          _ epsilon i1 hd1
                        have hacc1 : (acc ++
                            (if acc.isEmpty then i1 else i1.tail).map
                              (fun i => points.getD i ⟨0, 0⟩)).isEmpty =
                                false := by
                          cases hae : acc.isEmpty with
                          | true =>
                              simp only [List.isEmpty_eq_true] at hae
                              subst hae
                              simp [hne1]
                          | false =>
                              simp only [List.isEmpty_eq_false] at hae
                              simp [hae]
                        rw [hacc1]
                        simp only [Bool.false_eq_true, if_false]
                        cases hae : acc.isEmpty with
                        | true =>
                            simp only [List.isEmpty_eq_true] at hae
                            subst hae
                            simp [List.tail_append_of_ne_nil hne1]
                        | false =>
                            simp only [hae, Bool.false_eq_true, if_false]
                            simp [List.tail_append_of_ne_nil hne1]
              · rw [if_neg hsp, if_neg hsp]
                simp only [Option.map_some', Option.some.injEq]
                cases hae : acc.isEmpty with
                | true =>
                    simp only [List.isEmpty_eq_true] at hae
                    subst hae
                    simp [hs, hep, h1, h2]
                | false =>
                    simp only [hae, Bool.false_eq_true, if_false]
                    simp [hae, hep, h1, h2]

theorem sqrt_gt_zero {epsilon : ℚ} (h : 0 ≤ epsilon) :
    sqrt_gt 0 epsilon = false := by
  simp only [sqrt_gt, Bool.or_eq_false_iff, decide_eq_false_iff_not, not_lt]
  exact ⟨h, mul_self_nonneg epsilon⟩

theorem getElem?_eq_some_getD {α : Type} (l : List α) (i : ℕ) (d : α)
    (h : i < l.length) : l[i]? = some (l.getD i d) := by
  rw [List.getElem?_eq_getElem h, List.getD_eq_getElem l d h]

/-- The running strict-maximum scan: every scanned distance is bounded by
the result, the accumulator only grows, and a changed result is the first
attainer of the final maximum. -/
theorem maxScan_spec (s e : Pt) :
    ∀ (l : List (ℕ × Pt)) (acc : ℚ × ℕ),
      (∀ jp ∈ l,
        distance_to_segment_squared jp.2 s e ≤ (maxScan s e l acc).1) ∧
      acc.1 ≤ (maxScan s e l acc).1 ∧
      (maxScan s e l acc = acc ∨
        ∃ n, ∃ hn : n < l.length,
          (maxScan s e l acc).1 =
            distance_to_segment_squared (l.get ⟨n, hn⟩).2 s e ∧
          (maxScan s e l acc).2 = (l.get ⟨n, hn⟩).1 ∧
          acc.1 < (maxScan s e l acc).1 ∧
          ∀ n' (hn' : n' < n),
            distance_to_segment_squared
              (l.get ⟨n', Nat.lt_trans hn' hn⟩).2 s e <
                (maxScan s e l acc).1) := by
  intro l
  induction l with
  | nil =>
      intro acc
      refine ⟨by simp, le_refl _, Or.inl rfl⟩
  | cons ip rest ih =>
      intro acc
      obtain ⟨i, p⟩ := ip
      have hstep : maxScan s e ((i, p) :: rest) acc =
          maxScan s e rest
            (if acc.1 < distance_to_segment_squared p s e
              then (distance_to_segment_squared p s e, i) else acc) := rfl
      obtain ⟨ihA, ihB, ihC⟩ := ih
        (if acc.1 < distance_to_segment_squared p s e
          then (distance_to_segment_squared p s e, i) else acc)
      have haccd : distance_to_segment_squared p s e ≤
          (if acc.1 < distance_to_segment_squared p s e
            then (distance_to_segment_squared p s e, i) else acc).1 := by
        split_ifs with hup
        · exact le_refl _
        · exact le_of_not_lt hup
      have haccm : acc.1 ≤
          (if acc.1 < distance_to_segment_squared p s e
            then (distance_to_segment_squared p s e, i) else acc).1 := by
        split_ifs with hup
        · exact le_of_lt hup
        · exact le_refl _
      refine ⟨?_, ?_, ?_⟩
      · intro jp hjp
        rw [hstep]
        rcases List.mem_cons.1 hjp with hjp | hjp
        · rw [hjp]
          exact le_trans haccd ihB
        · exact ihA jp hjp
      · rw [hstep]
        exact le_trans haccm ihB
      · rcases ihC with hsame | ⟨n, hn, e1, e2, hlt, hall⟩
        · by_cases hup : acc.1 < distance_to_segment_squared p s e
          · refine Or.inr ⟨0, by simp, ?_, ?_, ?_, ?_⟩
            · rw [hstep, hsame, if_pos hup]
              rfl
            · rw [hstep, hsame, if_pos hup]
              rfl
            · rw [hstep, hsame, if_pos hup]
              exact hup
            · intro n' hn'
              exact absurd hn' (Nat.not_lt_zero n')
          · refine Or.inl ?_
            rw [hstep, hsame, if_neg hup]
        · refine Or.inr ⟨n + 1, Nat.succ_lt_succ hn, ?_, ?_, ?_, ?_⟩
          · rw [hstep]
            exact e1
          · rw [hstep]
            exact e2
          · rw [hstep]
            exact lt_of_le_of_lt haccm hlt
          · intro n' hn'
            cases n' with
            | zero =>
                rw [hstep]
                exact lt_of_le_of_lt haccd hlt
            | succ k =>
                rw [hstep]
                exact hall k (Nat.lt_of_succ_lt_succ hn')

theorem scanList_eq_map (points : List Pt) (start e : ℕ)
    (he : e - 1 ≤ points.length) :
    scanList points start e =
      (List.range' (start + 1) (e - 1 - (start + 1))).map
        (fun i => (i, points.getD i ⟨0, 0⟩)) := by
  apply List.ext_getElem
  · simp [scanList, he, Nat.min_eq_left]
  · intro k h1 h2
    simp only [scanList, List.getElem_drop, List.getElem_take,
      List.getElem_enum, List.getElem_map, List.getElem_range']
    have hlen : start + 1 + k < points.length := by
      simp only [scanList, List.length_drop, List.length_take,
        List.enum_length] at h1
      omega
    simp only [one_mul]
    rw [List.getD_eq_getElem points ⟨0, 0⟩ hlen]

theorem mem_scanList {points : List Pt} {start e : ℕ} {jp : ℕ × Pt}
    (he : e - 1 ≤ points.length) (h : jp ∈ scanList points start e) :
    start + 1 ≤ jp.1 ∧ jp.1 < e - 1 ∧
      jp = (jp.1, points.getD jp.1 ⟨0, 0⟩) := by
  rw [scanList_eq_map points start e he] at h
  obtain ⟨i, hi, hji⟩ := List.mem_map.1 h
  rw [List.mem_range'_1] at hi
  refine ⟨?_, ?_, ?_⟩
  · rw [← hji]
    exact hi.1
  · rw [← hji]
    have := hi.2
    omega
  · rw [← hji]

theorem scanList_length (points : List Pt) (start e : ℕ)
    (he : e - 1 ≤ points.length) :
    (scanList points start e).length = e - 1 - (start + 1) := by
  rw [scanList_eq_map points start e he]
  simp

theorem scanList_get (points : List Pt) (start e : ℕ)
    (he : e - 1 ≤ points.length) (k : ℕ)
    (hk : k < (scanList points start e).length) :
    (scanList points start e).get ⟨k, hk⟩ =
      (start + 1 + k, points.getD (start + 1 + k) ⟨0, 0⟩) := by
  rw [List.get_eq_getElem, List.getElem_of_eq (scanList_eq_map points start e he)]
  simp [List.getElem_map, List.getElem_range']

theorem mem_scanList_of_bounds (points : List Pt) (start e : ℕ)
    (he : e - 1 ≤ points.length) (j : ℕ) (hj1 : start + 1 ≤ j)
    (hj2 : j + 1 < e) :
    (j, points.getD j ⟨0, 0⟩) ∈ scanList points start e := by
  rw [scanList_eq_map points start e he]
  refine List.mem_map.2 ⟨j, ?_, rfl⟩
  rw [List.mem_range'_1]
  omega

/-- The facts about the split index selected by `simplify_points` when it
recurses (for a nonnegative epsilon): it is interior to the span, its
recorded distance is the scanned maximum, every interior distance is
bounded by it, and every interior index left of it has a strictly smaller
distance. -/
theorem maxScan_split_facts (points : List Pt) (start e : ℕ) (epsilon : ℚ)
    (s ep : Pt) (r : ℚ × ℕ) (heps : 0 ≤ epsilon) (he : e ≤ points.length)
    (hr : maxScan s ep (scanList points start e) (0, 0) = r)
    (hsp : sqrt_gt r.1 epsilon = true) :
    start + 1 ≤ r.2 ∧ r.2 + 1 < e ∧
    r.1 = distance_to_segment_squared (points.getD r.2 ⟨0, 0⟩) s ep ∧
    (∀ j, start + 1 ≤ j → j + 1 < e →
      distance_to_segment_squared (points.getD j ⟨0, 0⟩) s ep ≤ r.1) ∧
    (∀ j, start + 1 ≤ j → j < r.2 →
      distance_to_segment_squared (points.getD j ⟨0, 0⟩) s ep < r.1) := by
  have he1 : e - 1 ≤ points.length := le_trans (Nat.sub_le e 1) he
  obtain ⟨hA, hB, hC⟩ := maxScan_spec s ep (scanList points start e) (0, 0)
  rw [hr] at hA hB hC
  rcases hC with hsame | ⟨n, hn, e1, e2, hlt, hall⟩
  · exfalso
    rw [hsame] at hsp
    rw [show ((0 : ℚ), (0 : ℕ)).1 = (0 : ℚ) from rfl,
      sqrt_gt_zero heps] at hsp
    exact Bool.noConfusion hsp
  · have hlen := scanList_length points start e he1
    have hget := scanList_get points start e he1 n hn
    have hnlt : n < e - 1 - (start + 1) := by rw [← hlen]; exact hn
    rw [hget] at e1 e2
    have hr2 : r.2 = start + 1 + n := e2
    refine ⟨by omega, by omega, ?_, ?_, ?_⟩
    · rw [e1, hr2]
    · intro j hj1 hj2
      exact hA (j, points.getD j ⟨0, 0⟩)
        (mem_scanList_of_bounds points start e he1 j hj1 hj2)
    · intro j hj1 hj2
      have hjn : j - (start + 1) < n := by omega
      have hjk : j - (start + 1) < (scanList points start e).length := by
        omega
      have := hall (j - (start + 1)) hjn
      rw [scanList_get points start e he1 (j - (start + 1)) hjk] at this
      have hjj : start + 1 + (j - (start + 1)) = j := by omega
      rw [hjj] at this
      exact this

theorem dpIdx_isSome :
    ∀ (fuel : ℕ) (points : List Pt) (start e : ℕ) (epsilon : ℚ),
      0 ≤ epsilon → start < e → e ≤ points.length → e - start ≤ fuel →
      (dpIdx fuel points start e epsilon).isSome = true := by
  intro fuel
  induction fuel with
  | zero =>
      intro points start e epsilon heps hlt hle hfuel
      omega
  | succ fuel ih =>
      intro points start e epsilon heps hlt hle hfuel
      rw [dpIdx]
      rw [if_neg (by omega : ¬ e = 0)]
      have h1 : points[start]? = some (points.getD start ⟨0, 0⟩) :=
        getElem?_eq_some_getD points start ⟨0, 0⟩ (by omega)
      have h2 : points[e - 1]? = some (points.getD (e - 1) ⟨0, 0⟩) :=
        getElem?_eq_some_getD points (e - 1) ⟨0, 0⟩ (by omega)
      rw [h1, h2]
      simp only []
      by_cases hsp : sqrt_gt
          (maxScan (points.getD start ⟨0, 0⟩) (points.getD (e - 1) ⟨0, 0⟩)
            (scanList points start e) (0, 0)).1 epsilon = true
      · rw [if_pos hsp]
        obtain ⟨hm1, hm2, _, _, _⟩ := maxScan_split_facts points start e
          epsilon _ _ _ heps hle rfl hsp
        have hs1 := ih points start
          ((maxScan (points.getD start ⟨0, 0⟩) (points.getD (e - 1) ⟨0, 0⟩)
            (scanList points start e) (0, 0)).2 + 1) epsilon heps
          (by omega) (by omega) (by omega)
        have hs2 := ih points
          (maxScan (points.getD start ⟨0, 0⟩) (points.getD (e - 1) ⟨0, 0⟩)
            (scanList points start e) (0, 0)).2 e epsilon heps
          (by omega) hle (by omega)
        obtain ⟨i1, hi1⟩ := Option.isSome_iff_exists.1 hs1
        obtain ⟨i2, hi2⟩ := Option.isSome_iff_exists.1 hs2
        rw [hi1, hi2]
        rfl
      · rw [if_neg hsp]
        rfl

theorem pairwise_le_getLast :
    ∀ (l : List ℕ), l.Pairwise (· < ·) → ∀ (z : ℕ),
      l.getLast? = some z → ∀ x ∈ l, x ≤ z := by
  intro l
  induction l with
  | nil =>
      intro _ z hz
      exact Option.noConfusion hz
  | cons a t ih =>
      intro hp z hz x hx
      rw [List.pairwise_cons] at hp
      cases t with
      | nil =>
          simp only [List.getLast?_singleton, Option.some.injEq] at hz
          simp only [List.mem_singleton] at hx
          omega
      | cons b t2 =>
          rw [List.getLast?_cons_cons] at hz
          rcases List.mem_cons.1 hx with hx | hx
          · have hz2 : z ∈ b :: t2 :=
              List.mem_of_mem_getLast? (by rw [hz]; rfl)
            have := hp.1 z hz2
            omega
          · exact ih hp.2 z hz x hx

theorem dpIdx_facts :
    ∀ (fuel : ℕ) (points : List Pt) (start e : ℕ) (epsilon : ℚ) (I : List ℕ),
      0 ≤ epsilon → start + 2 ≤ e → e ≤ points.length →
      dpIdx fuel points start e epsilon = some I →
      2 ≤ I.length ∧ I.head? = some start ∧ I.getLast? = some (e - 1) ∧
        I.Pairwise (· < ·) := by
  intro fuel
  induction fuel with
  | zero =>
      intro points start e epsilon I heps hspan hle h
      exact Option.noConfusion h
  | succ fuel ih =>
      intro points start e epsilon I heps hspan hle h
      rw [dpIdx] at h
      rw [if_neg (by omega : ¬ e = 0)] at h
      have h1 : points[start]? = some (points.getD start ⟨0, 0⟩) :=
        getElem?_eq_some_getD points start ⟨0, 0⟩ (by omega)
      have h2 : points[e - 1]? = some (points.getD (e - 1) ⟨0, 0⟩) :=
        getElem?_eq_some_getD points (e - 1) ⟨0, 0⟩ (by omega)
      rw [h1, h2] at h
      simp only [] at h
      by_cases hsp : sqrt_gt
          (maxScan (points.getD start ⟨0, 0⟩) (points.getD (e - 1) ⟨0, 0⟩)
            (scanList points start e) (0, 0)).1 epsilon = true
      · rw [if_pos hsp] at h
        obtain ⟨hm1, hm2, _, _, _⟩ := maxScan_split_facts points start e
          epsilon _ _ _ heps hle rfl hsp
        cases hd1 : dpIdx fuel points start
            ((maxScan (points.getD start ⟨0, 0⟩)
              (points.getD (e - 1) ⟨0, 0⟩)
              (scanList points start e) (0, 0)).2 + 1) epsilon with
        | none =>
            rw [hd1] at h
            exact Option.noConfusion h
        | some i1 =>
            cases hd2 : dpIdx fuel points
                (maxScan (points.getD start ⟨0, 0⟩)
                  (points.getD (e - 1) ⟨0, 0⟩)
                  (scanList points start e) (0, 0)).2 e epsilon with
            | none =>
                rw [hd1, hd2] at h
                exact Option.noConfusion h
            | some i2 =>
                rw [hd1, hd2] at h
                simp only [Option.some.injEq] at h
                obtain ⟨hl1, hh1, hg1, hp1⟩ := ih points start _ epsilon i1
                  heps (by omega) (by omega) hd1
                obtain ⟨hl2, hh2, hg2, hp2⟩ := ih points _ e epsilon i2
                  heps (by omega) hle hd2
                have hm1' : i1.getLast? = some
                    ((maxScan (points.getD start ⟨0, 0⟩)
                      (points.getD (e - 1) ⟨0, 0⟩)
                      (scanList points start e) (0, 0)).2) := by
                  rw [hg1]
                  congr 1
                cases i2 with
                | nil => exact absurd hl2 (by simp)
                | cons b2 t2 =>
                    cases t2 with
                    | nil => exact absurd hl2 (by simp)
                    | cons c2 t3 =>
                        have hb2 : b2 = (maxScan (points.getD start ⟨0, 0⟩)
                            (points.getD (e - 1) ⟨0, 0⟩)
                            (scanList points start e) (0, 0)).2 := by
                          simp only [List.head?_cons, Option.some.injEq] at hh2
                          omega
                        cases i1 with
                        | nil => exact absurd hl1 (by simp)
                        | cons a1 t1 =>
                            have ha1 : a1 = start := by
                              simp only [List.head?_cons,
                                Option.some.injEq] at hh1
                              omega
                            rw [← h]
                            simp only [List.tail_cons]
                            rw [List.pairwise_cons] at hp2
                            refine ⟨?_, ?_, ?_, ?_⟩
                            · simp only [List.length_append,
                                List.length_cons]
                              omega
                            · simp [ha1]
                            · rw [List.getLast?_append_of_ne_nil _
                                (by simp : (c2 :: t3) ≠ [])]
                              rw [List.getLast?_cons_cons] at hg2
                              exact hg2
                            · rw [List.pairwise_append]
                              refine ⟨hp1, hp2.2, ?_⟩
                              intro x hx y hy
                              have hxle := pairwise_le_getLast (a1 :: t1)
                                hp1 _ hm1' x hx
                              have hby := hp2.1 y hy
                              omega
      · rw [if_neg hsp] at h
        simp only [Option.some.injEq] at h
        rw [← h]
        refine ⟨by simp, by simp, by simp, ?_⟩
        simp [List.pairwise_cons]
        omega

theorem pos_of_sqrt_gt {m epsilon : ℚ} (heps : 0 ≤ epsilon)
    (h : sqrt_gt m epsilon = true) : 0 < m := by
  simp only [sqrt_gt, Bool.or_eq_true, decide_eq_true_eq] at h
  rcases h with h | h
  · exact absurd h (not_lt.2 heps)
  · exact lt_of_le_of_lt (mul_self_nonneg epsilon) h

theorem getD_bounds_of_facts {I : List ℕ} {a z : ℕ}
    (hp : I.Pairwise (· < ·)) (hh : I.head? = some a)
    (hg : I.getLast? = some z) :
    I.getD 0 0 = a ∧ I.getD (I.length - 1) 0 = z ∧
    (∀ k1 k2, k1 < k2 → k2 < I.length → I.getD k1 0 < I.getD k2 0) ∧
    (∀ k, 1 ≤ k → k + 1 < I.length → a < I.getD k 0 ∧ I.getD k 0 < z) := by
  have hlen : 0 < I.length := by
    cases I with
    | nil => exact Option.noConfusion hh
    | cons x t => simp
  have hmono : ∀ k1 k2, k1 < k2 → k2 < I.length →
      I.getD k1 0 < I.getD k2 0 := by
    intro k1 k2 h12 h2
    rw [List.getD_eq_getElem I 0 (by omega), List.getD_eq_getElem I 0 h2]
    exact (List.pairwise_iff_getElem.1 hp) k1 k2 (by omega) h2 h12
  have hha : I.getD 0 0 = a := by
    rw [List.getD_eq_getElem?_getD, ← List.head?_eq_getElem?, hh]
    rfl
  have hgz : I.getD (I.length - 1) 0 = z := by
    rw [List.getD_eq_getElem?_getD, ← List.getLast?_eq_getElem?, hg]
    rfl
  refine ⟨hha, hgz, hmono, ?_⟩
  intro k hk1 hk2
  constructor
  · rw [← hha]
    exact hmono 0 k (by omega) (by omega)
  · rw [← hgz]
    exact hmono k (I.length - 1) (by omega) (by omega)

theorem tail_getD {α : Type} (l : List α) (k : ℕ) (d : α) (hl : l ≠ []) :
    l.tail.getD k d = l.getD (k + 1) d := by
  cases l with
  | nil => exact absurd rfl hl
  | cons x t => rfl

/-- Rerunning the Douglas-Peucker recursion on its own output keeps every
point: if a span of the first run produced the boundary-index list `I`, and
a window of the second run's input lists exactly the points of `I`, then
the second run on that window splits all the way down to adjacent pairs,
returning every window index. The split point is re-found because its
distance to the (identical) chord is the unchanged maximum, and it is still
the first attainer. -/
theorem dpIdx_rerun :
    ∀ (fuel : ℕ) (points : List Pt) (start e : ℕ) (epsilon : ℚ)
      (I : List ℕ) (ys : List Pt) (b : ℕ) (fuel2 : ℕ),
      0 ≤ epsilon → start + 2 ≤ e → e ≤ points.length →
      dpIdx fuel points start e epsilon = some I →
      b + I.length ≤ ys.length →
      (∀ k, k < I.length → ys.getD (b + k) ⟨0, 0⟩ =
        points.getD (I.getD k 0) ⟨0, 0⟩) →
      I.length ≤ fuel2 →
      dpIdx fuel2 ys b (b + I.length) epsilon =
        some (List.range' b I.length) := by
  intro fuel
  induction fuel with
  | zero =>
      intro points start e epsilon I ys b fuel2 heps hspan hle h hby hwin hf2
      exact Option.noConfusion h
  | succ fuel ih =>
      intro points start e epsilon I ys b fuel2 heps hspan hle h hby hwin hf2
      have hfactsI := dpIdx_facts (fuel + 1) points start e epsilon I heps
        hspan hle h
      obtain ⟨hlI, hhI, hgI, hpI⟩ := hfactsI
      obtain ⟨hI0, hIlast, hImono, hIint⟩ := getD_bounds_of_facts hpI hhI hgI
      rw [dpIdx] at h
      rw [if_neg (by omega : ¬ e = 0)] at h
      have h1 : points[start]? = some (points.getD start ⟨0, 0⟩) :=
        getElem?_eq_some_getD points start ⟨0, 0⟩ (by omega)
      have h2 : points[e - 1]? = some (points.getD (e - 1) ⟨0, 0⟩) :=
        getElem?_eq_some_getD points (e - 1) ⟨0, 0⟩ (by omega)
      rw [h1, h2] at h
      simp only [] at h
      by_cases hsp : sqrt_gt
          (maxScan (points.getD start ⟨0, 0⟩) (points.getD (e - 1) ⟨0, 0⟩)
            (scanList points start e) (0, 0)).1 epsilon = true
      · -- split case
        rw [if_pos hsp] at h
        obtain ⟨r, hM⟩ : ∃ r, maxScan (points.getD start ⟨0, 0⟩)
            (points.getD (e - 1) ⟨0, 0⟩) (scanList points start e) (0, 0) =
              r := ⟨_, rfl⟩
        rw [hM] at h hsp
        obtain ⟨hm1, hm2, hmv, hub1, hlt1⟩ := maxScan_split_facts points
          start e epsilon _ _ r heps hle hM hsp
        cases hd1 : dpIdx fuel points start (r.2 + 1) epsilon with
        | none =>
            rw [hd1] at h
            exact Option.noConfusion h
        | some i1 =>
        cases hd2 : dpIdx fuel points r.2 e epsilon with
        | none =>
            rw [hd1, hd2] at h
            exact Option.noConfusion h
        | some i2 =>
        rw [hd1, hd2] at h
        simp only [Option.some.injEq] at h
        have hI : I = i1 ++ i2.tail := h.symm
        obtain ⟨hl1, hh1, hg1, hp1⟩ := dpIdx_facts fuel points start
          (r.2 + 1) epsilon i1 heps (by omega) (by omega) hd1
        obtain ⟨hl2, hh2, hg2, hp2⟩ := dpIdx_facts fuel points r.2 e
          epsilon i2 heps (by omega) hle hd2
        have hg1' : i1.getLast? = some r.2 := hg1
        have hl2ne : i2 ≠ [] := by
          cases i2 with
          | nil => exact absurd hl2 (by simp)
          | cons x t => simp
        obtain ⟨hi10, hi1last, hi1mono, _⟩ :=
          getD_bounds_of_facts hp1 hh1 hg1'
        obtain ⟨hi20, hi2last, hi2mono, _⟩ := getD_bounds_of_facts hp2 hh2 hg2
        obtain ⟨jj, hjj⟩ : ∃ jj, i1.length = jj + 1 := ⟨i1.length - 1, by omega⟩
        have hjj1 : 1 ≤ jj := by omega
        have hIlen : I.length = jj + i2.length := by
          rw [hI]
          simp only [List.length_append, List.length_tail]
          omega
        have hIpre : ∀ k, k < i1.length → I.getD k 0 = i1.getD k 0 := by
          intro k hk
          rw [hI]
          exact List.getD_append i1 i2.tail 0 k hk
        have hIm : I.getD jj 0 = r.2 := by
          rw [hIpre jj (by omega)]
          have := hi1last
          rw [hjj] at this
          simpa using this
        have hIsuf : ∀ k, 1 ≤ k → k < i2.length →
            I.getD (jj + k) 0 = i2.getD k 0 := by
          intro k hk1 hk2
          rw [hI]
          rw [List.getD_append_right i1 i2.tail 0 (jj + k) (by omega)]
          rw [tail_getD i2 _ 0 hl2ne]
          congr 1
          omega
        have hwin1 : ∀ k, k < i1.length →
            ys.getD (b + k) ⟨0, 0⟩ = points.getD (i1.getD k 0) ⟨0, 0⟩ := by
          intro k hk
          rw [hwin k (by omega), hIpre k hk]
        have hwin2 : ∀ k, k < i2.length →
            ys.getD (b + jj + k) ⟨0, 0⟩ =
              points.getD (i2.getD k 0) ⟨0, 0⟩ := by
          intro k hk
          cases Nat.eq_zero_or_pos k with
          | inl hk0 =>
              subst hk0
              rw [Nat.add_zero]
              rw [hwin jj (by omega)]
              rw [hIm]
              have h20 : i2.getD 0 0 = r.2 := hi20
              rw [h20]
          | inr hkpos =>
              rw [Nat.add_assoc]
              rw [hwin (jj + k) (by omega), hIsuf k (by omega) hk]
        -- the rerun's scan sees the same maximum at the same first position
        have hpos : 0 < r.1 := pos_of_sqrt_gt heps hsp
        have hcs : ys.getD b ⟨0, 0⟩ = points.getD start ⟨0, 0⟩ := by
          have := hwin 0 (by omega)
          rw [hI0] at this
          simpa using this
        have hce : ys.getD (b + I.length - 1) ⟨0, 0⟩ =
            points.getD (e - 1) ⟨0, 0⟩ := by
          have := hwin (I.length - 1) (by omega)
          rw [hIlast] at this
          rw [show b + I.length - 1 = b + (I.length - 1) from by omega]
          exact this
        have hscan2len : (scanList ys b (b + I.length)).length =
            I.length - 2 := by
          rw [scanList_length ys b (b + I.length) (by omega)]
          omega
        have hget2 : ∀ k (hk : k < (scanList ys b (b + I.length)).length),
            (scanList ys b (b + I.length)).get ⟨k, hk⟩ =
              (b + 1 + k, points.getD (I.getD (1 + k) 0) ⟨0, 0⟩) := by
          intro k hk
          rw [scanList_get ys b (b + I.length) (by omega) k hk]
          rw [show b + 1 + k = b + (1 + k) from by omega]
          rw [hwin (1 + k) (by rw [hscan2len] at hk; omega)]
        have hintk : ∀ k, k < I.length - 2 →
            start + 1 ≤ I.getD (1 + k) 0 ∧ I.getD (1 + k) 0 + 1 < e := by
          intro k hk
          obtain ⟨hlo, hhi⟩ := hIint (1 + k) (by omega) (by omega)
          omega
        have hms2 : maxScan (ys.getD b ⟨0, 0⟩)
            (ys.getD (b + I.length - 1) ⟨0, 0⟩)
            (scanList ys b (b + I.length)) (0, 0) = (r.1, b + jj) := by
          obtain ⟨hA2, hB2, hC2⟩ := maxScan_spec (ys.getD b ⟨0, 0⟩)
            (ys.getD (b + I.length - 1) ⟨0, 0⟩)
            (scanList ys b (b + I.length)) (0, 0)
          have hdsq : ∀ k (hk : k < (scanList ys b (b + I.length)).length),
              distance_to_segment_squared
                ((scanList ys b (b + I.length)).get ⟨k, hk⟩).2
                (ys.getD b ⟨0, 0⟩) (ys.getD (b + I.length - 1) ⟨0, 0⟩) =
              distance_to_segment_squared
                (points.getD (I.getD (1 + k) 0) ⟨0, 0⟩)
                (points.getD start ⟨0, 0⟩) (points.getD (e - 1) ⟨0, 0⟩) := by
            intro k hk
            rw [hget2 k hk, hcs, hce]
          have hub2 : ∀ k (hk : k < (scanList ys b (b + I.length)).length),
              distance_to_segment_squared
                ((scanList ys b (b + I.length)).get ⟨k, hk⟩).2
                (ys.getD b ⟨0, 0⟩) (ys.getD (b + I.length - 1) ⟨0, 0⟩) ≤
                  r.1 := by
            intro k hk
            rw [hdsq k hk]
            obtain ⟨hlo, hhi⟩ := hintk k (by rw [hscan2len] at hk; omega)
            exact hub1 (I.getD (1 + k) 0) hlo hhi
          have hjlt : jj - 1 < (scanList ys b (b + I.length)).length := by
            rw [hscan2len]
            omega
          have hatj : distance_to_segment_squared
              ((scanList ys b (b + I.length)).get ⟨jj - 1, hjlt⟩).2
              (ys.getD b ⟨0, 0⟩) (ys.getD (b + I.length - 1) ⟨0, 0⟩) =
                r.1 := by
            rw [hdsq (jj - 1) hjlt]
            rw [show 1 + (jj - 1) = jj from by omega, hIm]
            exact hmv.symm
          have hbelow : ∀ k, k < jj - 1 →
              ∀ (hk : k < (scanList ys b (b + I.length)).length),
              distance_to_segment_squared
                ((scanList ys b (b + I.length)).get ⟨k, hk⟩).2
                (ys.getD b ⟨0, 0⟩) (ys.getD (b + I.length - 1) ⟨0, 0⟩) <
                  r.1 := by
            intro k hklt hk
            rw [hdsq k hk]
            obtain ⟨hlo, hhi⟩ := hintk k (by rw [hscan2len] at hk; omega)
            refine hlt1 (I.getD (1 + k) 0) hlo ?_
            rw [← hIm]
            exact hImono (1 + k) jj (by omega) (by omega)
          rcases hC2 with hsame | ⟨n, hn, e1', e2', hlt', hall'⟩
          · exfalso
            have := hA2 ((scanList ys b (b + I.length)).get ⟨jj - 1, hjlt⟩)
              (List.get_mem _ _ _)
            rw [hatj, hsame] at this
            exact absurd this (not_le.2 hpos)
          · have hval : (maxScan (ys.getD b ⟨0, 0⟩)
                (ys.getD (b + I.length - 1) ⟨0, 0⟩)
                (scanList ys b (b + I.length)) (0, 0)).1 = r.1 := by
              have hge : r.1 ≤ (maxScan (ys.getD b ⟨0, 0⟩)
                  (ys.getD (b + I.length - 1) ⟨0, 0⟩)
                  (scanList ys b (b + I.length)) (0, 0)).1 := by
                rw [← hatj]
                exact hA2 _ (List.get_mem _ _ _)
              have hle2 : (maxScan (ys.getD b ⟨0, 0⟩)
                  (ys.getD (b + I.length - 1) ⟨0, 0⟩)
                  (scanList ys b (b + I.length)) (0, 0)).1 ≤ r.1 := by
                rw [e1']
                exact hub2 n hn
              exact le_antisymm hle2 hge
            have hn' : n = jj - 1 := by
              rcases Nat.lt_trichotomy n (jj - 1) with hlt | heq | hgt
              · exfalso
                have := hbelow n hlt hn
                rw [← e1', hval] at this
                exact lt_irrefl _ this
              · exact heq
              · exfalso
                have := hall' (jj - 1) hgt
                rw [hatj, hval] at this
                exact lt_irrefl _ this
            refine Prod.ext hval ?_
            rw [e2', hget2 n hn, hn']
            simp only []
            omega
        -- unfold the rerun one level
        cases fuel2 with
        | zero => omega
        | succ f2 =>
        rw [dpIdx]
        rw [if_neg (by omega : ¬ b + I.length = 0)]
        have hy1 : ys[b]? = some (ys.getD b ⟨0, 0⟩) :=
          getElem?_eq_some_getD ys b ⟨0, 0⟩ (by omega)
        have hy2 : ys[b + I.length - 1]? =
            some (ys.getD (b + I.length - 1) ⟨0, 0⟩) :=
          getElem?_eq_some_getD ys (b + I.length - 1) ⟨0, 0⟩ (by omega)
        rw [hy1, hy2]
        simp only [hms2]
        rw [if_pos hsp]
        have IH1 := ih points start (r.2 + 1) epsilon i1 ys b f2 heps
          (by omega) (by omega) hd1 (by omega)
          hwin1 (by omega)
        have IH2 := ih points r.2 e epsilon i2 ys (b + jj) f2 heps
          (by omega) hle hd2 (by omega) hwin2 (by omega)
        rw [hjj] at IH1
        rw [show b + (jj + 1) = b + jj + 1 from by omega] at IH1
        rw [show b + jj + i2.length = b + I.length from by omega] at IH2
        rw [IH1, IH2]
        simp only [Option.some.injEq]
        have hrt : ∀ (u n : ℕ),
            (List.range' u (n + 1)).tail = List.range' (u + 1) n := by
          intro u n
          rw [List.range'_succ]
          rfl
        have hcomb : List.range' b (jj + 1) ++
            (List.range' (b + jj) i2.length).tail =
              List.range' b I.length := by
          rw [show i2.length = (i2.length - 1) + 1 from by omega]
          rw [hrt]
          rw [show b + jj + 1 = b + (jj + 1) from by omega]
          rw [List.range'_append_1]
          congr 1
          omega
        exact hcomb
      · -- leaf case
        rw [if_neg hsp] at h
        simp only [Option.some.injEq] at h
        have hI : I = [start, e - 1] := h.symm
        have hIlen2 : I.length = 2 := by rw [hI]; rfl
        cases fuel2 with
        | zero => omega
        | succ f2 =>
        rw [hIlen2]
        rw [dpIdx]
        rw [if_neg (by omega : ¬ b + 2 = 0)]
        have hy1 : ys[b]? = some (ys.getD b ⟨0, 0⟩) :=
          getElem?_eq_some_getD ys b ⟨0, 0⟩ (by omega)
        have hy2 : ys[b + 2 - 1]? = some (ys.getD (b + 2 - 1) ⟨0, 0⟩) :=
          getElem?_eq_some_getD ys (b + 2 - 1) ⟨0, 0⟩ (by omega)
        rw [hy1, hy2]
        show (if sqrt_gt (maxScan (ys.getD b ⟨0, 0⟩)
            (ys.getD (b + 2 - 1) ⟨0, 0⟩) (scanList ys b (b + 2)) (0, 0)).1
              epsilon = true then _ else _) = some (List.range' b 2)
        have hscan : scanList ys b (b + 2) = [] := by
          rw [scanList_eq_map ys b (b + 2) (by omega)]
          rw [show b + 2 - 1 - (b + 1) = 0 from by omega]
          rfl
        rw [hscan]
        rw [show maxScan (ys.getD b ⟨0, 0⟩) (ys.getD (b + 2 - 1) ⟨0, 0⟩)
            ([] : List (ℕ × Pt)) (0, 0) = ((0 : ℚ), (0 : ℕ)) from rfl]
        rw [if_neg (by
          simp only [sqrt_gt_zero heps]
          exact Bool.false_ne_true)]
        rw [show List.range' b 2 = [b, b + 1] from rfl]
        rfl

theorem map_getD_range' {α : Type} (l : List α) (d : α) :
    (List.range' 0 l.length).map (fun i => l.getD i d) = l := by
  apply List.ext_getElem
  · simp
  · intro i h1 h2
    simp only [List.getElem_map, List.getElem_range', one_mul, Nat.zero_add]
    exact List.getD_eq_getElem l d h2

/-- Any two-point input is a single leaf: both points come back unchanged
(for a nonnegative epsilon). -/
theorem simplify_two (p q : Pt) (d : ℚ) (hd : 0 ≤ d) :
    simplify [p, q] d = some [p, q] := by
  show (if sqrt_gt (maxScan p q (scanList [p, q] 0 2) (0, 0)).1 d = true
    then _ else _) = some [p, q]
  have hscan : scanList [p, q] 0 2 = [] := rfl
  rw [hscan]
  rw [show maxScan p q ([] : List (ℕ × Pt)) (0, 0) = ((0 : ℚ), (0 : ℕ))
    from rfl]
  rw [if_neg (by
    simp only [sqrt_gt_zero hd]
    exact Bool.false_ne_true)]
  rfl

/-- A one-point input returns the point twice (for a nonnegative
epsilon). -/
theorem simplify_one (p : Pt) (d : ℚ) (hd : 0 ≤ d) :
    simplify [p] d = some [p, p] := by
  show (if sqrt_gt (maxScan p p (scanList [p] 0 1) (0, 0)).1 d = true
    then _ else _) = some [p, p]
  have hscan : scanList [p] 0 1 = [] := rfl
  rw [hscan]
  rw [show maxScan p p ([] : List (ℕ × Pt)) (0, 0) = ((0 : ℚ), (0 : ℕ))
    from rfl]
  rw [if_neg (by
    simp only [sqrt_gt_zero hd]
    exact Bool.false_ne_true)]
  rfl

theorem simplify_eq_dpIdx (points : List Pt) (d : ℚ) :
    simplify points d =
      (dpIdx (points.length + 1) points 0 points.length d).map
        (fun I => I.map (fun i => points.getD i ⟨0, 0⟩)) := by
  rw [show simplify points d =
    simplify_points (points.length + 1) points 0 points.length d [] from
      rfl]
  rw [simplify_points_eq_dpIdx]
  cases dpIdx (points.length + 1) points 0 points.length d with
  | none => rfl
  | some I => simp

theorem simplify_rerun_of_two_le (points : List Pt) (d : ℚ) (hd : 0 ≤ d)
    (hlen : 2 ≤ points.length) (res : List Pt)
    (h : simplify points d = some res) : simplify res d = some res := by
  rw [simplify_eq_dpIdx points d] at h
  cases hdp : dpIdx (points.length + 1) points 0 points.length d with
  | none =>
      rw [hdp] at h
      exact Option.noConfusion h
  | some I =>
      rw [hdp] at h
      simp only [Option.map_some', Option.some.injEq] at h
      have hyslen : res.length = I.length := by
        rw [← h]
        exact List.length_map _ _
      have hwin : ∀ k, k < I.length →
          res.getD (0 + k) ⟨0, 0⟩ = points.getD (I.getD k 0) ⟨0, 0⟩ := by
        intro k hk
        rw [Nat.zero_add]
        rw [List.getD_eq_getElem res ⟨0, 0⟩ (by omega)]
        rw [List.getElem_of_eq h.symm]
        rw [List.getElem_map]
        rw [List.getD_eq_getElem I 0 hk]
      have hK := dpIdx_rerun (points.length + 1) points 0 points.length d I
        res 0 (res.length + 1) hd (by omega) (le_refl _) hdp (by omega)
        hwin (by omega)
      rw [Nat.zero_add] at hK
      rw [simplify_eq_dpIdx res d]
      rw [show dpIdx (res.length + 1) res 0 res.length d =
        dpIdx (res.length + 1) res 0 I.length d from by rw [hyslen]]
      rw [hK]
      simp only [Option.map_some', Option.some.injEq]
      rw [← hyslen]
      have := map_getD_range' res ⟨0, 0⟩
      rw [hyslen] at this
      rw [← hyslen] at this
      exact map_getD_range' res ⟨0, 0⟩

/-- Claim C6 (corrected): as stated — "for every distance d" — the claim is
false: with a negative epsilon the source recursion never terminates (the
embedding's fuel, which dominates every terminating run, runs out), so no
output exists at all, let alone one preserving the endpoints. A singleton
input with epsilon `-1` already diverges. -/
theorem C6_counterexample : simplify [(⟨0, 0⟩ : Pt)] (-1) = none := rfl

/-- Claim C6 (amended): for every non-empty point list and every
*nonnegative* distance, `simplify` terminates with a non-empty output whose
first element is `points[0]` and whose last element is
`points[len - 1]`. -/
theorem C6_endpoint_preservation (points : List Pt) (d : ℚ)
    (hne : points ≠ []) (hd : 0 ≤ d) :
    ∃ res, simplify points d = some res ∧ res ≠ [] ∧
      res.head? = some (points.getD 0 ⟨0, 0⟩) ∧
      res.getLast? = some (points.getD (points.length - 1) ⟨0, 0⟩) := by
  cases points with
  | nil => exact absurd rfl hne
  | cons p rest =>
  cases rest with
  | nil =>
      exact ⟨[p, p], simplify_one p d hd, by simp, by simp, by simp⟩
  | cons q rest2 =>
      have hlen : 2 ≤ (p :: q :: rest2).length := by simp
      have hsome := dpIdx_isSome ((p :: q :: rest2).length + 1)
        (p :: q :: rest2) 0 (p :: q :: rest2).length d hd (by omega)
        (le_refl _) (by omega)
      obtain ⟨I, hI⟩ := Option.isSome_iff_exists.1 hsome
      obtain ⟨hlI, hhI, hgI, _⟩ := dpIdx_facts _ _ _ _ _ _ hd (by omega)
        (le_refl _) hI
      refine ⟨I.map (fun i => (p :: q :: rest2).getD i ⟨0, 0⟩), ?_, ?_, ?_,
        ?_⟩
      · rw [simplify_eq_dpIdx, hI]
        rfl
      · intro hemp
        rw [List.map_eq_nil_iff] at hemp
        rw [hemp] at hlI
        simp at hlI
      · rw [List.head?_map, hhI]
        rfl
      · rw [List.getLast?_map, hgI]
        rfl

/-- Witness for the amended C6: the two-point list `[(0,0), (1,0)]` with
distance `0`. -/
theorem C6_endpoint_preservation_witness :
    ((([⟨0, 0⟩, ⟨1, 0⟩] : List Pt) ≠ []) ∧ (0 : ℚ) ≤ 0) ∧
    (∃ res, simplify [(⟨0, 0⟩ : Pt), ⟨1, 0⟩] 0 = some res ∧ res ≠ [] ∧
      res.head? =
        some (([(⟨0, 0⟩ : Pt), ⟨1, 0⟩]).getD 0 ⟨0, 0⟩) ∧
      res.getLast? =
        some (([(⟨0, 0⟩ : Pt), ⟨1, 0⟩]).getD
          (([(⟨0, 0⟩ : Pt), ⟨1, 0⟩]).length - 1) ⟨0, 0⟩)) :=
  ⟨⟨by simp, le_refl 0⟩,
    C6_endpoint_preservation [⟨0, 0⟩, ⟨1, 0⟩] 0 (by simp) (le_refl 0)⟩

/-- Claim C7 (confirmed): `simplify` is idempotent for every point list and
every nonnegative epsilon — rerunning it on its own output returns that
output unchanged (and on a diverging/empty run both sides are `none`). -/
theorem C7_simplify_idempotent (points : List Pt) (d : ℚ) (hd : 0 ≤ d) :
    (simplify points d).bind (fun ys => simplify ys d) =
      simplify points d := by
  cases points with
  | nil => rfl
  | cons p rest =>
  cases rest with
  | nil =>
      rw [simplify_one p d hd]
      show simplify [p, p] d = some [p, p]
      exact simplify_two p p d hd
  | cons q rest2 =>
      cases hres : simplify (p :: q :: rest2) d with
      | none => rfl
      | some res =>
          show simplify res d = some res
          exact simplify_rerun_of_two_le (p :: q :: rest2) d hd (by simp)
            res hres

/-- Witness for C7: the three collinear-ish points with distance `0`. -/
theorem C7_simplify_idempotent_witness :
    (0 : ℚ) ≤ 0 ∧
    ((simplify [(⟨0, 0⟩ : Pt), ⟨1, 1⟩, ⟨2, 0⟩] 0).bind
        (fun ys => simplify ys 0) =
      simplify [(⟨0, 0⟩ : Pt), ⟨1, 1⟩, ⟨2, 0⟩] 0) :=
  ⟨le_refl 0,
    C7_simplify_idempotent [⟨0, 0⟩, ⟨1, 1⟩, ⟨2, 0⟩] 0 (le_refl 0)⟩

end PointsOnCurve

namespace Graphics

open Roughfeel.PointsOnCurve (ratAbs ratMax ratMin)

/-- Claim C4 (corrected), counterexample: with `hachure_gap` unset (`None`)
and `stroke_width = 1`, the claim says the sweep gap defaults to
`4 × stroke_width = 4`, but the code unwraps the unset option to `0.0`
(which is not negative) and merely floors it, yielding `0.1`. -/
theorem C4_counterexample :
    hachureGapValue { DrawOptions.default with hachure_gap := none } = 1/10 ∧
    ((1:ℚ)/10) ≠ 4 * 1 := by
  constructor
  · norm_num [hachureGapValue, DrawOptions.default, Roughfeel.PointsOnCurve.ratMax]
  · norm_num

/-- Claim C4 (amended): in `polygon_hachure_lines` the sweep step gap equals
`max(hachure_gap, 0.1)` when that option is set to a non-negative value;
equals `max(4 × stroke_width, 0.1)` when the option is set to a negative
value (the `-1` sentinel used by the builder default); and equals `0.1` when
the option is unset (the code unwraps `None` to `0.0` and floors at `0.1`).
-/
theorem C4_hachure_gap (o : DrawOptions) :
    (∀ g : ℚ, o.hachure_gap = some g → 0 ≤ g →
      hachureGapValue o = Roughfeel.PointsOnCurve.ratMax g (1/10)) ∧
    (∀ g : ℚ, o.hachure_gap = some g → g < 0 →
      hachureGapValue o =
        Roughfeel.PointsOnCurve.ratMax ((o.stroke_width.getD 0) * 4) (1/10)) ∧
    (o.hachure_gap = none → hachureGapValue o = 1/10) := by
  refine ⟨?_, ?_, ?_⟩
  · intro g hg hge
    simp [hachureGapValue, hg, not_lt.mpr hge]
  · intro g hg hlt
    simp [hachureGapValue, hg, hlt]
  · intro hnone
    simp [hachureGapValue, hnone, Roughfeel.PointsOnCurve.ratMax]

/-- Witness for C4 at the builder defaults (`hachure_gap = -1`,
`stroke_width = 1`): the sweep gap is `max(4·1, 0.1)`. -/
theorem C4_hachure_gap_witness :
    hachureGapValue DrawOptions.default =
      Roughfeel.PointsOnCurve.ratMax
        ((DrawOptions.default.stroke_width.getD 0) * 4) (1/10) :=
  (C4_hachure_gap DrawOptions.default).2.1 (-1) rfl (by norm_num)

/-- Claim C5 (confirmed): on the unit square with gap `0.1` the
(unrotated) hachure-line computation emits exactly 10 horizontal lines at
`y = 0.0, 0.1, …, 0.9`, each spanning `x = 0` to `x = 1` (the mutated
polygon list comes back with the ring closed). This is the angle-zero
scan sweep: `polygon_hachure_lines` calls `straight_hachure_lines` exactly
like this once its rotation step is skipped. -/
theorem C5_unit_square_hachure :
    straight_hachure_lines [[⟨0,0⟩,⟨1,0⟩,⟨1,1⟩,⟨0,1⟩]] (1/10) =
    some ([⟨⟨0,0⟩,⟨1,0⟩⟩, ⟨⟨0,1/10⟩,⟨1,1/10⟩⟩, ⟨⟨0,2/10⟩,⟨1,2/10⟩⟩,
           ⟨⟨0,3/10⟩,⟨1,3/10⟩⟩, ⟨⟨0,4/10⟩,⟨1,4/10⟩⟩, ⟨⟨0,5/10⟩,⟨1,5/10⟩⟩,
           ⟨⟨0,6/10⟩,⟨1,6/10⟩⟩, ⟨⟨0,7/10⟩,⟨1,7/10⟩⟩, ⟨⟨0,8/10⟩,⟨1,8/10⟩⟩,
           ⟨⟨0,9/10⟩,⟨1,9/10⟩⟩],
          [[⟨0,0⟩,⟨1,0⟩,⟨1,1⟩,⟨0,1⟩,⟨0,0⟩]]) := by
  norm_num [straight_hachure_lines, sweep, sweepFuel, polygonEdges, sortLe,
    insertLe, edgeLe, activeLe, pairUp, Roughfeel.PointsOnCurve.ratMax,
    Roughfeel.PointsOnCurve.ratMin, Roughfeel.PointsOnCurve.ratAbs,
    List.cons_ne_nil]

/-- Claim C3 (confirmed): for every geometric input (any core draw call) and
every pair of `DrawOptions` values that are identical snapshots with the
same seed and an unmaterialised random generator, running the same draw call
on each produces identical results — in particular identical `Op`
sequences. The embedding is a function of the options snapshot alone: the
random stream is determined by the seed. -/
theorem C3_two_run_determinism (em : ExtMath) (c : DrawCall)
    (o1 o2 : DrawOptions) (s : ℕ) (heq : o1 = o2)
    (hrng : o1.randomizer = none) (hseed : o1.seed = some s) :
    runDraw em c o1 = runDraw em c o2 := by
  subst heq
  rfl

/-- Witness for C3: the default options (seed 345, generator not yet
materialised) drawing `line(0,0,1,0)` twice. -/
theorem C3_two_run_determinism_witness :
    runDraw ExtMath.triv (DrawCall.lineD 0 0 1 0) DrawOptions.default =
      runDraw ExtMath.triv (DrawCall.lineD 0 0 1 0) DrawOptions.default :=
  C3_two_run_determinism ExtMath.triv (DrawCall.lineD 0 0 1 0)
    DrawOptions.default DrawOptions.default 345 rfl rfl rfl

/-- Claim C10 (confirmed): `linear_path` with fewer than 2 points returns a
stroke-path op set with an empty ops list, without panicking and without
consuming any randomness (the options value comes back untouched, generator
included); with exactly 2 points it is the `line` primitive on those
endpoints. -/
theorem C10_linear_path_small (em : ExtMath) :
    (∀ (points : List Pt) (close : Bool) (o : DrawOptions),
      points.length < 2 →
        linear_path em points close o = (⟨OpSetType.Path, [], none, none⟩, o)) ∧
    (∀ (p q : Pt) (close : Bool) (o : DrawOptions),
      linear_path em [p, q] close o = line em p.x p.y q.x q.y o) := by
  constructor
  · intro points close o h
    unfold linear_path
    have h1 : ¬ 2 < points.length := by omega
    have h2 : points.length ≠ 2 := by omega
    simp [h1, h2]
  · intro p q close o
    unfold linear_path
    norm_num

/-- Witness for C10: the empty point list under the trivial external
math. -/
theorem C10_linear_path_small_witness :
    linear_path ExtMath.triv [] false DrawOptions.default =
      (⟨OpSetType.Path, [], none, none⟩, DrawOptions.default) :=
  (C10_linear_path_small ExtMath.triv).1 [] false DrawOptions.default
    (by decide)

@[simp]
theorem stripRng_randomizer_update (o : DrawOptions) (r : Option Randomizer) :
    stripRng { o with randomizer := r } = stripRng o := rfl

@[simp]
theorem stripRng_random (o : DrawOptions) :
    stripRng (o.random).2 = stripRng o := by
  unfold DrawOptions.random
  cases hr : o.randomizer with
  | some r => simp only [hr, stripRng_randomizer_update]
  | none =>
      cases hs : o.seed with
      | some s =>
          simp only [hr, hs]
          rw [← hs]
          simp only [stripRng_randomizer_update]
      | none =>
          simp only [hr, hs]
          rw [← hs]
          simp only [stripRng_randomizer_update]

@[simp]
theorem stripRng_offsetRand (mn mx : ℚ) (o : DrawOptions) (rg : Option ℚ) :
    stripRng (offsetRand mn mx o rg).2 = stripRng o := by
  simp [offsetRand]

@[simp]
theorem stripRng_offsetOpt (x : ℚ) (o : DrawOptions) (rg : Option ℚ) :
    stripRng (offsetOpt x o rg).2 = stripRng o := by
  simp [offsetOpt]

@[simp]
theorem stripRng_lineOps (em : ExtMath) (x1 y1 x2 y2 : ℚ) (o : DrawOptions)
    (mover overlay : Bool) :
    stripRng (lineOps em x1 y1 x2 y2 o mover overlay).2 = stripRng o := by
  simp only [lineOps]
  simp [apply_ite Prod.snd, apply_ite stripRng]

@[simp]
theorem stripRng_double_line (em : ExtMath) (x1 y1 x2 y2 : ℚ)
    (o : DrawOptions) (filling : Bool) :
    stripRng (double_line em x1 y1 x2 y2 o filling).2 = stripRng o := by
  simp only [double_line]
  simp [apply_ite Prod.snd, apply_ite stripRng]

@[simp]
theorem stripRng_line (em : ExtMath) (x1 y1 x2 y2 : ℚ) (o : DrawOptions) :
    stripRng (line em x1 y1 x2 y2 o).2 = stripRng o := by
  simp [line]

/-- A fold whose step only mutates the generator keeps every style field. -/
theorem stripRng_foldl {α β : Type} (f : (β × DrawOptions) → α → (β × DrawOptions))
    (hf : ∀ st a, stripRng (f st a).2 = stripRng st.2) :
    ∀ (l : List α) (st : β × DrawOptions),
      stripRng (l.foldl f st).2 = stripRng st.2 := by
  intro l
  induction l with
  | nil => intro st; rfl
  | cons a l ih =>
      intro st
      simp only [List.foldl_cons]
      rw [ih (f st a), hf st a]

@[simp]
theorem stripRng_linear_path (em : ExtMath) (points : List Pt) (close : Bool)
    (o : DrawOptions) :
    stripRng (linear_path em points close o).2 = stripRng o := by
  simp only [linear_path]
  split_ifs with h1 h2 h3
  · simp
    rw [stripRng_foldl]
    intro st a
    simp
  · rw [stripRng_foldl]
    · intro st a
      simp
  · simp
  · simp

@[simp]
theorem stripRng_polygonShape (em : ExtMath) (points : List Pt)
    (o : DrawOptions) :
    stripRng (polygonShape em points o).2 = stripRng o := by
  simp [polygonShape]

@[simp]
theorem stripRng_rectangle (em : ExtMath) (x y w h : ℚ) (o : DrawOptions) :
    stripRng (rectangle em x y w h o).2 = stripRng o := by
  simp [rectangle]

@[simp]
theorem stripRng_curveOps (em : ExtMath) (points : List Pt)
    (close_point : Option Pt) (o : DrawOptions) :
    stripRng (curveOps em points close_point o).2 = stripRng o := by
  simp only [curveOps]
  cases close_point <;> split_ifs <;> simp

theorem stripRng_curve_with_offset (em : ExtMath) (points : List Pt)
    (offset : ℚ) (o : DrawOptions) (r : List Op × DrawOptions)
    (h : curve_with_offset em points offset o = some r) :
    stripRng r.2 = stripRng o := by
  match points, h with
  | p0 :: rest, h =>
    simp only [curve_with_offset, Option.some.injEq] at h
    rw [← h, stripRng_curveOps, stripRng_foldl]
    · simp
    · intro st a
      simp [apply_ite Prod.snd, apply_ite stripRng]

theorem stripRng_clone_options_alter_seed (o : DrawOptions) :
    stripRng (clone_options_alter_seed o) =
      { stripRng o with seed := (clone_options_alter_seed o).seed } := by
  unfold clone_options_alter_seed
  cases o.seed <;> rfl

theorem stripRng_curveShape (em : ExtMath) (points : List Pt)
    (o : DrawOptions) (r : OpSet × DrawOptions)
    (h : curveShape em points o = some r) :
    stripRng r.2 = stripRng o := by
  simp only [curveShape] at h
  cases h1 : curve_with_offset em points (1 * (1 + o.roughness.getD 0 * (2/10))) o with
  | none =>
      simp only [h1] at h
      exact Option.noConfusion h
  | some v1 =>
      simp only [h1] at h
      split_ifs at h with hms
      · simp only [Option.some.injEq] at h
        rw [← h]
        exact stripRng_curve_with_offset em points _ o v1 h1
      · cases h2 : curve_with_offset em points
            ((3/2) * (1 + o.roughness.getD 0 * (22/100)))
            (clone_options_alter_seed v1.2) with
        | none =>
            simp only [h2] at h
            exact Option.noConfusion h
        | some v2 =>
            simp only [h2, Option.some.injEq] at h
            rw [← h]
            exact stripRng_curve_with_offset em points _ o v1 h1

@[simp]
theorem stripRng_bezier_to (em : ExtMath) (x1 y1 x2 y2 x y : ℚ) (current : Pt)
    (o : DrawOptions) :
    stripRng (bezier_to em x1 y1 x2 y2 x y current o).2 = stripRng o := by
  simp only [bezier_to]
  rw [stripRng_foldl]
  intro st a
  simp [apply_ite Prod.snd, apply_ite stripRng]

@[simp]
theorem stripRng_bezierQuadratic (em : ExtMath) (start cp fin : Pt)
    (o : DrawOptions) :
    stripRng (bezierQuadratic em start cp fin o).2 = stripRng o := by
  simp [bezierQuadratic, bezier_quadratic_to]

@[simp]
theorem stripRng_bezierCubic (em : ExtMath) (start cp1 cp2 fin : Pt)
    (o : DrawOptions) :
    stripRng (bezierCubic em start cp1 cp2 fin o).2 = stripRng o := by
  simp [bezierCubic]

@[simp]
theorem stripRng_solid_fill_polygon (polys : List (List Pt))
    (o : DrawOptions) :
    stripRng (solid_fill_polygon polys o).2 = stripRng o := by
  simp only [solid_fill_polygon]
  rw [stripRng_foldl]
  intro st a
  split_ifs
  · rw [stripRng_foldl]
    intro st2 b
    simp
  · rfl

@[simp]
theorem stripRng_generate_ellipse_params (em : ExtMath) (w h : ℚ)
    (o : DrawOptions) :
    stripRng (generate_ellipse_params em w h o).2 = stripRng o := by
  simp [generate_ellipse_params]

theorem stripRng_ellipseRoughLoop (em : ExtMath) (fuel : ℕ) :
    ∀ (angle lim inc cx cy rx ry offset : ℚ) (o : DrawOptions)
      (core all : List Pt) (r : (List Pt × List Pt) × DrawOptions),
      ellipseRoughLoop em fuel angle lim inc cx cy rx ry offset o core all =
        some r →
      stripRng r.2 = stripRng o := by
  induction fuel with
  | zero =>
      intro angle lim inc cx cy rx ry offset o core all r h
      rw [ellipseRoughLoop] at h
      by_cases hc : ¬ (angle < lim)
      · rw [if_pos hc] at h
        cases h
        rfl
      · rw [if_neg hc] at h
        exact Option.noConfusion h
  | succ fuel ih =>
      intro angle lim inc cx cy rx ry offset o core all r h
      rw [ellipseRoughLoop] at h
      by_cases hc : ¬ (angle < lim)
      · rw [if_pos hc] at h
        cases h
        rfl
      · rw [if_neg hc] at h
        have hrec := ih _ _ _ _ _ _ _ _ _ _ _ _ h
        rw [hrec]
        simp

theorem stripRng_compute_ellipse_points (em : ExtMath)
    (increment cx cy rx ry offset overlap : ℚ) (o : DrawOptions)
    (r : (List Pt × List Pt) × DrawOptions)
    (h : compute_ellipse_points em increment cx cy rx ry offset overlap o =
      some r) :
    stripRng r.2 = stripRng o := by
  simp only [compute_ellipse_points] at h
  split_ifs at h with hco
  · cases hl : ellipseCoreLoop em (loopFuel 0 (pi32 * 2) (increment / 4)) 0
        (pi32 * 2) (increment / 4) cx cy rx ry []
        [⟨cx + rx * em.cos (-(increment / 4)), cy + ry * em.sin (-(increment / 4))⟩] with
    | none =>
        simp only [hl] at h
        exact Option.noConfusion h
    | some v =>
        simp only [hl] at h
        simp only [Option.some.injEq] at h
        rw [← h]
  · generalize hro : offsetOpt (1/2) o none = ro at h
    generalize ha1 : offsetOpt offset ro.2 none = a1 at h
    generalize ha2 : offsetOpt offset a1.2 none = a2 at h
    cases hl : ellipseRoughLoop em
        (loopFuel (ro.1 - pi32 / 2) (pi32 * 2 + (ro.1 - pi32 / 2) - 1/100) increment)
        (ro.1 - pi32 / 2) (pi32 * 2 + (ro.1 - pi32 / 2) - 1/100) increment cx cy
        rx ry offset a2.2 []
        [⟨a1.1 + cx + (9/10) * rx * em.cos (ro.1 - pi32 / 2 - increment),
          a2.1 + cy + (9/10) * ry * em.sin (ro.1 - pi32 / 2 - increment)⟩] with
    | none =>
        simp only [hl] at h
        exact Option.noConfusion h
    | some v =>
        simp only [hl] at h
        obtain ⟨⟨core, all⟩, o1⟩ := v
        simp only [Option.some.injEq] at h
        rw [← h]
        have h1 := stripRng_ellipseRoughLoop em _ _ _ _ _ _ _ _ _ _ _ _ _ hl
        simp only []
        rw [stripRng_offsetOpt, stripRng_offsetOpt, stripRng_offsetOpt,
          stripRng_offsetOpt, stripRng_offsetOpt, stripRng_offsetOpt]
        rw [h1, ← ha2, stripRng_offsetOpt, ← ha1, stripRng_offsetOpt, ← hro,
          stripRng_offsetOpt]

theorem stripRng_ellipse_with_params (em : ExtMath) (x y : ℚ)
    (o : DrawOptions) (params : EllipseParams)
    (r : (OpSet × List Pt) × DrawOptions)
    (h : ellipse_with_params em x y o params = some r) :
    stripRng r.2 = stripRng o := by
  simp only [ellipse_with_params] at h
  generalize hi1 : offsetRand (4/10) 1 o none = i1 at h
  generalize hi2 : offsetRand (1/10) i1.1 i1.2 none = i2 at h
  cases hc : compute_ellipse_points em params.increment x y params.rx
      params.ry 1 (params.increment * i2.1) i2.2 with
  | none => simp only [hc] at h; exact Option.noConfusion h
  | some v =>
      simp only [hc] at h
      obtain ⟨⟨all1, core1⟩, o1⟩ := v
      have hv : stripRng o1 = stripRng o := by
        have := stripRng_compute_ellipse_points em _ _ _ _ _ _ _ _ _ hc
        simp only [] at this
        rw [this, ← hi2, stripRng_offsetRand, ← hi1, stripRng_offsetRand]
      split_ifs at h with hms
      · cases hc2 : compute_ellipse_points em params.increment x y params.rx
            params.ry (3/2) 0 (curveOps em all1 none o1).2 with
        | none => simp only [hc2] at h; exact Option.noConfusion h
        | some v2 =>
            simp only [hc2] at h
            obtain ⟨⟨all2, core2⟩, o2⟩ := v2
            simp only [Option.some.injEq] at h
            rw [← h]
            have h2 := stripRng_compute_ellipse_points em _ _ _ _ _ _ _ _ _ hc2
            simp only [] at h2 ⊢
            rw [stripRng_curveOps, h2, stripRng_curveOps, hv]
      · simp only [Option.some.injEq] at h
        rw [← h]
        simp only []
        rw [stripRng_curveOps, hv]

theorem stripRng_ellipse (em : ExtMath) (x y w ht : ℚ) (o : DrawOptions)
    (r : OpSet × DrawOptions) (h : ellipse em x y w ht o = some r) :
    stripRng r.2 = stripRng o := by
  simp only [ellipse] at h
  cases he : ellipse_with_params em x y (generate_ellipse_params em w ht o).2
      (generate_ellipse_params em w ht o).1 with
  | none => simp only [he] at h; exact Option.noConfusion h
  | some v =>
      simp only [he] at h
      obtain ⟨⟨opset, est⟩, o1⟩ := v
      simp only [Option.some.injEq] at h
      rw [← h]
      have := stripRng_ellipse_with_params em x y _ _ _ he
      simp only [] at this ⊢
      rw [this, stripRng_generate_ellipse_params]

theorem stripRng_arcPointsLoop (em : ExtMath) (fuel : ℕ) :
    ∀ (angle stp inc cx cy rx ry offset : ℚ) (o : DrawOptions)
      (points : List Pt) (r : List Pt × DrawOptions),
      arcPointsLoop em fuel angle stp inc cx cy rx ry offset o points =
        some r →
      stripRng r.2 = stripRng o := by
  induction fuel with
  | zero =>
      intro angle stp inc cx cy rx ry offset o points r h
      rw [arcPointsLoop] at h
      by_cases hc : ¬ (angle ≤ stp)
      · rw [if_pos hc] at h
        cases h
        rfl
      · rw [if_neg hc] at h
        exact Option.noConfusion h
  | succ fuel ih =>
      intro angle stp inc cx cy rx ry offset o points r h
      rw [arcPointsLoop] at h
      by_cases hc : ¬ (angle ≤ stp)
      · rw [if_pos hc] at h
        cases h
        rfl
      · rw [if_neg hc] at h
        have hrec := ih _ _ _ _ _ _ _ _ _ _ _ h
        rw [hrec]
        simp

theorem stripRng_arcOps (em : ExtMath) (increment cx cy rx ry strt stp
    offset : ℚ) (o : DrawOptions) (r : List Op × DrawOptions)
    (h : arcOps em increment cx cy rx ry strt stp offset o = some r) :
    stripRng r.2 = stripRng o := by
  simp only [arcOps] at h
  generalize hj : offsetOpt (1/10) o none = j at h
  generalize hb1 : offsetOpt offset j.2 none = b1 at h
  generalize hb2 : offsetOpt offset b1.2 none = b2 at h
  cases hl : arcPointsLoop em (loopFuel (strt + j.1) stp increment)
      (strt + j.1) stp increment cx cy rx ry offset b2.2
      [⟨b1.1 + cx + (9/10) * rx * em.cos (strt + j.1 - increment),
        b2.1 + cy + (9/10) * ry * em.sin (strt + j.1 - increment)⟩] with
  | none => simp only [hl] at h; exact Option.noConfusion h
  | some v =>
      simp only [hl] at h
      simp only [Option.some.injEq] at h
      rw [← h]
      have := stripRng_arcPointsLoop em _ _ _ _ _ _ _ _ _ _ _ _ hl
      simp only [] at this ⊢
      rw [stripRng_curveOps, this, ← hb2, stripRng_offsetOpt, ← hb1,
        stripRng_offsetOpt, ← hj, stripRng_offsetOpt]

theorem stripRng_arcShape (em : ExtMath) (x y w ht start stop : ℚ)
    (closed rough : Bool) (o : DrawOptions) (r : OpSet × DrawOptions)
    (h : arcShape em x y w ht start stop closed rough o = some r) :
    stripRng r.2 = stripRng o := by
  simp only [arcShape] at h
  generalize hj1 : offsetOpt (Roughfeel.PointsOnCurve.ratAbs (w / 2) * (1/100)) o none = j1 at h
  generalize hj2 : offsetOpt (Roughfeel.PointsOnCurve.ratAbs (ht / 2) * (1/100)) j1.2 none = j2 at h
  cases hn : arcStartLoop (loopFuel start 0 (pi32 * 2)) start stop with
  | none =>
      simp only [hn] at h
      exact Option.noConfusion h
  | some norm =>
      simp only [hn] at h
      obtain ⟨strt1, stp1⟩ := norm
      cases ha1 : arcOps em
          (Roughfeel.PointsOnCurve.ratMin
            (pi32 * 2 / (o.curve_step_count.getD 1) / 2)
            (((if stp1 - strt1 > pi32 * 2 then pi32 * 2 else stp1) -
              (if stp1 - strt1 > pi32 * 2 then 0 else strt1)) / 2))
          x y (Roughfeel.PointsOnCurve.ratAbs (w / 2) + j1.1)
          (Roughfeel.PointsOnCurve.ratAbs (ht / 2) + j2.1)
          (if stp1 - strt1 > pi32 * 2 then 0 else strt1)
          (if stp1 - strt1 > pi32 * 2 then pi32 * 2 else stp1) 1 j2.2 with
      | none =>
          simp only [ha1] at h
          exact Option.noConfusion h
      | some a1 =>
          simp only [ha1] at h
          have ha1s : stripRng a1.2 = stripRng o := by
            have := stripRng_arcOps em _ _ _ _ _ _ _ _ _ _ ha1
            rw [this, ← hj2, stripRng_offsetOpt, ← hj1, stripRng_offsetOpt]
          by_cases hms : ¬ (o.disable_multi_stroke.getD false = true)
          · simp only [if_pos hms] at h
            cases ha2 : arcOps em
                (Roughfeel.PointsOnCurve.ratMin
                  (pi32 * 2 / (o.curve_step_count.getD 1) / 2)
                  (((if stp1 - strt1 > pi32 * 2 then pi32 * 2 else stp1) -
                    (if stp1 - strt1 > pi32 * 2 then 0 else strt1)) / 2))
                x y (Roughfeel.PointsOnCurve.ratAbs (w / 2) + j1.1)
                (Roughfeel.PointsOnCurve.ratAbs (ht / 2) + j2.1)
                (if stp1 - strt1 > pi32 * 2 then 0 else strt1)
                (if stp1 - strt1 > pi32 * 2 then pi32 * 2 else stp1) (3/2)
                a1.2 with
            | none =>
                simp only [ha2] at h
                exact Option.noConfusion h
            | some a2 =>
                simp only [ha2, Option.some.injEq] at h
                have ha2s : stripRng a2.2 = stripRng a1.2 :=
                  stripRng_arcOps em _ _ _ _ _ _ _ _ _ _ ha2
                rw [← h]
                split_ifs <;> simp [ha2s, ha1s]
          · simp only [if_neg hms, Option.some.injEq] at h
            rw [← h]
            split_ifs <;> simp [ha1s]

@[simp]
theorem stripRng_set_hachure_angle (o : DrawOptions) (a : Option ℚ) :
    stripRng (o.set_hachure_angle a) = (stripRng o).set_hachure_angle a := rfl

@[simp]
theorem stripRng_set_hachure_gap (o : DrawOptions) (g : Option ℚ) :
    stripRng (o.set_hachure_gap g) = (stripRng o).set_hachure_gap g := rfl

theorem hachure_angle_stripRng (o : DrawOptions) :
    (stripRng o).hachure_angle = o.hachure_angle := rfl

@[simp]
theorem stripRng_render_lines (em : ExtMath) (lines : List GLine)
    (o : DrawOptions) :
    stripRng (render_lines em lines o).2 = stripRng o := by
  simp only [render_lines]
  rw [stripRng_foldl]
  intro st a
  simp

theorem stripRng_scanlineFill (em : ExtMath) (polys : List (List Pt))
    (o : DrawOptions) (r : (OpSet × List (List Pt)) × DrawOptions)
    (h : scanlineFill em polys o = some r) :
    stripRng r.2 = stripRng o := by
  simp only [scanlineFill] at h
  cases hl : polygon_hachure_lines em polys o with
  | none => simp only [hl] at h; exact Option.noConfusion h
  | some v =>
      obtain ⟨lines, polys1⟩ := v
      simp only [hl, Option.some.injEq] at h
      rw [← h]
      simp

/-- A fold over an optional state propagates `none` forever. -/
theorem foldl_none_of_none {α β : Type} (f : Option β → α → Option β)
    (hnone : ∀ a, f none a = none) :
    ∀ l : List α, l.foldl f none = none := by
  intro l
  induction l with
  | nil => rfl
  | cons a l ih => simp only [List.foldl_cons, hnone, ih]

/-- An option-valued fold whose successful steps only mutate the generator
keeps every style field. -/
theorem stripRng_foldl_opt {α β : Type}
    (f : Option (β × DrawOptions) → α → Option (β × DrawOptions))
    (hnone : ∀ a, f none a = none)
    (hf : ∀ st a out, f (some st) a = some out →
      stripRng out.2 = stripRng st.2) :
    ∀ (l : List α) (st : β × DrawOptions) (out : β × DrawOptions),
      l.foldl f (some st) = some out → stripRng out.2 = stripRng st.2 := by
  intro l
  induction l with
  | nil =>
      intro st out h
      simp only [List.foldl_nil, Option.some.injEq] at h
      rw [← h]
  | cons a l ih =>
      intro st out h
      simp only [List.foldl_cons] at h
      cases hf1 : f (some st) a with
      | none =>
          rw [hf1, foldl_none_of_none f hnone l] at h
          exact Option.noConfusion h
      | some st2 =>
          rw [hf1] at h
          rw [ih st2 out h, hf st a st2 hf1]

theorem stripRng_dotSingle (em : ExtMath) (x ro gap min_y offset fweight : ℚ)
    (i : ℕ) (st : List Op × DrawOptions) (out : List Op × DrawOptions)
    (h : dotSingle em x ro gap min_y offset fweight i st = some out) :
    stripRng out.2 = stripRng st.2 := by
  simp only [dotSingle] at h
  split at h
  · exact Option.noConfusion h
  · rename_i eops o2 heq
    simp only [Option.some.injEq] at h
    rw [← h]
    have := stripRng_ellipse em _ _ _ _ _ _ heq
    simp only [] at this ⊢
    rw [this]
    simp

theorem stripRng_dots_on_line (em : ExtMath) (lines : List GLine)
    (o : DrawOptions) (r : List Op × DrawOptions)
    (h : dots_on_line em lines o = some r) :
    stripRng r.2 = stripRng o := by
  simp only [dots_on_line] at h
  refine stripRng_foldl_opt _ ?_ ?_ lines ([], o) r h
  · intro a
    rfl
  intro st a out hstep
  simp only [] at hstep
  split_ifs at hstep <;>
    first
      | (simp only [Option.some.injEq] at hstep
         rw [← hstep])
      | (exact stripRng_foldl_opt _ (fun i => rfl)
          (fun st2 i out2 h2 =>
            stripRng_dotSingle em _ _ _ _ _ _ i st2 out2 h2) _ st out hstep)

theorem stripRng_dotFill (em : ExtMath) (polys : List (List Pt))
    (o : DrawOptions) (r : (OpSet × List (List Pt)) × DrawOptions)
    (h : dotFill em polys o = some r) :
    stripRng r.2 = stripRng (o.set_hachure_angle (some 0)) := by
  simp only [dotFill] at h
  cases heq : polygon_hachure_lines em polys (o.set_hachure_angle (some 0)) with
  | none =>
      simp only [heq] at h
      exact Option.noConfusion h
  | some v =>
      obtain ⟨lines, polys1⟩ := v
      simp only [heq] at h
      cases heq2 : dots_on_line em lines (o.set_hachure_angle (some 0)) with
      | none =>
          simp only [heq2] at h
          exact Option.noConfusion h
      | some v2 =>
          obtain ⟨ops, o2⟩ := v2
          simp only [heq2, Option.some.injEq] at h
          rw [← h]
          exact stripRng_dots_on_line em _ _ _ heq2

theorem stripRng_dashed_line (em : ExtMath) (lines : List GLine)
    (o : DrawOptions) :
    stripRng (dashed_line em lines o).2 = stripRng o := by
  simp only [dashed_line]
  rw [stripRng_foldl]
  intro st a
  rw [stripRng_foldl]
  intro st2 b
  simp

theorem stripRng_dashedFill (em : ExtMath) (polys : List (List Pt))
    (o : DrawOptions) (r : (OpSet × List (List Pt)) × DrawOptions)
    (h : dashedFill em polys o = some r) :
    stripRng r.2 = stripRng o := by
  simp only [dashedFill] at h
  cases heq : polygon_hachure_lines em polys o with
  | none =>
      simp only [heq] at h
      exact Option.noConfusion h
  | some v =>
      obtain ⟨lines, polys1⟩ := v
      simp only [heq, Option.some.injEq] at h
      rw [← h]
      simp only []
      rw [stripRng_dashed_line]

theorem stripRng_zigzagFill (em : ExtMath) (polys : List (List Pt))
    (o : DrawOptions) (r : (OpSet × List (List Pt)) × DrawOptions)
    (h : zigzagFill em polys o = some r) :
    stripRng r.2 = stripRng o := by
  simp only [zigzagFill] at h
  cases heq : polygon_hachure_lines em polys
      (o.set_hachure_gap (some (Roughfeel.PointsOnCurve.ratMax
        (if (o.hachure_gap.getD (-1)) < 0 then (o.stroke_width.getD 1) * 4
          else o.hachure_gap.getD (-1)) (1/10)))) with
  | none =>
      simp only [heq] at h
      exact Option.noConfusion h
  | some v =>
      obtain ⟨lines, polys1⟩ := v
      simp only [heq, Option.some.injEq] at h
      rw [← h]
      simp

theorem stripRng_zig_zag_lines (em : ExtMath) (lines : List GLine)
    (zzo : ℚ) (o : DrawOptions) :
    stripRng (zig_zag_lines em lines zzo o).2 = stripRng o := by
  simp only [zig_zag_lines]
  rw [stripRng_foldl]
  intro st a
  rw [stripRng_foldl]
  intro st2 b
  simp

theorem stripRng_zigzagLineFill (em : ExtMath) (polys : List (List Pt))
    (o : DrawOptions) (r : (OpSet × List (List Pt)) × DrawOptions)
    (h : zigzagLineFill em polys o = some r) :
    stripRng r.2 = stripRng (o.set_hachure_gap (some (zigzagLineNewGap o))) := by
  simp only [zigzagLineFill] at h
  cases heq : polygon_hachure_lines em polys
      (o.set_hachure_gap (some (zigzagLineNewGap o))) with
  | none =>
      simp only [zigzagLineNewGap] at heq
      simp only [heq] at h
      exact Option.noConfusion h
  | some v =>
      obtain ⟨lines, polys1⟩ := v
      simp only [zigzagLineNewGap] at heq
      simp only [heq, Option.some.injEq] at h
      rw [← h]
      simp only []
      rw [stripRng_zig_zag_lines]
      rfl

theorem stripRng_hatchFill (em : ExtMath) (polys : List (List Pt))
    (o : DrawOptions) (r : (OpSet × List (List Pt)) × DrawOptions)
    (h : hatchFill em polys o = some r) :
    stripRng r.2 =
      stripRng (o.set_hachure_angle (o.hachure_angle.map (fun a => a + 90))) := by
  simp only [hatchFill] at h
  cases heq : scanlineFill em polys o with
  | none =>
      simp only [heq] at h
      exact Option.noConfusion h
  | some v =>
      obtain ⟨⟨set1, polys1⟩, o1⟩ := v
      simp only [heq] at h
      have h1 : stripRng o1 = stripRng o := stripRng_scanlineFill em _ _ _ heq
      have hang : o1.hachure_angle = o.hachure_angle := by
        have hcg := congrArg DrawOptions.hachure_angle h1
        simpa [stripRng] using hcg
      cases heq2 : scanlineFill em polys1
          (o1.set_hachure_angle (o1.hachure_angle.map (fun a => a + 90))) with
      | none =>
          simp only [heq2] at h
          exact Option.noConfusion h
      | some v2 =>
          obtain ⟨⟨set2, polys2⟩, o3⟩ := v2
          simp only [heq2, Option.some.injEq] at h
          rw [← h]
          simp only []
          have h2 := stripRng_scanlineFill em _ _ _ heq2
          simp only [] at h2
          rw [h2, stripRng_set_hachure_angle, h1, hang]
          rfl

theorem stripRng_svgGo (em : ExtMath) :
    ∀ (segs : List PathSeg) (st : List Op × Pt × Pt × DrawOptions)
      (out : List Op × Pt × Pt × DrawOptions),
      svgGo em segs st = some out →
      stripRng out.2.2.2 = stripRng st.2.2.2 := by
  intro segs
  induction segs with
  | nil =>
      intro st out h
      simp only [svgGo, Option.some.injEq] at h
      rw [← h]
  | cons seg rest ih =>
      intro st out h
      obtain ⟨ops, first, current, o⟩ := st
      cases seg with
      | moveTo x y =>
          simp only [svgGo] at h
          have hrec := ih _ _ h
          simp only [] at hrec ⊢
          rw [hrec]
          split_ifs <;> simp
      | lineTo x y =>
          simp only [svgGo] at h
          have hrec := ih _ _ h
          simp only [] at hrec ⊢
          rw [hrec]
          simp
      | curveTo x1 y1 x2 y2 x y =>
          simp only [svgGo] at h
          have hrec := ih _ _ h
          simp only [] at hrec ⊢
          rw [hrec]
          simp
      | closePath =>
          simp only [svgGo] at h
          have hrec := ih _ _ h
          simp only [] at hrec ⊢
          rw [hrec]
          simp
      | other =>
          simp only [svgGo] at h
          exact Option.noConfusion h

theorem stripRng_svgPath (em : ExtMath) (segs : List PathSeg)
    (o : DrawOptions) (r : OpSet × DrawOptions)
    (h : svgPath em segs o = some r) :
    stripRng r.2 = stripRng o := by
  simp only [svgPath] at h
  cases heq : svgGo em segs ([], ⟨0, 0⟩, ⟨0, 0⟩, o) with
  | none =>
      simp only [heq] at h
      exact Option.noConfusion h
  | some v =>
      obtain ⟨ops, f, c, o1⟩ := v
      simp only [heq, Option.some.injEq] at h
      rw [← h]
      exact stripRng_svgGo em segs _ _ heq

/-- Claim C2 (amended): every core draw/fill operation leaves every field of
the `DrawOptions` value it is given unchanged except the lazily-initialized
random generator — except that three pattern fillers do permanently alter a
style field: `CrossHatch` adds 90° to `hachure_angle`, `Dots` sets
`hachure_angle` to 0, and `ZigZagLine` overwrites `hachure_gap` with the
widened gap; `documentedOptionsEffect` records exactly these. -/
theorem C2_options_effect (em : ExtMath) (c : DrawCall) (o : DrawOptions)
    (os : OpSet) (o2 : DrawOptions) (h : runDraw em c o = some (os, o2)) :
    stripRng o2 = stripRng (documentedOptionsEffect c o) := by
  cases c with
  | lineD x1 y1 x2 y2 =>
      simp only [runDraw, Option.some.injEq] at h
      have h2 := congrArg Prod.snd h
      simp only [] at h2
      simp only [documentedOptionsEffect]
      rw [← h2]
      simp
  | linearPathD points close =>
      simp only [runDraw, Option.some.injEq] at h
      have h2 := congrArg Prod.snd h
      simp only [] at h2
      simp only [documentedOptionsEffect]
      rw [← h2]
      simp
  | polygonD points =>
      simp only [runDraw, Option.some.injEq] at h
      have h2 := congrArg Prod.snd h
      simp only [] at h2
      simp only [documentedOptionsEffect]
      rw [← h2]
      simp
  | rectangleD x y w ht =>
      simp only [runDraw, Option.some.injEq] at h
      have h2 := congrArg Prod.snd h
      simp only [] at h2
      simp only [documentedOptionsEffect]
      rw [← h2]
      simp
  | bezierQuadraticD start cp fin =>
      simp only [runDraw, Option.some.injEq] at h
      have h2 := congrArg Prod.snd h
      simp only [] at h2
      simp only [documentedOptionsEffect]
      rw [← h2]
      simp
  | bezierCubicD start cp1 cp2 fin =>
      simp only [runDraw, Option.some.injEq] at h
      have h2 := congrArg Prod.snd h
      simp only [] at h2
      simp only [documentedOptionsEffect]
      rw [← h2]
      simp
  | solidFillD polys =>
      simp only [runDraw, Option.some.injEq] at h
      have h2 := congrArg Prod.snd h
      simp only [] at h2
      simp only [documentedOptionsEffect]
      rw [← h2]
      simp
  | curveD points =>
      simp only [runDraw] at h
      have := stripRng_curveShape em points o (os, o2) h
      simpa [documentedOptionsEffect] using this
  | ellipseD x y w ht =>
      simp only [runDraw] at h
      have := stripRng_ellipse em x y w ht o (os, o2) h
      simpa [documentedOptionsEffect] using this
  | arcD x y w ht start stop closed rough =>
      simp only [runDraw] at h
      have := stripRng_arcShape em x y w ht start stop closed rough o (os, o2) h
      simpa [documentedOptionsEffect] using this
  | svgPathD segs =>
      simp only [runDraw] at h
      have := stripRng_svgPath em segs o (os, o2) h
      simpa [documentedOptionsEffect] using this
  | patternFillD polys =>
      simp only [runDraw, pattern_fill_polygons] at h
      cases hfs : o.fill_style with
      | none =>
          simp only [hfs] at h
          cases heq : scanlineFill em polys o with
          | none =>
              simp only [heq] at h
              exact Option.noConfusion h
          | some v =>
              obtain ⟨⟨opset, polys1⟩, o1⟩ := v
              simp only [heq, Option.some.injEq, Prod.mk.injEq] at h
              have := stripRng_scanlineFill em polys o _ heq
              simp only [] at this
              simp only [documentedOptionsEffect, hfs, ← h.2, this]
      | some fs =>
          cases fs with
          | Hachure =>
              simp only [hfs] at h
              cases heq : scanlineFill em polys o with
              | none =>
                  simp only [heq] at h
                  exact Option.noConfusion h
              | some v =>
                  obtain ⟨⟨opset, polys1⟩, o1⟩ := v
                  simp only [heq, Option.some.injEq, Prod.mk.injEq] at h
                  have := stripRng_scanlineFill em polys o _ heq
                  simp only [] at this
                  simp only [documentedOptionsEffect, hfs, ← h.2, this]
          | Solid =>
              simp only [hfs] at h
              cases heq : scanlineFill em polys o with
              | none =>
                  simp only [heq] at h
                  exact Option.noConfusion h
              | some v =>
                  obtain ⟨⟨opset, polys1⟩, o1⟩ := v
                  simp only [heq, Option.some.injEq, Prod.mk.injEq] at h
                  have := stripRng_scanlineFill em polys o _ heq
                  simp only [] at this
                  simp only [documentedOptionsEffect, hfs, ← h.2, this]
          | Dashed =>
              simp only [hfs] at h
              cases heq : dashedFill em polys o with
              | none =>
                  simp only [heq] at h
                  exact Option.noConfusion h
              | some v =>
                  obtain ⟨⟨opset, polys1⟩, o1⟩ := v
                  simp only [heq, Option.some.injEq, Prod.mk.injEq] at h
                  have := stripRng_dashedFill em polys o _ heq
                  simp only [] at this
                  simp only [documentedOptionsEffect, hfs, ← h.2, this]
          | ZigZag =>
              simp only [hfs] at h
              cases heq : zigzagFill em polys o with
              | none =>
                  simp only [heq] at h
                  exact Option.noConfusion h
              | some v =>
                  obtain ⟨⟨opset, polys1⟩, o1⟩ := v
                  simp only [heq, Option.some.injEq, Prod.mk.injEq] at h
                  have := stripRng_zigzagFill em polys o _ heq
                  simp only [] at this
                  simp only [documentedOptionsEffect, hfs, ← h.2, this]
          | Dots =>
              simp only [hfs] at h
              cases heq : dotFill em polys o with
              | none =>
                  simp only [heq] at h
                  exact Option.noConfusion h
              | some v =>
                  obtain ⟨⟨opset, polys1⟩, o1⟩ := v
                  simp only [heq, Option.some.injEq, Prod.mk.injEq] at h
                  have := stripRng_dotFill em polys o _ heq
                  simp only [] at this
                  simp only [documentedOptionsEffect, hfs, ← h.2, this]
          | CrossHatch =>
              simp only [hfs] at h
              cases heq : hatchFill em polys o with
              | none =>
                  simp only [heq] at h
                  exact Option.noConfusion h
              | some v =>
                  obtain ⟨⟨opset, polys1⟩, o1⟩ := v
                  simp only [heq, Option.some.injEq, Prod.mk.injEq] at h
                  have := stripRng_hatchFill em polys o _ heq
                  simp only [] at this
                  simp only [documentedOptionsEffect, hfs, ← h.2, this]
          | ZigZagLine =>
              simp only [hfs] at h
              cases heq : zigzagLineFill em polys o with
              | none =>
                  simp only [heq] at h
                  exact Option.noConfusion h
              | some v =>
                  obtain ⟨⟨opset, polys1⟩, o1⟩ := v
                  simp only [heq, Option.some.injEq, Prod.mk.injEq] at h
                  have := stripRng_zigzagLineFill em polys o _ heq
                  simp only [] at this
                  simp only [documentedOptionsEffect, hfs, ← h.2, this]

/-- Claim C2 (corrected), counterexample: the cross-hatch filler permanently
alters `hachure_angle`. With the fill style set to `CrossHatch` and
`hachure_angle = -90`, filling an empty polygon list hands back options with
`hachure_angle = 0` (the filler added 90 in place and never restored it). -/
theorem C2_counterexample :
    (runDraw ExtMath.triv (DrawCall.patternFillD [])
        { DrawOptions.default with
            fill_style := some FillStyle.CrossHatch
            hachure_angle := some (-90) }).map
      (fun r => r.2.hachure_angle) = some (some 0) ∧
    (some (0 : ℚ)) ≠ some (-90 : ℚ) := by
  constructor
  · norm_num [runDraw, pattern_fill_polygons, hatchFill, scanlineFill,
      polygon_hachure_lines, hachureGapValue, straight_hachure_lines,
      render_lines, rotate_lines, sortLe, DrawOptions.default,
      DrawOptions.set_hachure_angle, Roughfeel.PointsOnCurve.ratMax]
  · norm_num

/-- Witness for C2 at a concrete input: the scan-line hachure filler on an
empty polygon list leaves every style field unchanged. -/
theorem C2_options_effect_witness :
    ∃ os o2, runDraw ExtMath.triv (DrawCall.patternFillD [])
        DrawOptions.default = some (os, o2) ∧
      stripRng o2 = stripRng
        (documentedOptionsEffect (DrawCall.patternFillD [])
          DrawOptions.default) := by
  have h : runDraw ExtMath.triv (DrawCall.patternFillD []) DrawOptions.default
      = some (⟨OpSetType.FillSketch, [], none, none⟩, DrawOptions.default) := by
    norm_num [runDraw, pattern_fill_polygons, scanlineFill,
      polygon_hachure_lines, hachureGapValue, straight_hachure_lines,
      render_lines, rotate_lines, sortLe, DrawOptions.default,
      Roughfeel.PointsOnCurve.ratMax]
  exact ⟨_, _, h, C2_options_effect ExtMath.triv (DrawCall.patternFillD [])
    DrawOptions.default _ _ h⟩

theorem wfOps_of_startsMove {ops : List Op} (h : startsMove ops) :
    wfOps ops := by
  cases ops with
  | nil => trivial
  | cons a l => exact h

theorem startsMove_append_left {a b : List Op} (h : startsMove a) :
    startsMove (a ++ b) := by
  cases a with
  | nil => exact absurd h (by simp [startsMove])
  | cons x l => exact h

theorem startsMove_append_any {a b : List Op} (ha : a ≠ []) (h : wfOps a) :
    startsMove (a ++ b) := by
  cases a with
  | nil => exact absurd rfl ha
  | cons x l => exact h

theorem wfOps_append {a b : List Op} (ha : wfOps a) (hb : wfOps b) :
    wfOps (a ++ b) := by
  cases a with
  | nil => simpa using hb
  | cons x l => exact ha

theorem wfOps_append_right {a b : List Op} (ha : wfOps a) (hne : a ≠ []) :
    wfOps (a ++ b) := by
  cases a with
  | nil => exact absurd rfl hne
  | cons x l => exact ha

theorem startsMove_lineOps (em : ExtMath) (x1 y1 x2 y2 : ℚ) (o : DrawOptions)
    (overlay : Bool) :
    startsMove (lineOps em x1 y1 x2 y2 o true overlay).1 := by
  simp only [lineOps]
  split_ifs <;> simp [startsMove]

theorem startsMove_double_line (em : ExtMath) (x1 y1 x2 y2 : ℚ)
    (o : DrawOptions) (filling : Bool) :
    startsMove (double_line em x1 y1 x2 y2 o filling).1 := by
  simp only [double_line]
  split_ifs <;>
    first
      | exact startsMove_lineOps em x1 y1 x2 y2 o false
      | exact startsMove_append_left (startsMove_lineOps em x1 y1 x2 y2 o false)

/-- A fold whose step appends to the ops only ever extends the list. -/
theorem foldl_ops_prefix {α β : Type} (f : (List Op × β) → α → (List Op × β))
    (hf : ∀ st a, ∃ t, (f st a).1 = st.1 ++ t) :
    ∀ (l : List α) (st : List Op × β), ∃ t, (l.foldl f st).1 = st.1 ++ t := by
  intro l
  induction l with
  | nil => intro st; exact ⟨[], by simp⟩
  | cons a l ih =>
      intro st
      obtain ⟨t1, ht1⟩ := hf st a
      obtain ⟨t2, ht2⟩ := ih (f st a)
      exact ⟨t1 ++ t2, by simp [List.foldl_cons, ht2, ht1]⟩

theorem startsMove_foldl_append {α : Type} (g : List Op → α → List Op)
    (hg : ∀ st a, ∃ t, g st a = st ++ t) :
    ∀ (l : List α) (base : List Op), startsMove base →
      startsMove (l.foldl g base) := by
  intro l
  induction l with
  | nil => intro base h; exact h
  | cons a l ih =>
      intro base h
      obtain ⟨t, ht⟩ := hg base a
      simp only [List.foldl_cons]
      exact ih (g base a) (by rw [ht]; exact startsMove_append_left h)

theorem foldl_wfOps {α β : Type} (f : (List Op × β) → α → (List Op × β))
    (hf : ∀ st a, wfOps st.1 → wfOps (f st a).1) :
    ∀ (l : List α) (st : List Op × β), wfOps st.1 → wfOps (l.foldl f st).1 := by
  intro l
  induction l with
  | nil => intro st h; exact h
  | cons a l ih =>
      intro st h
      exact ih (f st a) (hf st a h)

theorem startsMove_curveOps_big (em : ExtMath) (points : List Pt)
    (close_point : Option Pt) (o : DrawOptions) (h3 : 3 ≤ points.length) :
    startsMove (curveOps em points close_point o).1 := by
  simp only [curveOps]
  split_ifs with h1 h2
  · cases close_point with
    | some cp =>
        simp only []
        apply startsMove_append_left
        apply startsMove_foldl_append _ (fun st a => ⟨_, rfl⟩)
        simp [startsMove]
    | none =>
        simp only []
        apply startsMove_foldl_append _ (fun st a => ⟨_, rfl⟩)
        simp [startsMove]
  · simp [startsMove]
  · omega
  · omega

theorem wfOps_curveOps (em : ExtMath) (points : List Pt)
    (close_point : Option Pt) (o : DrawOptions) :
    wfOps (curveOps em points close_point o).1 := by
  by_cases h3 : 3 ≤ points.length
  · exact wfOps_of_startsMove (startsMove_curveOps_big em points close_point o h3)
  · simp only [curveOps]
    split_ifs with h1 h2 hl2
    · omega
    · omega
    · exact wfOps_of_startsMove (startsMove_double_line em _ _ _ _ o false)
    · trivial

theorem startsMove_line (em : ExtMath) (x1 y1 x2 y2 : ℚ) (o : DrawOptions) :
    startsMove (line em x1 y1 x2 y2 o).1.ops := by
  simp only [line]
  exact startsMove_double_line em x1 y1 x2 y2 o false

theorem wfOps_linear_path (em : ExtMath) (points : List Pt) (close : Bool)
    (o : DrawOptions) :
    wfOps (linear_path em points close o).1.ops := by
  have hfold : wfOps ((List.range (points.length - 1)).foldl
      (fun (st : List Op × DrawOptions) i =>
        let p := points.getD i ⟨0, 0⟩
        let q := points.getD (i + 1) ⟨0, 0⟩
        let dl := double_line em p.x p.y q.x q.y st.2 false
        (st.1 ++ dl.1, dl.2)) ([], o)).1 := by
    refine foldl_wfOps _ ?_ _ ([], o) trivial
    intro st a hwf
    exact wfOps_append hwf
      (wfOps_of_startsMove (startsMove_double_line em _ _ _ _ st.2 false))
  simp only [linear_path]
  split_ifs with h1 hc h2
  · exact wfOps_append hfold
      (wfOps_of_startsMove (startsMove_double_line em _ _ _ _ _ false))
  · exact hfold
  · exact wfOps_of_startsMove (startsMove_line em _ _ _ _ o)
  · trivial

theorem wfOps_bezier_to (em : ExtMath) (x1 y1 x2 y2 x y : ℚ) (current : Pt)
    (o : DrawOptions) :
    wfOps (bezier_to em x1 y1 x2 y2 x y current o).1 := by
  simp only [bezier_to]
  refine foldl_wfOps _ ?_ _ ([], o) trivial
  intro st a hwf
  simp only []
  rw [List.append_assoc]
  refine wfOps_append hwf ?_
  split_ifs <;> simp [wfOps]

theorem wfOps_curve_with_offset (em : ExtMath) (points : List Pt)
    (offset : ℚ) (o : DrawOptions) (r : List Op × DrawOptions)
    (h : curve_with_offset em points offset o = some r) :
    wfOps r.1 := by
  match points, h with
  | p0 :: rest, h =>
    simp only [curve_with_offset, Option.some.injEq] at h
    rw [← h]
    exact wfOps_curveOps em _ none _

theorem wfOps_curveShape (em : ExtMath) (points : List Pt) (o : DrawOptions)
    (r : OpSet × DrawOptions) (h : curveShape em points o = some r) :
    wfOps r.1.ops := by
  simp only [curveShape] at h
  cases h1 : curve_with_offset em points (1 * (1 + o.roughness.getD 0 * (2/10))) o with
  | none =>
      simp only [h1] at h
      exact Option.noConfusion h
  | some v1 =>
      simp only [h1] at h
      split_ifs at h with hms
      · simp only [Option.some.injEq] at h
        rw [← h]
        exact wfOps_curve_with_offset em points _ o v1 h1
      · cases h2 : curve_with_offset em points
            ((3/2) * (1 + o.roughness.getD 0 * (22/100)))
            (clone_options_alter_seed v1.2) with
        | none =>
            simp only [h2] at h
            exact Option.noConfusion h
        | some v2 =>
            simp only [h2, Option.some.injEq] at h
            rw [← h]
            exact wfOps_append (wfOps_curve_with_offset em points _ o v1 h1)
              (wfOps_curve_with_offset em points _ _ v2 h2)

theorem wfOps_ellipse_with_params (em : ExtMath) (x y : ℚ) (o : DrawOptions)
    (params : EllipseParams) (r : (OpSet × List Pt) × DrawOptions)
    (h : ellipse_with_params em x y o params = some r) :
    wfOps r.1.1.ops := by
  simp only [ellipse_with_params] at h
  cases hc : compute_ellipse_points em params.increment x y params.rx
      params.ry 1 (params.increment *
        (offsetRand (1/10) (offsetRand (4/10) 1 o none).1
          (offsetRand (4/10) 1 o none).2 none).1)
      (offsetRand (1/10) (offsetRand (4/10) 1 o none).1
        (offsetRand (4/10) 1 o none).2 none).2 with
  | none =>
      simp only [hc] at h
      exact Option.noConfusion h
  | some v =>
      simp only [hc] at h
      obtain ⟨⟨all1, core1⟩, o1⟩ := v
      split_ifs at h with hms
      · cases hc2 : compute_ellipse_points em params.increment x y params.rx
            params.ry (3/2) 0 (curveOps em all1 none o1).2 with
        | none =>
            simp only [hc2] at h
            exact Option.noConfusion h
        | some v2 =>
            simp only [hc2] at h
            obtain ⟨⟨all2, core2⟩, o2⟩ := v2
            simp only [Option.some.injEq] at h
            rw [← h]
            exact wfOps_append (wfOps_curveOps em _ none _)
              (wfOps_curveOps em _ none _)
      · simp only [Option.some.injEq] at h
        rw [← h]
        exact wfOps_curveOps em _ none _

theorem wfOps_ellipse (em : ExtMath) (x y w ht : ℚ) (o : DrawOptions)
    (r : OpSet × DrawOptions) (h : ellipse em x y w ht o = some r) :
    wfOps r.1.ops := by
  simp only [ellipse] at h
  cases he : ellipse_with_params em x y (generate_ellipse_params em w ht o).2
      (generate_ellipse_params em w ht o).1 with
  | none =>
      simp only [he] at h
      exact Option.noConfusion h
  | some v =>
      simp only [he] at h
      obtain ⟨⟨opset, est⟩, o1⟩ := v
      simp only [Option.some.injEq] at h
      rw [← h]
      exact wfOps_ellipse_with_params em x y _ _ _ he

theorem wfOps_line (em : ExtMath) (x1 y1 x2 y2 : ℚ) (o : DrawOptions) :
    wfOps (line em x1 y1 x2 y2 o).1.ops :=
  wfOps_of_startsMove (startsMove_line em x1 y1 x2 y2 o)

theorem wfOps_polygonShape (em : ExtMath) (points : List Pt) (o : DrawOptions) :
    wfOps (polygonShape em points o).1.ops :=
  wfOps_linear_path em points true o

theorem wfOps_rectangle (em : ExtMath) (x y w h : ℚ) (o : DrawOptions) :
    wfOps (rectangle em x y w h o).1.ops :=
  wfOps_polygonShape em _ o

theorem wfOps_bezierQuadratic (em : ExtMath) (start cp fin : Pt)
    (o : DrawOptions) : wfOps (bezierQuadratic em start cp fin o).1.ops := by
  simp only [bezierQuadratic, bezier_quadratic_to]
  exact wfOps_bezier_to em _ _ _ _ _ _ _ o

theorem wfOps_bezierCubic (em : ExtMath) (start cp1 cp2 fin : Pt)
    (o : DrawOptions) : wfOps (bezierCubic em start cp1 cp2 fin o).1.ops := by
  simp only [bezierCubic]
  exact wfOps_bezier_to em _ _ _ _ _ _ _ o

theorem startsMove_append_move {a : List Op} (h : wfOps a) (b : List Op)
    (hb : startsMove b) : startsMove (a ++ b) := by
  cases a with
  | nil => simpa using hb
  | cons x l => exact startsMove_append_left h

theorem foldl_startsMove {α β : Type} (f : (List Op × β) → α → (List Op × β))
    (hf : ∀ st a, startsMove st.1 → startsMove (f st a).1) :
    ∀ (l : List α) (st : List Op × β), startsMove st.1 →
      startsMove (l.foldl f st).1 := by
  intro l
  induction l with
  | nil => intro st h; exact h
  | cons a l ih =>
      intro st h
      exact ih (f st a) (hf st a h)

theorem wfOps_solid_fill_polygon (polygon_list : List (List Pt))
    (o : DrawOptions) : wfOps (solid_fill_polygon polygon_list o).1.ops := by
  simp only [solid_fill_polygon]
  refine foldl_wfOps _ ?_ _ ([], o) trivial
  intro st polygon hwf
  split_ifs with h2
  · cases hp : polygon with
    | nil => rw [hp] at h2; simp at h2
    | cons p rest =>
        simp only [hp, List.enum, List.enumFrom, List.foldl_cons]
        refine wfOps_of_startsMove (foldl_startsMove _ ?_ _ _ ?_)
        · intro st2 ip hsm
          exact startsMove_append_left hsm
        · exact startsMove_append_move hwf _ (by simp [startsMove])
  · exact hwf

theorem arcPointsLoop_prefix (em : ExtMath) :
    ∀ (fuel : ℕ) (angle stp inc cx cy rx ry offset : ℚ) (o : DrawOptions)
      (points : List Pt) (res : List Pt × DrawOptions),
      arcPointsLoop em fuel angle stp inc cx cy rx ry offset o points =
        some res → ∃ t, res.1 = points ++ t := by
  intro fuel
  induction fuel with
  | zero =>
      intro angle stp inc cx cy rx ry offset o points res h
      rw [arcPointsLoop] at h
      by_cases hc : ¬ (angle ≤ stp)
      · rw [if_pos hc] at h
        cases h
        exact ⟨[], by simp⟩
      · rw [if_neg hc] at h
        exact Option.noConfusion h
  | succ fuel ih =>
      intro angle stp inc cx cy rx ry offset o points res h
      rw [arcPointsLoop] at h
      by_cases hc : ¬ (angle ≤ stp)
      · rw [if_pos hc] at h
        cases h
        exact ⟨[], by simp⟩
      · rw [if_neg hc] at h
        obtain ⟨t, ht⟩ := ih _ _ _ _ _ _ _ _ _ _ _ h
        refine ⟨⟨(offsetOpt offset o none).1 + cx + rx * em.cos angle,
          (offsetOpt offset (offsetOpt offset o none).2 none).1 + cy +
            ry * em.sin angle⟩ :: t, ?_⟩
        rw [ht]
        simp

theorem startsMove_arcOps (em : ExtMath)
    (increment cx cy rx ry strt stp offset : ℚ) (o : DrawOptions)
    (r : List Op × DrawOptions)
    (h : arcOps em increment cx cy rx ry strt stp offset o = some r) :
    startsMove r.1 := by
  simp only [arcOps] at h
  cases hl : arcPointsLoop em
      (loopFuel (strt + (offsetOpt (1/10) o none).1) stp increment)
      (strt + (offsetOpt (1/10) o none).1) stp increment cx cy rx ry offset
      (offsetOpt offset
        (offsetOpt offset (offsetOpt (1/10) o none).2 none).2 none).2
      [⟨(offsetOpt offset (offsetOpt (1/10) o none).2 none).1 + cx +
          (9/10) * rx * em.cos (strt + (offsetOpt (1/10) o none).1 - increment),
        (offsetOpt offset
            (offsetOpt offset (offsetOpt (1/10) o none).2 none).2 none).1 + cy +
          (9/10) * ry * em.sin
            (strt + (offsetOpt (1/10) o none).1 - increment)⟩] with
  | none =>
      simp only [hl] at h
      exact Option.noConfusion h
  | some v =>
      obtain ⟨points, o1⟩ := v
      obtain ⟨t, ht⟩ := arcPointsLoop_prefix em _ _ _ _ _ _ _ _ _ _ _ _ hl
      have ht2 : points = _ := ht
      simp only [hl, Option.some.injEq] at h
      rw [← h]
      refine startsMove_curveOps_big em _ none o1 ?_
      rw [ht2]
      simp only [List.length_append, List.length_cons, List.length_nil]
      omega

theorem wfOps_arcShape (em : ExtMath) (x y width height start stop : ℚ)
    (closed rough_closure : Bool) (o : DrawOptions) (r : OpSet × DrawOptions)
    (h : arcShape em x y width height start stop closed rough_closure o =
      some r) : wfOps r.1.ops := by
  simp only [arcShape] at h
  cases hs : arcStartLoop (loopFuel start 0 (pi32 * 2)) start stop with
  | none =>
      simp only [hs] at h
      exact Option.noConfusion h
  | some v =>
      obtain ⟨strt1, stp1⟩ := v
      simp only [hs] at h
      cases ha1 : arcOps em
          (Roughfeel.PointsOnCurve.ratMin
            ((pi32 * 2 / (o.curve_step_count.getD 1)) / 2)
            (((if stp1 - strt1 > pi32 * 2 then pi32 * 2 else stp1) -
              (if stp1 - strt1 > pi32 * 2 then 0 else strt1)) / 2))
          x y
          (Roughfeel.PointsOnCurve.ratAbs (width / 2) +
            (offsetOpt (Roughfeel.PointsOnCurve.ratAbs (width / 2) * (1/100)) o
              none).1)
          (Roughfeel.PointsOnCurve.ratAbs (height / 2) +
            (offsetOpt (Roughfeel.PointsOnCurve.ratAbs (height / 2) * (1/100))
              (offsetOpt (Roughfeel.PointsOnCurve.ratAbs (width / 2) * (1/100))
                o none).2 none).1)
          (if stp1 - strt1 > pi32 * 2 then 0 else strt1)
          (if stp1 - strt1 > pi32 * 2 then pi32 * 2 else stp1) 1
          (offsetOpt (Roughfeel.PointsOnCurve.ratAbs (height / 2) * (1/100))
            (offsetOpt (Roughfeel.PointsOnCurve.ratAbs (width / 2) * (1/100)) o
              none).2 none).2 with
      | none =>
          simp only [ha1] at h
          exact Option.noConfusion h
      | some a1 =>
          simp only [ha1] at h
          have hwf1 : startsMove a1.1 :=
            startsMove_arcOps em _ _ _ _ _ _ _ _ _ a1 ha1
          by_cases hms : o.disable_multi_stroke.getD false
          · rw [if_neg (by simpa using hms)] at h
            simp only [Option.some.injEq] at h
            rw [← h]
            rcases closed with _ | _
            · exact wfOps_of_startsMove hwf1
            · rcases rough_closure with _ | _
              · exact wfOps_of_startsMove (startsMove_append_left hwf1)
              · exact wfOps_of_startsMove
                  (startsMove_append_left (startsMove_append_left hwf1))
          · rw [if_pos (by simpa using hms)] at h
            cases ha2 : arcOps em
                (Roughfeel.PointsOnCurve.ratMin
                  ((pi32 * 2 / (o.curve_step_count.getD 1)) / 2)
                  (((if stp1 - strt1 > pi32 * 2 then pi32 * 2 else stp1) -
                    (if stp1 - strt1 > pi32 * 2 then 0 else strt1)) / 2))
                x y
                (Roughfeel.PointsOnCurve.ratAbs (width / 2) +
                  (offsetOpt
                    (Roughfeel.PointsOnCurve.ratAbs (width / 2) * (1/100)) o
                    none).1)
                (Roughfeel.PointsOnCurve.ratAbs (height / 2) +
                  (offsetOpt
                    (Roughfeel.PointsOnCurve.ratAbs (height / 2) * (1/100))
                    (offsetOpt
                      (Roughfeel.PointsOnCurve.ratAbs (width / 2) * (1/100)) o
                      none).2 none).1)
                (if stp1 - strt1 > pi32 * 2 then 0 else strt1)
                (if stp1 - strt1 > pi32 * 2 then pi32 * 2 else stp1) (3/2)
                a1.2 with
            | none =>
                simp only [ha2] at h
                exact Option.noConfusion h
            | some a2 =>
                simp only [ha2, Option.some.injEq] at h
                rw [← h]
                rcases closed with _ | _
                · exact wfOps_of_startsMove (startsMove_append_left hwf1)
                · rcases rough_closure with _ | _
                  · exact wfOps_of_startsMove
                      (startsMove_append_left (startsMove_append_left hwf1))
                  · exact wfOps_of_startsMove (startsMove_append_left
                      (startsMove_append_left (startsMove_append_left hwf1)))

theorem wfOps_render_lines (em : ExtMath) (lines : List GLine)
    (o : DrawOptions) : wfOps (render_lines em lines o).1 := by
  simp only [render_lines]
  refine foldl_wfOps _ ?_ _ ([], o) trivial
  intro st l hwf
  exact wfOps_append hwf
    (wfOps_of_startsMove (startsMove_double_line em _ _ _ _ st.2 true))

theorem wfOps_scanlineFill (em : ExtMath) (polys : List (List Pt))
    (o : DrawOptions) (r : (OpSet × List (List Pt)) × DrawOptions)
    (h : scanlineFill em polys o = some r) : wfOps r.1.1.ops := by
  simp only [scanlineFill] at h
  cases hl : polygon_hachure_lines em polys o with
  | none =>
      simp only [hl] at h
      exact Option.noConfusion h
  | some v =>
      obtain ⟨lines, polys1⟩ := v
      simp only [hl, Option.some.injEq] at h
      rw [← h]
      exact wfOps_render_lines em lines o

theorem wfOps_hatchFill (em : ExtMath) (polys : List (List Pt))
    (o : DrawOptions) (r : (OpSet × List (List Pt)) × DrawOptions)
    (h : hatchFill em polys o = some r) : wfOps r.1.1.ops := by
  simp only [hatchFill] at h
  cases h1 : scanlineFill em polys o with
  | none =>
      simp only [h1] at h
      exact Option.noConfusion h
  | some v1 =>
      obtain ⟨⟨set1, polys1⟩, o1⟩ := v1
      simp only [h1] at h
      cases h2 : scanlineFill em polys1
          (o1.set_hachure_angle (o1.hachure_angle.map (fun a => a + 90))) with
      | none =>
          simp only [h2] at h
          exact Option.noConfusion h
      | some v2 =>
          obtain ⟨⟨set2, polys2⟩, o3⟩ := v2
          simp only [h2, Option.some.injEq] at h
          rw [← h]
          exact wfOps_append (wfOps_scanlineFill em polys o _ h1)
            (wfOps_scanlineFill em polys1 _ _ h2)

theorem wfOps_dotSingle (em : ExtMath) (x ro gap min_y offset fweight : ℚ)
    (i : ℕ) (st : List Op × DrawOptions) (out : List Op × DrawOptions)
    (h : dotSingle em x ro gap min_y offset fweight i st = some out)
    (hwf : wfOps st.1) : wfOps out.1 := by
  simp only [dotSingle] at h
  cases he : ellipse em
      ((x - ro) + (st.2.random).1 * 2 * ro)
      ((min_y + offset + (i : ℚ) * gap - ro) +
        (((st.2.random).2).random).1 * 2 * ro)
      fweight fweight (((st.2.random).2).random).2 with
  | none =>
      simp only [he] at h
      exact Option.noConfusion h
  | some v =>
      obtain ⟨eops, o2⟩ := v
      simp only [he, Option.some.injEq] at h
      rw [← h]
      exact wfOps_append hwf (wfOps_ellipse em _ _ _ _ _ (eops, o2) he)

theorem foldl_wfOps_opt {α β : Type}
    (f : Option (List Op × β) → α → Option (List Op × β))
    (hnone : ∀ a, f none a = none)
    (hf : ∀ st a out, f (some st) a = some out → wfOps st.1 → wfOps out.1) :
    ∀ (l : List α) (st : List Op × β) (out : List Op × β),
      l.foldl f (some st) = some out → wfOps st.1 → wfOps out.1 := by
  intro l
  induction l with
  | nil =>
      intro st out h hwf
      simp only [List.foldl_nil, Option.some.injEq] at h
      rw [← h]
      exact hwf
  | cons a l ih =>
      intro st out h hwf
      simp only [List.foldl_cons] at h
      cases hstep : f (some st) a with
      | none =>
          rw [hstep, foldl_none_of_none f hnone l] at h
          exact Option.noConfusion h
      | some st1 =>
          rw [hstep] at h
          exact ih st1 out h (hf st a st1 hstep hwf)

theorem wfOps_dots_on_line (em : ExtMath) (lines : List GLine)
    (o : DrawOptions) (r : List Op × DrawOptions)
    (h : dots_on_line em lines o = some r) : wfOps r.1 := by
  simp only [dots_on_line] at h
  refine foldl_wfOps_opt _ (fun a => rfl) ?_ lines ([], o) r h trivial
  intro st l out hstep hwf
  simp only [] at hstep
  split_ifs at hstep <;>
    first
      | (simp only [Option.some.injEq] at hstep
         rw [← hstep]
         exact hwf)
      | (refine foldl_wfOps_opt _ (fun i => rfl) ?_ _ st out hstep hwf
         intro st2 i out2 h2 hwf2
         exact wfOps_dotSingle em _ _ _ _ _ _ i st2 out2 h2 hwf2)

theorem wfOps_dotFill (em : ExtMath) (polys : List (List Pt))
    (o : DrawOptions) (r : (OpSet × List (List Pt)) × DrawOptions)
    (h : dotFill em polys o = some r) : wfOps r.1.1.ops := by
  simp only [dotFill] at h
  cases hl : polygon_hachure_lines em polys (o.set_hachure_angle (some 0)) with
  | none =>
      simp only [hl] at h
      exact Option.noConfusion h
  | some v =>
      obtain ⟨lines, polys1⟩ := v
      simp only [hl] at h
      cases hd : dots_on_line em lines (o.set_hachure_angle (some 0)) with
      | none =>
          simp only [hd] at h
          exact Option.noConfusion h
      | some w =>
          obtain ⟨ops, o2⟩ := w
          simp only [hd, Option.some.injEq] at h
          rw [← h]
          exact wfOps_dots_on_line em lines _ (ops, o2) hd

theorem wfOps_dashed_line (em : ExtMath) (lines : List GLine)
    (o : DrawOptions) : wfOps (dashed_line em lines o).1 := by
  simp only [dashed_line]
  refine foldl_wfOps _ ?_ _ ([], o) trivial
  intro st l hwf
  refine foldl_wfOps _ ?_ _ st hwf
  intro st2 i hwf2
  exact wfOps_append hwf2
    (wfOps_of_startsMove (startsMove_double_line em _ _ _ _ st2.2 false))

theorem wfOps_dashedFill (em : ExtMath) (polys : List (List Pt))
    (o : DrawOptions) (r : (OpSet × List (List Pt)) × DrawOptions)
    (h : dashedFill em polys o = some r) : wfOps r.1.1.ops := by
  simp only [dashedFill] at h
  cases hl : polygon_hachure_lines em polys o with
  | none =>
      simp only [hl] at h
      exact Option.noConfusion h
  | some v =>
      obtain ⟨lines, polys1⟩ := v
      simp only [hl, Option.some.injEq] at h
      rw [← h]
      exact wfOps_dashed_line em lines o

theorem wfOps_zigzagFill (em : ExtMath) (polys : List (List Pt))
    (o : DrawOptions) (r : (OpSet × List (List Pt)) × DrawOptions)
    (h : zigzagFill em polys o = some r) : wfOps r.1.1.ops := by
  simp only [zigzagFill] at h
  cases hl : polygon_hachure_lines em polys
      (o.set_hachure_gap (some (Roughfeel.PointsOnCurve.ratMax
        (if o.hachure_gap.getD (-1) < 0 then (o.stroke_width.getD 1) * 4
          else o.hachure_gap.getD (-1)) (1/10)))) with
  | none =>
      simp only [hl] at h
      exact Option.noConfusion h
  | some v =>
      obtain ⟨lines, polys1⟩ := v
      simp only [hl, Option.some.injEq] at h
      rw [← h]
      exact wfOps_render_lines em _ o

theorem wfOps_zig_zag_lines (em : ExtMath) (lines : List GLine)
    (zig_zag_offset : ℚ) (o : DrawOptions) :
    wfOps (zig_zag_lines em lines zig_zag_offset o).1 := by
  simp only [zig_zag_lines]
  refine foldl_wfOps _ ?_ _ ([], o) trivial
  intro st l hwf
  refine foldl_wfOps _ ?_ _ st hwf
  intro st2 i hwf2
  rw [List.append_assoc]
  refine wfOps_append hwf2 ?_
  exact wfOps_append
    (wfOps_of_startsMove (startsMove_double_line em _ _ _ _ st2.2 false))
    (wfOps_of_startsMove (startsMove_double_line em _ _ _ _ _ false))

theorem wfOps_zigzagLineFill (em : ExtMath) (polys : List (List Pt))
    (o : DrawOptions) (r : (OpSet × List (List Pt)) × DrawOptions)
    (h : zigzagLineFill em polys o = some r) : wfOps r.1.1.ops := by
  simp only [zigzagLineFill] at h
  cases hl : polygon_hachure_lines em polys
      (o.set_hachure_gap (some (zigzagLineNewGap o))) with
  | none =>
      simp only [zigzagLineNewGap] at hl
      simp only [hl] at h
      exact Option.noConfusion h
  | some v =>
      obtain ⟨lines, polys1⟩ := v
      simp only [zigzagLineNewGap] at hl
      simp only [hl, Option.some.injEq] at h
      rw [← h]
      exact wfOps_zig_zag_lines em lines _ _

theorem wfOps_pattern_fill_polygons (em : ExtMath) (polys : List (List Pt))
    (o : DrawOptions) (r : OpSet × DrawOptions)
    (h : pattern_fill_polygons em polys o = some r) : wfOps r.1.ops := by
  simp only [pattern_fill_polygons] at h
  cases hfs : o.fill_style with
  | none =>
      simp only [hfs] at h
      cases hf : scanlineFill em polys o with
      | none => simp only [hf] at h; exact Option.noConfusion h
      | some v =>
          obtain ⟨⟨opset, ps⟩, o1⟩ := v
          simp only [hf, Option.some.injEq] at h
          rw [← h]
          exact wfOps_scanlineFill em polys o _ hf
  | some fs =>
      cases fs with
      | Hachure =>
          simp only [hfs] at h
          cases hf : scanlineFill em polys o with
          | none => simp only [hf] at h; exact Option.noConfusion h
          | some v =>
              obtain ⟨⟨opset, ps⟩, o1⟩ := v
              simp only [hf, Option.some.injEq] at h
              rw [← h]
              exact wfOps_scanlineFill em polys o _ hf
      | Solid =>
          simp only [hfs] at h
          cases hf : scanlineFill em polys o with
          | none => simp only [hf] at h; exact Option.noConfusion h
          | some v =>
              obtain ⟨⟨opset, ps⟩, o1⟩ := v
              simp only [hf, Option.some.injEq] at h
              rw [← h]
              exact wfOps_scanlineFill em polys o _ hf
      | Dashed =>
          simp only [hfs] at h
          cases hf : dashedFill em polys o with
          | none => simp only [hf] at h; exact Option.noConfusion h
          | some v =>
              obtain ⟨⟨opset, ps⟩, o1⟩ := v
              simp only [hf, Option.some.injEq] at h
              rw [← h]
              exact wfOps_dashedFill em polys o _ hf
      | Dots =>
          simp only [hfs] at h
          cases hf : dotFill em polys o with
          | none => simp only [hf] at h; exact Option.noConfusion h
          | some v =>
              obtain ⟨⟨opset, ps⟩, o1⟩ := v
              simp only [hf, Option.some.injEq] at h
              rw [← h]
              exact wfOps_dotFill em polys o _ hf
      | CrossHatch =>
          simp only [hfs] at h
          cases hf : hatchFill em polys o with
          | none => simp only [hf] at h; exact Option.noConfusion h
          | some v =>
              obtain ⟨⟨opset, ps⟩, o1⟩ := v
              simp only [hf, Option.some.injEq] at h
              rw [← h]
              exact wfOps_hatchFill em polys o _ hf
      | ZigZag =>
          simp only [hfs] at h
          cases hf : zigzagFill em polys o with
          | none => simp only [hf] at h; exact Option.noConfusion h
          | some v =>
              obtain ⟨⟨opset, ps⟩, o1⟩ := v
              simp only [hf, Option.some.injEq] at h
              rw [← h]
              exact wfOps_zigzagFill em polys o _ hf
      | ZigZagLine =>
          simp only [hfs] at h
          cases hf : zigzagLineFill em polys o with
          | none => simp only [hf] at h; exact Option.noConfusion h
          | some v =>
              obtain ⟨⟨opset, ps⟩, o1⟩ := v
              simp only [hf, Option.some.injEq] at h
              rw [← h]
              exact wfOps_zigzagLineFill em polys o _ hf

theorem wfOps_svgGo (em : ExtMath) :
    ∀ (segs : List PathSeg) (ops : List Op) (first current : Pt)
      (o : DrawOptions) (r : List Op × Pt × Pt × DrawOptions),
      svgGo em segs (ops, first, current, o) = some r → wfOps ops →
        wfOps r.1 := by
  intro segs
  induction segs with
  | nil =>
      intro ops first current o r h hwf
      simp only [svgGo, Option.some.injEq] at h
      rw [← h]
      exact hwf
  | cons seg rest ih =>
      intro ops first current o r h hwf
      cases seg with
      | moveTo x y =>
          simp only [svgGo] at h
          refine ih _ _ _ _ r h ?_
          exact wfOps_append hwf (by simp [wfOps])
      | lineTo x y =>
          simp only [svgGo] at h
          refine ih _ _ _ _ r h ?_
          exact wfOps_append hwf
            (wfOps_of_startsMove (startsMove_double_line em _ _ _ _ o false))
      | curveTo x1 y1 x2 y2 x y =>
          simp only [svgGo] at h
          refine ih _ _ _ _ r h ?_
          exact wfOps_append hwf (wfOps_bezier_to em _ _ _ _ _ _ _ o)
      | closePath =>
          simp only [svgGo] at h
          refine ih _ _ _ _ r h ?_
          exact wfOps_append hwf
            (wfOps_of_startsMove (startsMove_double_line em _ _ _ _ o false))
      | other =>
          simp only [svgGo] at h
          exact Option.noConfusion h

theorem wfOps_svgPath (em : ExtMath) (segs : List PathSeg) (o : DrawOptions)
    (r : OpSet × DrawOptions) (h : svgPath em segs o = some r) :
    wfOps r.1.ops := by
  simp only [svgPath] at h
  cases hg : svgGo em segs ([], ⟨0, 0⟩, ⟨0, 0⟩, o) with
  | none =>
      simp only [hg] at h
      exact Option.noConfusion h
  | some v =>
      obtain ⟨ops, f, c, o1⟩ := v
      simp only [hg, Option.some.injEq] at h
      rw [← h]
      exact wfOps_svgGo em segs [] ⟨0, 0⟩ ⟨0, 0⟩ o _ hg trivial

theorem wfOps_runDraw (em : ExtMath) (c : DrawCall) (o : DrawOptions)
    (r : OpSet × DrawOptions) (h : runDraw em c o = some r) :
    wfOps r.1.ops := by
  cases c with
  | lineD x1 y1 x2 y2 =>
      simp only [runDraw, Option.some.injEq] at h
      rw [← h]
      exact wfOps_line em x1 y1 x2 y2 o
  | linearPathD points close =>
      simp only [runDraw, Option.some.injEq] at h
      rw [← h]
      exact wfOps_linear_path em points close o
  | polygonD points =>
      simp only [runDraw, Option.some.injEq] at h
      rw [← h]
      exact wfOps_polygonShape em points o
  | rectangleD x y w ht =>
      simp only [runDraw, Option.some.injEq] at h
      rw [← h]
      exact wfOps_rectangle em x y w ht o
  | curveD points =>
      exact wfOps_curveShape em points o r h
  | ellipseD x y w ht =>
      exact wfOps_ellipse em x y w ht o r h
  | arcD x y w ht start stop closed rough =>
      exact wfOps_arcShape em x y w ht start stop closed rough o r h
  | bezierQuadraticD start cp fin =>
      simp only [runDraw, Option.some.injEq] at h
      rw [← h]
      exact wfOps_bezierQuadratic em start cp fin o
  | bezierCubicD start cp1 cp2 fin =>
      simp only [runDraw, Option.some.injEq] at h
      rw [← h]
      exact wfOps_bezierCubic em start cp1 cp2 fin o
  | solidFillD polys =>
      simp only [runDraw, Option.some.injEq] at h
      rw [← h]
      exact wfOps_solid_fill_polygon polys o
  | patternFillD polys =>
      exact wfOps_pattern_fill_polygons em polys o r h
  | svgPathD segs =>
      exact wfOps_svgPath em segs o r h

/-- Claim C9 (confirmed): every op set produced by the core primitive
renderers (`line`, `linear_path`, `polygon`, `rectangle`, `curve`,
`ellipse`, `arc`, the bezier primitives, `svg_path`) and by the fill engine
(`solid_fill_polygon` and `pattern_fill_polygons`) satisfies the operation
invariant: if the ops list is non-empty its first operation is a `Move`,
and every `LineTo` or `BCurveTo` operation occurs at a positive index —
after some earlier operation (the initial `Move`) has established a
current point. -/
theorem C9_ops_invariant (em : ExtMath) (c : DrawCall) (o : DrawOptions)
    (r : OpSet × DrawOptions) (h : runDraw em c o = some r) :
    (∀ (hne : r.1.ops ≠ []), (r.1.ops.head hne).op = OpType.Move) ∧
    (∀ i (hi : i < r.1.ops.length),
      ((r.1.ops.get ⟨i, hi⟩).op = OpType.LineTo ∨
       (r.1.ops.get ⟨i, hi⟩).op = OpType.BCurveTo) → 0 < i) := by
  have hwf := wfOps_runDraw em c o r h
  cases hops : r.1.ops with
  | nil =>
      refine ⟨?_, ?_⟩
      · intro hne
        exact absurd rfl hne
      · intro i hi
        exact absurd hi (by simp)
  | cons a l =>
      rw [hops] at hwf
      have hA : a.op = OpType.Move := hwf
      refine ⟨fun hne => hA, ?_⟩
      intro i hi hop
      cases i with
      | zero =>
          exfalso
          rcases hop with h1 | h1
          · have h2 : OpType.Move = OpType.LineTo := by
              rw [← hA]
              exact h1.symm ▸ rfl
            exact OpType.noConfusion h2
          · have h2 : OpType.Move = OpType.BCurveTo := by
              rw [← hA]
              exact h1.symm ▸ rfl
            exact OpType.noConfusion h2
      | succ n => exact Nat.succ_pos n

/-- Witness for C9: the empty linear path yields the empty op set, on which
both invariant conjuncts are applied concretely. -/
theorem C9_ops_invariant_witness :
    (∀ (hne : (⟨OpSetType.Path, [], none, none⟩ : OpSet).ops ≠ []),
      ((⟨OpSetType.Path, [], none, none⟩ : OpSet).ops.head hne).op =
        OpType.Move) ∧
    (∀ i (hi : i < (⟨OpSetType.Path, [], none, none⟩ : OpSet).ops.length),
      (((⟨OpSetType.Path, [], none, none⟩ : OpSet).ops.get ⟨i, hi⟩).op =
          OpType.LineTo ∨
       ((⟨OpSetType.Path, [], none, none⟩ : OpSet).ops.get ⟨i, hi⟩).op =
          OpType.BCurveTo) → 0 < i) :=
  C9_ops_invariant ExtMath.triv (DrawCall.linearPathD [] false)
    DrawOptions.default
    (⟨OpSetType.Path, [], none, none⟩, DrawOptions.default) rfl

end Graphics

end Roughfeel
